import Mathlib

/-!
# Process table, lifecycle and two-tier lottery scheduler of `kernel/proc.c`

A shallow embedding of `proc.c` (an xv6 process core with a lottery
scheduler).  The process table `ptable.proc[NPROC]` is a `List proc`
whose length is `NPROC`; a `struct proc *` is the index of a slot (`Ptr`
for the pointer-valued fields, which also hold null and foreign
addresses).  Every function is one C function of the file; the loops over
the table are recursions over the list in slot order.

C `int` values are carried in `Int` without wrap-around: `nextpid` and the
tick counters grow by one per call, so they stay below 2^31 in any run of
fewer than 2^31 calls.  The one multiplication of the file, in `rand1`, is
wrapped to 32 bits explicitly.  What the excluded layers return (`kalloc`,
`copyuvm`, `setupkvm`, `namei`) is an argument of the function that calls
them, `0` being the null pointer.  The lock, the interrupt flag and the
context switch are not part of the state: an operation is the effect of
one critical section on the table, and the two halves of a scheduler
round (before and after `swtch`) are two operations.
-/

namespace P2b

/-! ## Data model (`proc.h`) -/

/-- The six process states, in the order of the C enumeration. -/
inductive procstate where
  | UNUSED
  | EMBRYO
  | SLEEPING
  | RUNNABLE
  | RUNNING
  | ZOMBIE
  deriving DecidableEq, Repr

/-- A pointer value as the process core compares it: null, the address of
a table slot (`&ptable.proc[i]`; `i = NPROC` is the address one past the
table), or some other kernel address. -/
inductive Ptr where
  | null
  | slot (i : Nat)
  | addr (a : Nat)
  deriving DecidableEq, Repr

/-- The saved user registers; `eax` carries the system-call return value.
`regs` stands for the registers this file never names. -/
structure trapframe where
  eax : Nat
  eip : Nat
  esp : Nat
  eflags : Nat
  cs : Nat
  ds : Nat
  es : Nat
  ss : Nat
  regs : Nat
  deriving DecidableEq, Repr

/-- One slot of the process table (`struct proc`), with the scheduling
fields this repository adds: `numTickets`, `highticks`, `lowticks`,
`current` (running flag) and `whichqueue` (1 = HIGH, 0 = LOW).  `tf` is
the content of the trap frame the slot points to. -/
structure proc where
  sz : Nat
  pgdir : Nat
  kstack : Nat
  state : procstate
  pid : Int
  parent : Ptr
  tf : trapframe
  chan : Ptr
  killed : Int
  ofile : List Nat
  cwd : Nat
  name : List Char
  numTickets : Int
  highticks : Int
  lowticks : Int
  current : Int
  whichqueue : Int
  deriving DecidableEq, Repr

/-- The all-zero trap frame (`memset(p->tf, 0, ...)`). -/
def tfZero : trapframe :=
  { eax := 0, eip := 0, esp := 0, eflags := 0, cs := 0, ds := 0, es := 0, ss := 0, regs := 0 }

/-- A slot of the zero-initialised table at boot: state `UNUSED` (enum
value 0), pid 0, null pointers, all counters 0. -/
def procZero : proc :=
  { sz := 0, pgdir := 0, kstack := 0, state := procstate.UNUSED, pid := 0,
    parent := Ptr.null, tf := tfZero, chan := Ptr.null, killed := 0,
    ofile := [], cwd := 0, name := [], numTickets := 0, highticks := 0,
    lowticks := 0, current := 0, whichqueue := 0 }

/-- The table at boot: `n` zeroed slots (`n` plays `NPROC`). -/
def emptyTable (n : Nat) : List proc := List.replicate n procZero

/-- Read of `ptable.proc[i]`. -/
def slotAt (pt : List proc) (i : Nat) : proc := pt.getD i procZero

/-- Write through a slot pointer: `f` is applied to slot `i`; an index
outside the table leaves the table as it is. -/
def store (pt : List proc) (i : Nat) (f : proc → proc) : List proc :=
  List.modify f i pt

/-- Size of `proc.name` (`char name[16]` in xv6's `proc.h`). -/
def nameSize : Nat := 16

/-- The C library helper `safestrcpy(dst, src, n)`: at most `n - 1` characters are
copied and the result is NUL-terminated. -/
def safestrcpy (src : List Char) (n : Nat) : List Char := src.take (n - 1)

/-! ## Allocation (`allocproc`, `userinit`, `fork`) -/

/-- The fields `allocproc` writes under the lock after `found:`. -/
def allocInit (nextpid : Int) (p : proc) : proc :=
  { p with state := procstate.EMBRYO, pid := nextpid, numTickets := 1,
           highticks := 0, lowticks := 0, current := 0, whichqueue := 1 }

/-- The function `allocproc()`.  `kalloc` is what the kernel-stack allocator returns
(`0` = failure).  Result: the table, `nextpid`, and the slot returned
(`none` for the C return value 0).  The counter is returned as the
integer `nextpid + 1`; the store into the 32-bit global `int nextpid`,
where the increment wraps, is made by `step`. -/
def allocproc (pt : List proc) (nextpid : Int) (kalloc : Nat) :
    List proc × Int × Option Nat :=
  match pt.findIdx? (fun p => decide (p.state = procstate.UNUSED)) with
  | none => (pt, nextpid, none)
  | some i =>
    let pt1 := store pt i (allocInit nextpid)
    if kalloc = 0 then
      (store pt1 i (fun p => { p with kstack := 0, state := procstate.UNUSED }),
        nextpid + 1, none)
    else
      (store pt1 i (fun p => { p with kstack := kalloc }), nextpid + 1, some i)

/-- What `userinit` takes from the excluded layers and headers: the page
directory `setupkvm` returns, the inode of "/", and the constants of
`mmu.h`. -/
structure BootEnv where
  pgdir : Nat
  rootdir : Nat
  PGSIZE : Nat
  SEG_UCODE : Nat
  SEG_UDATA : Nat
  DPL_USER : Nat
  FL_IF : Nat
  deriving DecidableEq, Repr

/-- The trap frame `userinit` builds. -/
def initTf (e : BootEnv) : trapframe :=
  { tfZero with cs := (e.SEG_UCODE <<< 3) ||| e.DPL_USER,
                ds := (e.SEG_UDATA <<< 3) ||| e.DPL_USER,
                es := (e.SEG_UDATA <<< 3) ||| e.DPL_USER,
                ss := (e.SEG_UDATA <<< 3) ||| e.DPL_USER,
                eflags := e.FL_IF, esp := e.PGSIZE, eip := 0 }

/-- The function `userinit()`.  Result: table, `nextpid`, `initproc`; `none` when the
kernel stops (null `p` dereferenced, or `panic` on `setupkvm` failure). -/
def userinit (pt : List proc) (nextpid : Int) (kalloc : Nat) (e : BootEnv) :
    Option (List proc × Int × Ptr) :=
  match allocproc pt nextpid kalloc with
  | (_, _, none) => none
  | (pt1, np1, some i) =>
    if e.pgdir = 0 then none
    else
      some (store pt1 i (fun p =>
        { p with pgdir := e.pgdir, sz := e.PGSIZE, tf := initTf e,
                 name := safestrcpy "initcode".toList nameSize,
                 cwd := e.rootdir, state := procstate.RUNNABLE }), np1, Ptr.slot i)

/-- The file loop of `fork` (parent's table first): an open file of the
parent is duplicated into the child's table (`filedup` returns its
argument); a closed entry of the parent leaves the child's entry as it is.
A list shorter than `NOFILE` stands for a table whose other entries are 0. -/
def dupFiles : List Nat → List Nat → List Nat
  | f :: fs, g :: gs => (if f ≠ 0 then f else g) :: dupFiles fs gs
  | f :: fs, [] => f :: dupFiles fs []
  | [], gs => gs

/-- The function `fork()` called by the process in slot `cur`.  `copyuvm` is the page
directory the address-space copy returns (`0` = failure).  Result: table,
`nextpid`, return value. -/
def fork (pt : List proc) (nextpid : Int) (cur : Nat) (kalloc copyuvm : Nat) :
    List proc × Int × Int :=
  match allocproc pt nextpid kalloc with
  | (pt1, np1, none) => (pt1, np1, -1)
  | (pt1, np1, some i) =>
    if copyuvm = 0 then
      (store pt1 i (fun np =>
        { np with pgdir := 0, kstack := 0, state := procstate.UNUSED }), np1, -1)
    else
      let me := slotAt pt1 cur
      (store pt1 i (fun np =>
        { np with pgdir := copyuvm, sz := me.sz, parent := Ptr.slot cur,
                  tf := { me.tf with eax := 0 },
                  ofile := dupFiles me.ofile np.ofile, cwd := me.cwd,
                  state := procstate.RUNNABLE,
                  name := safestrcpy me.name nameSize }), np1, (slotAt pt1 i).pid)

/-! ## Sleep and wakeup -/

/-- The loop of `wakeup1(chan)`: every slot that is SLEEPING on `chan` becomes RUNNABLE. -/
def wakeup1 (pt : List proc) (chan : Ptr) : List proc :=
  pt.map (fun p =>
    if p.state = procstate.SLEEPING ∧ p.chan = chan then
      { p with state := procstate.RUNNABLE } else p)

/-- The function `wakeup(chan)`: `wakeup1` under the table lock. -/
def wakeup (pt : List proc) (chan : Ptr) : List proc := wakeup1 pt chan

/-- The function `sleep(chan, lk)` up to its call of `sched()`: the caller records the
channel and becomes SLEEPING. -/
def sleep (pt : List proc) (cur : Nat) (chan : Ptr) : List proc :=
  store pt cur (fun p => { p with chan := chan, state := procstate.SLEEPING })

/-- The function `sleep` after `sched()` returns: the channel is cleared. -/
def sleepTidy (pt : List proc) (cur : Nat) : List proc :=
  store pt cur (fun p => { p with chan := Ptr.null })

/-- The function `yield()` up to its call of `sched()`. -/
def yield (pt : List proc) (cur : Nat) : List proc :=
  store pt cur (fun p => { p with state := procstate.RUNNABLE })

/-! ## Termination and reclamation (`exit`, `wait`, `kill`) -/

/-- The reparenting loop of `exit`, slot by slot: `todo` are the slots not
yet visited, `k` the index of the first of them, `pt` the whole table. -/
def reparent (cur : Nat) (initproc : Ptr) : List proc → Nat → List proc → List proc
  | [], _, pt => pt
  | _ :: todo, k, pt =>
    if (slotAt pt k).parent = Ptr.slot cur then
      let pt1 := store pt k (fun p => { p with parent := initproc })
      if (slotAt pt1 k).state = procstate.ZOMBIE then
        reparent cur initproc todo (k + 1) (wakeup1 pt1 initproc)
      else reparent cur initproc todo (k + 1) pt1
    else reparent cur initproc todo (k + 1) pt

/-- The function `exit()` called by the process in slot `cur`, up to its call of
`sched()`; `none` is `panic("init exiting")`. -/
def exit (pt : List proc) (cur : Nat) (initproc : Ptr) : Option (List proc) :=
  if Ptr.slot cur = initproc then none
  else
    let pt1 := store pt cur (fun p =>
      { p with ofile := p.ofile.map (fun _ => 0), cwd := 0 })
    let pt2 := wakeup1 pt1 (slotAt pt1 cur).parent
    let pt3 := reparent cur initproc pt2 0 pt2
    some (store pt3 cur (fun p => { p with state := procstate.ZOMBIE }))

/-- How one pass of the loop of `wait` ends: the function returns a value,
or the caller goes to sleep on its own slot address. -/
inductive WaitResult where
  | ret (v : Int)
  | sleeps
  deriving DecidableEq, Repr

/-- The fields `wait` clears in the zombie child it found. -/
def reclaim (p : proc) : proc :=
  { p with kstack := 0, state := procstate.UNUSED, pid := 0,
           parent := Ptr.null, name := [], killed := 0 }

/-- The function `wait()` called by the process in slot `cur`: one pass of its
`for(;;)` loop.  The scan returns at the first slot in table order that is
a ZOMBIE child; without one it returns -1 if there is no child or the
caller is killed, and otherwise sleeps (the next pass runs when the caller
is dispatched again). -/
def wait (pt : List proc) (cur : Nat) : List proc × WaitResult :=
  match pt.findIdx? (fun p =>
      decide (p.parent = Ptr.slot cur) && decide (p.state = procstate.ZOMBIE)) with
  | some i => (store pt i reclaim, WaitResult.ret (slotAt pt i).pid)
  | none =>
    let havekids := pt.any (fun p => decide (p.parent = Ptr.slot cur))
    if havekids = false ∨ (slotAt pt cur).killed ≠ 0 then (pt, WaitResult.ret (-1))
    else (sleep pt cur (Ptr.slot cur), WaitResult.sleeps)

/-- The stores of `kill` on the slot it finds: `killed = 1`, and a SLEEPING
slot becomes RUNNABLE. -/
def killMark (p : proc) : proc :=
  { p with killed := 1,
           state := if p.state = procstate.SLEEPING then procstate.RUNNABLE
                    else p.state }

/-- The function `kill(pid)`: the first slot in table order whose `pid` field equals
`pid` (whatever its state) gets `killed = 1` and leaves SLEEPING. -/
def kill (pt : List proc) (pid : Int) : List proc × Int :=
  match pt.findIdx? (fun p => decide (p.pid = pid)) with
  | some i => (store pt i killMark, 0)
  | none => (pt, -1)

/-! ## Tickets (`rand1`, `settickets`, `getpinfo`) -/

/-- Two's-complement wrap of a 32-bit signed value (`long` on the i386 target). -/
def wrap32 (x : Int) : Int := (x + 2147483648) % 4294967296 - 2147483648

/-- The function `rand1(bound)`: `a` is the `static long` of the function.  Result:
the new `a` and the return value; `none` is the division trap of `% 0`. -/
def rand1 (a : Int) (bound : Int) : Option (Int × Int) :=
  let a1 := Int.tmod (wrap32 (a * 125)) 2796203
  if bound = 0 then none else some (a1, Int.tmod a1 bound)

/-- The function `settickets(num)` called by the process in slot `cur`.  The assignment
to `proc->numTickets` is commented out in the source, so the table is
returned as it came. -/
def settickets (pt : List proc) (_cur : Nat) (num : Int) : List proc × Int :=
  if num < 1 then (pt, -1) else (pt, 0)

/-- One row of `struct pstat` as `getpinfo` fills it. -/
structure pstatRow where
  inuse : Int
  pid : Int
  hticks : Int
  lticks : Int
  deriving DecidableEq, Repr

/-- The function `getpinfo(info)`: the rows written, by slot; the table is only read. -/
def getpinfo (pt : List proc) : List pstatRow :=
  pt.map (fun p =>
    { inuse := if p.state = procstate.UNUSED then 0 else 1, pid := p.pid,
      hticks := p.highticks, lticks := p.lowticks })

/-! ## The scheduler (`scheduler`) -/

/-- The locals and globals of one pass of the snapshot loop: the shared
write index `i`, the loop pointer `p` (a slot index), the two queue arrays
`high[NPROC]` and `low[NPROC]` (an entry is a slot index, `none` is NULL),
the two ticket sums and the two flags. -/
structure Snapshot where
  i : Nat
  p : Nat
  high : List (Option Nat)
  low : List (Option Nat)
  hightickets : Int
  lowtickets : Int
  emptyHigh : Int
  emptyLow : Int
  deriving DecidableEq, Repr

/-- Body of the refill loop `for(p = ptable.proc; p < &ptable.proc[NPROC]; p++)`
for the slot `s.p` holding `x`; `p++` closes every path. -/
def snapshotStep (s : Snapshot) (x : proc) : Snapshot :=
  if x.state ≠ procstate.RUNNABLE then { s with p := s.p + 1 }
  else if x.whichqueue = 1 then
    { s with emptyHigh := 1, high := s.high.set s.i (some s.p),
             hightickets := s.hightickets + x.numTickets,
             i := s.i + 1, p := s.p + 1 }
  else if x.whichqueue = 0 then
    { s with emptyLow := 1, low := s.low.set s.i (some s.p),
             lowtickets := s.lowtickets + x.numTickets,
             i := s.i + 1, p := s.p + 1 }
  else { s with p := s.p + 1 }

/-- The refill loop over the slots that remain. -/
def snapshotLoop : List proc → Snapshot → Snapshot
  | [], s => s
  | x :: rest, s => snapshotLoop rest (snapshotStep s x)

/-- The snapshot of one round: `i = 0`, both sums 0, both flags 0, the
queue arrays as the previous round left them. -/
def snapshot (pt : List proc) (high low : List (Option Nat)) : Snapshot :=
  snapshotLoop pt
    { i := 0, p := 0, high := high, low := low, hightickets := 0,
      lowtickets := 0, emptyHigh := 0, emptyLow := 0 }

/-- The queue arrays after the clearing loop `high[j] = NULL; low[j] = NULL`. -/
def clearedQueue (n : Nat) : List (Option Nat) := List.replicate n none

/-- The fill loop of the prologue of `scheduler()`, before its `for(;;)`:
every RUNNABLE slot, whatever its tier, is stored into `high` at the next
position (`p` is the slot index, `i` the write index). -/
def prologueLoop : List proc → Nat → Nat → List (Option Nat) → List (Option Nat)
  | [], _, _, high => high
  | x :: rest, p, i, high =>
    if x.state ≠ procstate.RUNNABLE then prologueLoop rest (p + 1) i high
    else prologueLoop rest (p + 1) (i + 1) (high.set i (some p))

/-- The prologue of `scheduler()`: both arrays are cleared, then `high` is
filled.  (The prologue also counts `hightickets`, which every round resets
before use.) -/
def schedulerPrologue (pt : List proc) : List (Option Nat) × List (Option Nat) :=
  (prologueLoop pt 0 0 (clearedQueue pt.length), clearedQueue pt.length)

/-- Read of `q[j]->numTickets`; `none` when `j` is past the array or
`q[j]` is NULL (or not a slot of the table). -/
def ticketsAt (pt : List proc) (q : List (Option Nat)) (j : Nat) : Option Int :=
  match q[j]? with
  | some (some k) => (pt[k]?).map (fun x => x.numTickets)
  | _ => none

/-- How the lottery walk ends. -/
inductive Walk where
  | stop (j : Nat)
  | fault
  | fuelOut
  deriving DecidableEq, Repr

/-- The loop `while(pick < rannum){ j++; pick += q[j]->numTickets; }` with `fuel`
iterations allowed. -/
def walkLoop (pt : List proc) (q : List (Option Nat)) (rannum : Int) :
    Nat → Nat → Int → Walk
  | 0, j, pick => if pick < rannum then Walk.fuelOut else Walk.stop j
  | fuel + 1, j, pick =>
    if pick < rannum then
      match ticketsAt pt q (j + 1) with
      | none => Walk.fault
      | some t => walkLoop pt q rannum fuel (j + 1) (pick + t)
    else Walk.stop j

/-- The lottery walk of one tier: `pick = q[0]->numTickets; j = 0;` then the
loop.  A read past the array is a fault, so `q.length` iterations are
always enough. -/
def lotteryWalk (pt : List proc) (q : List (Option Nat)) (rannum : Int) : Walk :=
  match ticketsAt pt q 0 with
  | none => Walk.fault
  | some t => walkLoop pt q rannum q.length 0 t

/-- What the scheduler holds when it hands the CPU over with `swtch`: the
table, the selected slot (`proc`), the tier it came from, the slot whose
address space `switchuvm` activated, the loop pointer `p`, the generator
state and the queue arrays. -/
structure Dispatch where
  ptable : List proc
  proc : Nat
  fromHigh : Bool
  uvm : Nat
  p : Nat
  rand : Int
  high : List (Option Nat)
  low : List (Option Nat)
  deriving DecidableEq, Repr

/-- How the first half of a round ends. -/
inductive Pick where
  | idle
  | run (d : Dispatch)
  | fault
  deriving DecidableEq, Repr

/-- The stores of the HIGH path on the selected slot: `state = RUNNING`,
`highticks++`, `current = 1`. -/
def runHigh (x : proc) : proc :=
  { x with state := procstate.RUNNING, highticks := x.highticks + 1, current := 1 }

/-- The stores of the LOW path on the selected slot: `state = RUNNING`,
`lowticks++`, `current = 1`. -/
def runLow (x : proc) : proc :=
  { x with state := procstate.RUNNING, lowticks := x.lowticks + 1, current := 1 }

/-- Selection and dispatch in the HIGH tier for the draw `rannum`. -/
def pickHigh (pt : List proc) (s : Snapshot) (rand rannum : Int) : Pick :=
  match lotteryWalk pt s.high rannum with
  | Walk.stop j =>
    match s.high[j]? with
    | some (some q) =>
      Pick.run
        { ptable := store pt q runHigh,
          proc := q, fromHigh := true, uvm := q, p := s.p, rand := rand,
          high := s.high, low := s.low }
    | _ => Pick.fault
  | _ => Pick.fault

/-- Selection and dispatch in the LOW tier for the draw `rannum`;
`switchuvm` is called with the loop pointer `p`. -/
def pickLow (pt : List proc) (s : Snapshot) (rand rannum : Int) : Pick :=
  match lotteryWalk pt s.low rannum with
  | Walk.stop j =>
    match s.low[j]? with
    | some (some q) =>
      Pick.run
        { ptable := store pt q runLow,
          proc := q, fromHigh := false, uvm := s.p, p := s.p, rand := rand,
          high := s.high, low := s.low }
    | _ => Pick.fault
  | _ => Pick.fault

/-- One round of `scheduler()` from `acquire` to `swtch`: snapshot, tier
choice, draw, walk, dispatch.  `a` is the state of `rand1`.  A round that
finds nothing to run is `idle`. -/
def schedulerPick (pt : List proc) (high low : List (Option Nat)) (a : Int) : Pick :=
  let s := snapshot pt high low
  if s.emptyHigh = 0 ∧ s.emptyLow = 0 then Pick.idle
  else if s.emptyHigh = 1 then
    match rand1 a s.hightickets with
    | none => Pick.fault
    | some (a1, rannum) => pickHigh pt s a1 rannum
  else if s.emptyHigh = 0 then
    if s.emptyLow = 1 then
      match rand1 a s.lowtickets with
      | none => Pick.fault
      | some (a1, rannum) => pickLow pt s a1 rannum
    else Pick.idle
  else Pick.idle

/-- The round after `swtch` returns, on the table `pt` as the process left
it, `q` being the slot `proc` points to: `proc->current = 0`, and on the
HIGH path, when `proc` is RUNNABLE, the store `p->whichqueue = 0` through
the loop pointer `p`.  After the refill loop `p` is one past the table, so
that store reaches no slot; the memory behind the table is not part of the
state. -/
def schedulerReturn (pt : List proc) (q p : Nat) (fromHigh : Bool) : List proc :=
  let pt1 := store pt q (fun x => { x with current := 0 })
  if fromHigh = true ∧ (slotAt pt1 q).state = procstate.RUNNABLE then
    store pt1 p (fun x => { x with whichqueue := 0 })
  else pt1

/-! ## The kernel as a transition system -/

/-- The globals of `proc.c`: the table, `nextpid`, `initproc`, the state of
`rand1` and the two queue arrays. -/
structure Kernel where
  ptable : List proc
  nextpid : Int
  initproc : Ptr
  rand : Int
  high : List (Option Nat)
  low : List (Option Nat)
  deriving DecidableEq, Repr

/-- The globals at boot for a table of `n` slots. -/
def boot (n : Nat) : Kernel :=
  { ptable := emptyTable n, nextpid := 1, initproc := Ptr.null, rand := 100001,
    high := clearedQueue n, low := clearedQueue n }

/-- The operations of the process core.  `cur` is the slot of the calling
process; `prologue` is the start of `scheduler()` on a CPU, `dispatch` and
`resume` are the two halves of a scheduler round. -/
inductive Op where
  | userinit (kalloc : Nat) (e : BootEnv)
  | allocproc (kalloc : Nat)
  | fork (cur kalloc copyuvm : Nat)
  | exit (cur : Nat)
  | wait (cur : Nat)
  | kill (pid : Int)
  | settickets (cur : Nat) (num : Int)
  | yield (cur : Nat)
  | sleep (cur : Nat) (chan : Ptr)
  | sleepTidy (cur : Nat)
  | wakeup (chan : Ptr)
  | prologue
  | dispatch
  | resume (q : Nat) (fromHigh : Bool)
  deriving DecidableEq, Repr

/-- A process calls into the core only while it is the one running on a CPU. -/
def isRunning (k : Kernel) (cur : Nat) : Bool :=
  decide ((slotAt k.ptable cur).state = procstate.RUNNING)

/-- One operation on the globals; `none` when the caller is not a running
process or the kernel stops (panic or fault).  The global `nextpid` is a C
`int`: the counter `allocproc` hands back is stored through `wrap32`, so
`nextpid++` at 2147483647 gives -2147483648. -/
def step (k : Kernel) : Op → Option Kernel
  | Op.userinit kalloc e =>
    match userinit k.ptable k.nextpid kalloc e with
    | none => none
    | some (pt, np, ip) =>
      some { k with ptable := pt, nextpid := wrap32 np, initproc := ip }
  | Op.allocproc kalloc =>
    match allocproc k.ptable k.nextpid kalloc with
    | (pt, np, _) => some { k with ptable := pt, nextpid := wrap32 np }
  | Op.fork cur kalloc copyuvm =>
    if isRunning k cur then
      match fork k.ptable k.nextpid cur kalloc copyuvm with
      | (pt, np, _) => some { k with ptable := pt, nextpid := wrap32 np }
    else none
  | Op.exit cur =>
    if isRunning k cur then
      match exit k.ptable cur k.initproc with
      | none => none
      | some pt => some { k with ptable := pt }
    else none
  | Op.wait cur =>
    if isRunning k cur then some { k with ptable := (wait k.ptable cur).1 } else none
  | Op.kill pid => some { k with ptable := (kill k.ptable pid).1 }
  | Op.settickets cur num =>
    if isRunning k cur then some { k with ptable := (settickets k.ptable cur num).1 }
    else none
  | Op.yield cur =>
    if isRunning k cur then some { k with ptable := yield k.ptable cur } else none
  | Op.sleep cur chan =>
    if isRunning k cur then some { k with ptable := sleep k.ptable cur chan } else none
  | Op.sleepTidy cur =>
    if isRunning k cur then some { k with ptable := sleepTidy k.ptable cur } else none
  | Op.wakeup chan => some { k with ptable := wakeup k.ptable chan }
  | Op.prologue =>
    some { k with high := (schedulerPrologue k.ptable).1,
                  low := (schedulerPrologue k.ptable).2 }
  | Op.dispatch =>
    match schedulerPick k.ptable k.high k.low k.rand with
    | Pick.idle => some k
    | Pick.fault => none
    | Pick.run d =>
      some { k with ptable := d.ptable, rand := d.rand, high := d.high, low := d.low }
  | Op.resume q fromHigh =>
    some { k with ptable := schedulerReturn k.ptable q k.ptable.length fromHigh,
                  high := clearedQueue k.ptable.length,
                  low := clearedQueue k.ptable.length }

/-- A sequence of operations, left to right. -/
def run (k : Kernel) : List Op → Option Kernel
  | [] => some k
  | op :: ops =>
    match step k op with
    | none => none
    | some k1 => run k1 ops

/-- The number of calls of `allocproc` in a sequence of operations (directly,
or through `userinit` and `fork`): each advances `nextpid` by at most one. -/
def allocCalls : List Op → Nat
  | [] => 0
  | Op.userinit _ _ :: ops => allocCalls ops + 1
  | Op.allocproc _ :: ops => allocCalls ops + 1
  | Op.fork _ _ _ :: ops => allocCalls ops + 1
  | _ :: ops => allocCalls ops

/-! ## Measures and concrete tables used by the theorems -/

/-- Number of draw values `r` in `[0, bound)` for which the walk over the
queue `q` stops at position `j`. -/
def drawsSelecting (pt : List proc) (q : List (Option Nat)) (bound j : Nat) : Nat :=
  ((List.range bound).filter (fun r =>
    decide (lotteryWalk pt q (r : Int) = Walk.stop j))).length

/-- A slot in the given state with the given pid, ticket count and tier,
all other fields as at boot. -/
def mkProc (st : procstate) (pid tickets whichqueue : Int) : proc :=
  { procZero with state := st, pid := pid, numTickets := tickets,
                  whichqueue := whichqueue }

/-- Two RUNNABLE processes in HIGH, weights 1 and 3 in that slot order. -/
def tickets13 : List proc :=
  [mkProc procstate.RUNNABLE 1 1 1, mkProc procstate.RUNNABLE 2 3 1]

/-- Two RUNNABLE processes in HIGH, weights 3 and 1 in that slot order. -/
def tickets31 : List proc :=
  [mkProc procstate.RUNNABLE 1 3 1, mkProc procstate.RUNNABLE 2 1 1]

/-- Slot 0 RUNNABLE in LOW, slot 1 RUNNABLE in HIGH. -/
def mixedTiers : List proc :=
  [mkProc procstate.RUNNABLE 1 1 0, mkProc procstate.RUNNABLE 2 1 1]

/-- One RUNNABLE process in HIGH with one ticket. -/
def oneHigh : List proc := [mkProc procstate.RUNNABLE 1 1 1]

/-- One RUNNING process in HIGH with one ticket (the caller of a system call). -/
def oneRunning : List proc := [mkProc procstate.RUNNING 1 1 1]

/-- A FREE slot that still carries pid 5, followed by a SLEEPING process
with pid 5. -/
def stalePidTable : List proc :=
  [mkProc procstate.UNUSED 5 1 1, mkProc procstate.SLEEPING 5 1 1]

/-- A FREE slot at boot, followed by a SLEEPING process with pid 5 and a
RUNNING one with pid 6. -/
def sleeperTable : List proc :=
  [procZero, mkProc procstate.SLEEPING 5 1 1, mkProc procstate.RUNNING 6 1 1]

/-- The dispatch of the only process of `oneHigh` with the generator at its
seed: the process is RUNNING with one HIGH tick, the loop pointer is one
past the table. -/
def oneHighDispatched : Dispatch :=
  { ptable := [{ mkProc procstate.RUNNING 1 1 1 with highticks := 1, current := 1 }],
    proc := 0, fromHigh := true, uvm := 0, p := 1, rand := 1315313,
    high := [some 0], low := [none] }

/-- The pids of the non-FREE slots, in slot order. -/
def livePids (pt : List proc) : List Int :=
  (pt.filter (fun p => decide (p.state ≠ procstate.UNUSED))).map (fun p => p.pid)

/-- A boot environment for the scenarios: non-null page directory and root
inode, the `mmu.h` constants of xv6. -/
def bootEnv : BootEnv :=
  { pgdir := 1, rootdir := 1, PGSIZE := 4096, SEG_UCODE := 4, SEG_UDATA := 5,
    DPL_USER := 3, FL_IF := 512 }

/-- Filling a table of four slots: `userinit`, a round that dispatches the
first process, and three `fork` calls by it. -/
def fillOps : List Op :=
  [Op.userinit 7 bootEnv, Op.dispatch, Op.fork 0 8 9, Op.fork 0 10 11, Op.fork 0 12 13]

/-- The globals after `ops` from boot with four slots. -/
def kernelAfter (ops : List Op) : Kernel := (run (boot 4) ops).getD (boot 0)

/-- The whole scenario on four slots: fill the table, dispatch a child
(slot 2), let it exit, reap it from the first process, fork again. -/
def reuseOps : List Op :=
  fillOps ++ [Op.dispatch, Op.exit 2, Op.wait 0, Op.fork 0 14 15]

/-! ## Invariants of the table -/

/-- What the invariants read in a slot: whether it is FREE, its pid, its
tier and its ticket count. -/
structure SlotSig where
  free : Bool
  pid : Int
  whichqueue : Int
  numTickets : Int
  deriving DecidableEq, Repr

/-- The signature of a slot. -/
def sig (p : proc) : SlotSig :=
  { free := decide (p.state = procstate.UNUSED), pid := p.pid,
    whichqueue := p.whichqueue, numTickets := p.numTickets }

/-- The pids of the live signatures, in order. -/
def livePidsOf (l : List SlotSig) : List Int :=
  (l.filter (fun x => !x.free)).map (fun x => x.pid)

/-- The invariant on a list of signatures while the counter `np` has not
overflowed: every pid is below `np`; a live slot has a positive pid, is in
HIGH and has at least one ticket; the pids of the live slots are pairwise
distinct.  (`PidInv` and `TierInv` are the parts that survive the overflow.) -/
def SigInv (np : Int) (l : List SlotSig) : Prop :=
  1 ≤ np ∧ (∀ x ∈ l, x.pid < np) ∧
  (∀ x ∈ l, x.free = false → 1 ≤ x.pid ∧ x.whichqueue = 1 ∧ 1 ≤ x.numTickets) ∧
  (livePidsOf l).Nodup

/-- The invariant of the table for `nextpid = np`. -/
def TableInv (np : Int) (pt : List proc) : Prop := SigInv np (pt.map sig)

/-- The invariant of the globals: the table invariant, and both queue
arrays as long as the table. -/
def KernelInv (k : Kernel) : Prop :=
  TableInv k.nextpid k.ptable ∧ k.high.length = k.ptable.length ∧
  k.low.length = k.ptable.length

/-- The RUNNABLE slots among `rest` (the slots from index `off` on), each
with its ticket count, in slot order. -/
def fresh : Nat → List proc → List (Nat × Int)
  | _, [] => []
  | off, x :: rest =>
    if x.state = procstate.RUNNABLE then (off, x.numTickets) :: fresh (off + 1) rest
    else fresh (off + 1) rest

/-- Consecutive stores `q[i] = l[0]; q[i+1] = l[1]; ...` into a queue array. -/
def writeAll : List (Option Nat) → Nat → List Nat → List (Option Nat)
  | q, _, [] => q
  | q, i, x :: l => writeAll (q.set i (some x)) (i + 1) l

/-! ## Definitions for the later claims -/

/-- Successive calls `rand1(b0)`, `rand1(b1)`, ... from generator state `a`:
the values returned, then the final state; `none` when a call traps. -/
def rand1Calls : Int → List Int → Option (List Int × Int)
  | a, [] => some ([], a)
  | a, b :: bs =>
    match rand1 a b with
    | none => none
    | some (a1, r) =>
      match rand1Calls a1 bs with
      | none => none
      | some (rs, a2) => some (r :: rs, a2)

/-- The closed form of the generator state after `j` calls. -/
def randState (j : Nat) : Int := (100001 * 125 ^ j) % 2796203

/-- The boot table of three slots after `userinit` and the dispatch of the
first process. -/
def initRunning : Kernel := (run (boot 3) [Op.userinit 7 bootEnv, Op.dispatch]).getD (boot 0)

/-- The sums of a snapshot are consistent with its flags: a flag is 0 or 1,
and a tier whose flag is 1 has a ticket sum of at least 1. -/
def SumsOk (s : Snapshot) : Prop :=
  (s.emptyHigh = 0 ∨ s.emptyHigh = 1) ∧ (s.emptyLow = 0 ∨ s.emptyLow = 1) ∧
  0 ≤ s.hightickets ∧ 0 ≤ s.lowtickets ∧
  (s.emptyHigh = 1 → 1 ≤ s.hightickets) ∧ (s.emptyLow = 1 → 1 ≤ s.lowtickets)

/-- One RUNNABLE process in LOW with one ticket. -/
def oneLow : List proc := [mkProc procstate.RUNNABLE 1 1 0]

/-- The dispatch of the only process of `oneLow` with the generator at its
seed: `switchuvm` was given the loop pointer, one past the table. -/
def oneLowDispatched : Dispatch :=
  { ptable := [{ mkProc procstate.RUNNING 1 1 0 with lowticks := 1, current := 1 }],
    proc := 0, fromHigh := false, uvm := 1, p := 1, rand := 1315313,
    high := [none], low := [some 0] }

/-- Every slot that is ZOMBIE in `pt` is ZOMBIE with the same pid in `pt1`. -/
def ZombieKept (pt pt1 : List proc) : Prop :=
  ∀ z, (slotAt pt z).state = procstate.ZOMBIE →
    (slotAt pt1 z).state = procstate.ZOMBIE ∧ (slotAt pt1 z).pid = (slotAt pt z).pid

/-- Every entry of the queue array `q` that is not NULL points at a RUNNABLE
slot of `pt`. -/
def EntriesRunnable (pt : List proc) (q : List (Option Nat)) : Prop :=
  ∀ (j x : Nat), q[j]? = some (some x) → (slotAt pt x).state = procstate.RUNNABLE

/-- Four slots filled, then a child (slot 2, pid 3) dispatched and exited:
slot 2 is a ZOMBIE whose parent is slot 0. -/
def zombieOps : List Op := fillOps ++ [Op.dispatch, Op.exit 2]

/-- One pass of the body of the reparenting loop of `exit`, at slot `k`. -/
def reparentAt (cur : Nat) (initproc : Ptr) (k : Nat) (pt : List proc) : List proc :=
  if (slotAt pt k).parent = Ptr.slot cur then
    if (slotAt (store pt k (fun p => { p with parent := initproc })) k).state =
        procstate.ZOMBIE then
      wakeup1 (store pt k (fun p => { p with parent := initproc })) initproc
    else store pt k (fun p => { p with parent := initproc })
  else pt

/-- From boot with four slots: the first process (slot 0) forks A (slot 1),
A forks B (slot 2), B exits, and the first process calls `wait` and sleeps. -/
def orphanOps : List Op :=
  [Op.userinit 7 bootEnv, Op.dispatch, Op.fork 0 8 9, Op.dispatch,
   Op.fork 1 10 11, Op.dispatch, Op.exit 2, Op.wait 0]

/-- The globals after `orphanOps`. -/
def orphanKernel : Kernel := (run (boot 4) orphanOps).getD (boot 0)

/-- How an operation changes `nextpid` and the signatures of the table: not at
all; or a FREE slot is given the pid `np`, tier HIGH and one ticket, and
`nextpid` is incremented as a 32-bit `int`; or one slot becomes FREE with
pid 0. -/
def SigStep (np : Int) (l : List SlotSig) (np1 : Int) (l1 : List SlotSig) : Prop :=
  (np1 = np ∧ l1 = l) ∨
  (∃ l₁ a b l₂, l = l₁ ++ a :: l₂ ∧ l1 = l₁ ++ b :: l₂ ∧ a.free = true ∧ b.pid = np ∧
    b.whichqueue = 1 ∧ b.numTickets = 1 ∧ np1 = wrap32 (np + 1)) ∨
  (∃ l₁ a b l₂, l = l₁ ++ a :: l₂ ∧ l1 = l₁ ++ b :: l₂ ∧ b.free = true ∧ b.pid = 0 ∧
    np1 = np)

/-- The place of the pid `p` in the order in which the 32-bit counter hands
pids out from boot: 1, 2, ..., 2147483647, then -2147483648, ..., -1, 0. -/
def pidOrd (p : Int) : Int := if 1 ≤ p then p else p + 4294967296

/-- The invariant of the pids on a list of signatures, for a table that has
seen `N - 1` allocations since boot, `N - 1` at most 2^32: the pid of a live
slot is a 32-bit value handed out by one of these allocations, and the pids
of the live slots are pairwise distinct. -/
def PidInv (N : Int) (l : List SlotSig) : Prop :=
  1 ≤ N ∧ N ≤ 4294967297 ∧
  (∀ x ∈ l, x.free = false → wrap32 x.pid = x.pid ∧ pidOrd x.pid < N) ∧
  (livePidsOf l).Nodup

/-- The pid `v` has been handed out by one of the first `N - 1` allocations
and no live slot carries it. -/
def Retired (v : Int) (N : Int) (l : List SlotSig) : Prop :=
  wrap32 v = v ∧ pidOrd v < N ∧ ∀ x ∈ l, x.free = false → x.pid ≠ v

/-- The part of the invariant that does not depend on the pid counter: every
live slot is in HIGH with at least one ticket, `nextpid` is a 32-bit value,
and both queue arrays are as long as the table. -/
def TierInv (k : Kernel) : Prop :=
  (∀ x ∈ k.ptable.map sig, x.free = false → x.whichqueue = 1 ∧ 1 ≤ x.numTickets) ∧
  wrap32 k.nextpid = k.nextpid ∧
  k.high.length = k.ptable.length ∧ k.low.length = k.ptable.length

/-- The slot `allocproc` leaves when `kalloc` fails: the fields written after
`found:` stay, `state` is UNUSED again. -/
def failedSlot (np : Int) (a : proc) : proc :=
  { allocInit np a with kstack := 0, state := procstate.UNUSED }

/-- The globals after `userinit` on a boot table of two slots. -/
def initOnly : Kernel := (run (boot 2) [Op.userinit 7 bootEnv]).getD (boot 0)

/-- The run `userinit`, then `m` calls of `allocproc` whose `kalloc` fails, then
one call of `allocproc` that succeeds. -/
def pidWrapOps (m : Nat) : List Op :=
  Op.userinit 7 bootEnv :: (List.replicate m (Op.allocproc 0) ++ [Op.allocproc 8])

/-- From boot with two slots: the first process (slot 0) forks a child
(slot 1, pid 2), the child is dispatched and exits. -/
def reapOps : List Op :=
  [Op.userinit 7 bootEnv, Op.dispatch, Op.fork 0 8 9, Op.dispatch, Op.exit 1]

/-- The globals after `reapOps`. -/
def reapKernel : Kernel := (run (boot 2) reapOps).getD (boot 0)

/-- The sequence `m` calls of `allocproc` whose `kalloc` fails, then a `fork` by
slot 0 whose child (slot 1) is dispatched and exits. -/
def reissueOps (m : Nat) : List Op :=
  List.replicate m (Op.allocproc 0) ++ [Op.fork 0 8 9, Op.dispatch, Op.exit 1]

theorem store_length (pt : List proc) (i : Nat) (f : proc → proc) :
    (store pt i f).length = pt.length := by
  simp [store]

theorem store_outside (pt : List proc) (i : Nat) (f : proc → proc)
    (h : pt.length ≤ i) : store pt i f = pt := by
  unfold store
  exact List.modify_eq_self h

theorem slotAt_store_self (pt : List proc) (i : Nat) (f : proc → proc)
    (h : i < pt.length) : slotAt (store pt i f) i = f (slotAt pt i) := by
  simp [slotAt, store, List.getElem?_eq_getElem h]

theorem slotAt_store_ne (pt : List proc) (i j : Nat) (f : proc → proc)
    (h : i ≠ j) : slotAt (store pt i f) j = slotAt pt j := by
  simp [slotAt, store, List.getElem?_modify_ne f pt h]

theorem store_split (pt : List proc) (i : Nat) (h : i < pt.length) :
    ∃ l₁ a l₂, pt = l₁ ++ a :: l₂ ∧ l₁.length = i ∧ slotAt pt i = a ∧
      ∀ f, store pt i f = l₁ ++ f a :: l₂ := by
  induction pt generalizing i with
  | nil => simp at h
  | cons x xs ih =>
    cases i with
    | zero => exact ⟨[], x, xs, rfl, rfl, rfl, fun f => rfl⟩
    | succ i =>
      obtain ⟨l₁, a, l₂, h1, h2, h3, h4⟩ := ih i (by simpa using h)
      refine ⟨x :: l₁, a, l₂, by simp [h1], by simp [h2], ?_, ?_⟩
      · simpa [slotAt] using h3
      · intro f
        have h5 := h4 f
        simp only [store] at h5
        simp [store, h5]

theorem map_store_eq {β : Type} (g : proc → β) (pt : List proc) (i : Nat)
    (f : proc → proc) (h : g (f (slotAt pt i)) = g (slotAt pt i)) :
    (store pt i f).map g = pt.map g := by
  by_cases hi : i < pt.length
  · obtain ⟨l₁, a, l₂, h1, -, h3, h4⟩ := store_split pt i hi
    rw [h3] at h
    rw [h4 f, h1]
    simp [h]
  · rw [store_outside pt i f (Nat.le_of_not_lt hi)]

/-! ## Live pids -/

theorem livePids_cons (x : proc) (xs : List proc) :
    livePids (x :: xs) =
      if x.state ≠ procstate.UNUSED then x.pid :: livePids xs else livePids xs := by
  unfold livePids
  by_cases h : x.state = procstate.UNUSED <;> simp [List.filter_cons, h]

theorem mem_livePids (pt : List proc) (j : Nat) (hj : j < pt.length)
    (hl : (slotAt pt j).state ≠ procstate.UNUSED) : (slotAt pt j).pid ∈ livePids pt := by
  unfold livePids
  rw [List.mem_map]
  refine ⟨slotAt pt j, ?_, rfl⟩
  rw [List.mem_filter]
  refine ⟨?_, by simpa using hl⟩
  simp [slotAt, List.getElem?_eq_getElem hj]

theorem livePids_nodup_lt (pt : List proc) (h : (livePids pt).Nodup) (i j : Nat)
    (hij : i < j) (hj : j < pt.length)
    (hi : (slotAt pt i).state ≠ procstate.UNUSED)
    (hjl : (slotAt pt j).state ≠ procstate.UNUSED) :
    (slotAt pt i).pid ≠ (slotAt pt j).pid := by
  induction pt generalizing i j with
  | nil => simp at hj
  | cons x xs ih =>
    rw [livePids_cons] at h
    cases j with
    | zero => omega
    | succ j =>
      have hj2 : j < xs.length := by simpa using hj
      have hjl2 : (slotAt xs j).state ≠ procstate.UNUSED := by simpa [slotAt] using hjl
      cases i with
      | zero =>
        have hx : x.state ≠ procstate.UNUSED := by simpa [slotAt] using hi
        rw [if_pos hx, List.nodup_cons] at h
        intro heq
        apply h.1
        have hm := mem_livePids xs j hj2 hjl2
        have heq2 : x.pid = (slotAt xs j).pid := by simpa [slotAt] using heq
        rw [heq2]
        exact hm
      | succ i =>
        have hi2 : (slotAt xs i).state ≠ procstate.UNUSED := by simpa [slotAt] using hi
        have hn : (livePids xs).Nodup := by
          split_ifs at h
          · exact (List.nodup_cons.mp h).2
          · exact h
        have := ih hn i j (by omega) hj2 hi2 hjl2
        simpa [slotAt] using this

/-! ## Scheduler round: the loop pointer -/

theorem snapshotLoop_p (pt : List proc) (s : Snapshot) :
    (snapshotLoop pt s).p = s.p + pt.length := by
  induction pt generalizing s with
  | nil => simp [snapshotLoop]
  | cons x xs ih =>
    rw [snapshotLoop, ih]
    have : (snapshotStep s x).p = s.p + 1 := by
      unfold snapshotStep
      split_ifs <;> rfl
    rw [this, List.length_cons]
    omega

theorem snapshot_p (pt : List proc) (high low : List (Option Nat)) :
    (snapshot pt high low).p = pt.length := by
  simp [snapshot, snapshotLoop_p]

theorem schedulerPick_p (pt : List proc) (high low : List (Option Nat)) (a : Int)
    (d : Dispatch) (h : schedulerPick pt high low a = Pick.run d) :
    d.p = pt.length := by
  unfold schedulerPick at h
  simp only [] at h
  split_ifs at h
  · split at h
    · exact absurd h (by simp)
    · unfold pickHigh at h
      split at h
      · split at h
        · injection h with h
          rw [← h]
          exact snapshot_p pt high low
        · exact absurd h (by simp)
      · exact absurd h (by simp)
  · split at h
    · exact absurd h (by simp)
    · unfold pickLow at h
      split at h
      · split at h
        · injection h with h
          rw [← h]
          exact snapshot_p pt high low
        · exact absurd h (by simp)
      · exact absurd h (by simp)

/-! ## `kill` -/

theorem kill_first (pt : List proc) (q : Nat) (hq : q < pt.length)
    (hfirst : ∀ j, j < q → (slotAt pt j).pid ≠ (slotAt pt q).pid) :
    kill pt (slotAt pt q).pid = (store pt q killMark, 0) := by
  have hfind : pt.findIdx? (fun p => decide (p.pid = (slotAt pt q).pid)) = some q := by
    rw [List.findIdx?_eq_some_iff_getElem]
    refine ⟨hq, ?_, ?_⟩
    · simp [slotAt, List.getElem?_eq_getElem hq]
    · intro j hj
      have := hfirst j hj
      have hj2 : j < pt.length := Nat.lt_trans hj hq
      simpa [slotAt, List.getElem?_eq_getElem hq, List.getElem?_eq_getElem hj2] using this
  unfold kill
  rw [hfind]

/-! ## Invariant preservation, operation by operation -/

theorem allocproc_some (pt : List proc) (nextpid : Int) (kalloc : Nat) (hk : kalloc ≠ 0)
    (i : Nat) (h : (allocproc pt nextpid kalloc).2.2 = some i) :
    i < pt.length ∧ (slotAt pt i).state = procstate.UNUSED ∧
    (∀ j, j < i → (slotAt pt j).state ≠ procstate.UNUSED) ∧
    allocproc pt nextpid kalloc =
      (store pt i (fun p => { allocInit nextpid p with kstack := kalloc }),
        nextpid + 1, some i) := by
  unfold allocproc at h ⊢
  cases hf : pt.findIdx? (fun p => decide (p.state = procstate.UNUSED)) with
  | none => rw [hf] at h; exact absurd h (by simp)
  | some k =>
    rw [hf] at h
    simp only [if_neg hk] at h ⊢
    have hki : k = i := by simpa using h
    subst hki
    rw [List.findIdx?_eq_some_iff_getElem] at hf
    obtain ⟨hi, hp, hlt⟩ := hf
    refine ⟨hi, ?_, ?_, ?_⟩
    · simpa [slotAt, List.getElem?_eq_getElem hi] using hp
    · intro j hj
      have := hlt j hj
      simpa [slotAt, List.getElem?_eq_getElem (Nat.lt_trans hj hi)] using this
    · simp [store, List.modify_modify_eq, Function.comp_def]

theorem livePids_eq_sig (pt : List proc) : livePids pt = livePidsOf (pt.map sig) := by
  induction pt with
  | nil => rfl
  | cons x xs ih =>
    rw [livePids_cons, ih]
    by_cases h : x.state = procstate.UNUSED <;>
      simp [livePidsOf, sig, h, List.filter_cons]

theorem livePidsOf_append (l₁ l₂ : List SlotSig) :
    livePidsOf (l₁ ++ l₂) = livePidsOf l₁ ++ livePidsOf l₂ := by
  simp [livePidsOf]

theorem livePidsOf_cons_free (x : SlotSig) (l : List SlotSig) (h : x.free = true) :
    livePidsOf (x :: l) = livePidsOf l := by
  simp [livePidsOf, List.filter_cons, h]

theorem livePidsOf_cons_live (x : SlotSig) (l : List SlotSig) (h : x.free = false) :
    livePidsOf (x :: l) = x.pid :: livePidsOf l := by
  simp [livePidsOf, List.filter_cons, h]

theorem mem_livePidsOf_lt (np : Int) (l : List SlotSig) (h : ∀ x ∈ l, x.pid < np)
    (v : Int) (hv : v ∈ livePidsOf l) : v < np := by
  unfold livePidsOf at hv
  rw [List.mem_map] at hv
  obtain ⟨x, hx, rfl⟩ := hv
  exact h x (List.mem_of_mem_filter hx)

/-- Allocation into a free slot: the slot becomes live with pid `np`. -/
theorem SigInv_alloc (np : Int) (l₁ l₂ : List SlotSig) (a b : SlotSig)
    (ha : a.free = true) (hb : b = { free := false, pid := np, whichqueue := 1, numTickets := 1 })
    (h : SigInv np (l₁ ++ a :: l₂)) : SigInv (np + 1) (l₁ ++ b :: l₂) := by
  obtain ⟨h1, h2, h3, h4⟩ := h
  have h2a : ∀ x ∈ l₁, x.pid < np := fun x hx => h2 x (by simp [hx])
  have h2b : ∀ x ∈ l₂, x.pid < np := fun x hx => h2 x (by simp [hx])
  refine ⟨by omega, ?_, ?_, ?_⟩
  · intro x hx
    simp only [List.mem_append, List.mem_cons] at hx
    rcases hx with hx | hx | hx
    · have := h2a x hx; omega
    · subst hx; subst hb; simp
    · have := h2b x hx; omega
  · intro x hx hf
    simp only [List.mem_append, List.mem_cons] at hx
    rcases hx with hx | hx | hx
    · exact h3 x (by simp [hx]) hf
    · subst hx; subst hb; simp; omega
    · exact h3 x (by simp [hx]) hf
  · rw [livePidsOf_append, livePidsOf_cons_free a l₂ ha] at h4
    rw [livePidsOf_append, livePidsOf_cons_live b l₂ (by subst hb; rfl)]
    have hbp : b.pid = np := by subst hb; rfl
    rw [hbp]
    rw [List.nodup_append] at h4 ⊢
    obtain ⟨n1, n2, n3⟩ := h4
    refine ⟨n1, ?_, ?_⟩
    · rw [List.nodup_cons]
      refine ⟨?_, n2⟩
      intro hm
      have := mem_livePidsOf_lt np l₂ h2b np hm
      omega
    · intro v hv1 hv2
      rw [List.mem_cons] at hv2
      rcases hv2 with hv2 | hv2
      · have := mem_livePidsOf_lt np l₁ h2a v hv1
        omega
      · exact n3 hv1 hv2

/-- Release of a slot: the slot becomes free, with any pid below `np`. -/
theorem SigInv_free (np : Int) (l₁ l₂ : List SlotSig) (a b : SlotSig)
    (hb : b.free = true) (hp : b.pid < np)
    (h : SigInv np (l₁ ++ a :: l₂)) : SigInv np (l₁ ++ b :: l₂) := by
  obtain ⟨h1, h2, h3, h4⟩ := h
  refine ⟨h1, ?_, ?_, ?_⟩
  · intro x hx
    simp only [List.mem_append, List.mem_cons] at hx
    rcases hx with hx | hx | hx
    · exact h2 x (by simp [hx])
    · subst hx; exact hp
    · exact h2 x (by simp [hx])
  · intro x hx hf
    simp only [List.mem_append, List.mem_cons] at hx
    rcases hx with hx | hx | hx
    · exact h3 x (by simp [hx]) hf
    · subst hx; rw [hb] at hf; exact absurd hf (by simp)
    · exact h3 x (by simp [hx]) hf
  · rw [livePidsOf_append, livePidsOf_cons_free b l₂ hb]
    rw [livePidsOf_append] at h4
    by_cases ha : a.free = true
    · rw [livePidsOf_cons_free a l₂ ha] at h4; exact h4
    · have ha2 : a.free = false := by simpa using ha
      rw [livePidsOf_cons_live a l₂ ha2] at h4
      rw [List.nodup_append] at h4 ⊢
      obtain ⟨n1, n2, n3⟩ := h4
      refine ⟨n1, (List.nodup_cons.mp n2).2, ?_⟩
      intro v hv1 hv2
      exact n3 hv1 (List.mem_cons_of_mem _ hv2)

theorem SigInv_succ (np : Int) (l : List SlotSig) (h : SigInv np l) : SigInv (np + 1) l := by
  obtain ⟨h1, h2, h3, h4⟩ := h
  exact ⟨by omega, fun x hx => by have := h2 x hx; omega, h3, h4⟩

theorem SigInv_alloc_any (np : Int) (l₁ l₂ : List SlotSig) (a b : SlotSig)
    (ha : a.free = true) (hp : b.pid = np) (hw : b.whichqueue = 1) (ht : b.numTickets = 1)
    (h : SigInv np (l₁ ++ a :: l₂)) : SigInv (np + 1) (l₁ ++ b :: l₂) := by
  have h1 := SigInv_alloc np l₁ l₂ a _ ha rfl h
  by_cases hb : b.free = true
  · exact SigInv_free (np + 1) l₁ l₂ _ b hb (by omega) h1
  · have : b = { free := false, pid := np, whichqueue := 1, numTickets := 1 } := by
      cases b
      simp_all
    rw [this]
    exact h1

theorem store_append (l₁ l₂ : List proc) (a : proc) (f : proc → proc) :
    store (l₁ ++ a :: l₂) l₁.length f = l₁ ++ f a :: l₂ := by
  induction l₁ with
  | nil => rfl
  | cons x xs ih =>
    simp only [store] at ih
    simp [store, ih]

theorem allocproc_shape (pt : List proc) (np : Int) (kalloc : Nat) :
    allocproc pt np kalloc = (pt, np, none) ∨
    ∃ l₁ a l₂, pt = l₁ ++ a :: l₂ ∧ a.state = procstate.UNUSED ∧
      ((kalloc = 0 ∧ allocproc pt np kalloc =
          (l₁ ++ { allocInit np a with kstack := 0, state := procstate.UNUSED } :: l₂,
            np + 1, none)) ∨
       (kalloc ≠ 0 ∧ allocproc pt np kalloc =
          (l₁ ++ { allocInit np a with kstack := kalloc } :: l₂, np + 1,
            some l₁.length))) := by
  unfold allocproc
  cases hf : pt.findIdx? (fun p => decide (p.state = procstate.UNUSED)) with
  | none => exact Or.inl rfl
  | some i =>
    right
    rw [List.findIdx?_eq_some_iff_getElem] at hf
    obtain ⟨hi, hp, -⟩ := hf
    obtain ⟨l₁, a, l₂, h1, h2, h3, h4⟩ := store_split pt i hi
    have ha : a.state = procstate.UNUSED := by
      rw [← h3]
      simpa [slotAt, List.getElem?_eq_getElem hi] using hp
    refine ⟨l₁, a, l₂, h1, ha, ?_⟩
    simp only []
    rw [h4, ← h2, store_append, store_append]
    by_cases hk : kalloc = 0
    · left; exact ⟨hk, by simp [hk]⟩
    · right; exact ⟨hk, by simp [hk]⟩

theorem allocproc_inv (pt : List proc) (np : Int) (kalloc : Nat) (h : TableInv np pt) :
    TableInv (allocproc pt np kalloc).2.1 (allocproc pt np kalloc).1 ∧
    (allocproc pt np kalloc).1.length = pt.length := by
  rcases allocproc_shape pt np kalloc with h0 | ⟨l₁, a, l₂, h1, ha, h2 | h2⟩
  · rw [h0]; exact ⟨h, rfl⟩
  · rw [h2.2]
    subst h1
    refine ⟨?_, by simp⟩
    unfold TableInv at h ⊢
    simp only [List.map_append, List.map_cons] at h ⊢
    exact SigInv_alloc_any np _ _ (sig a) _ (by simp [sig, ha]) rfl rfl rfl h
  · rw [h2.2]
    subst h1
    refine ⟨?_, by simp⟩
    unfold TableInv at h ⊢
    simp only [List.map_append, List.map_cons] at h ⊢
    exact SigInv_alloc_any np _ _ (sig a) _ (by simp [sig, ha]) rfl rfl rfl h

theorem fork_inv (pt : List proc) (np : Int) (cur kalloc copyuvm : Nat)
    (h : TableInv np pt) :
    TableInv (fork pt np cur kalloc copyuvm).2.1 (fork pt np cur kalloc copyuvm).1 ∧
    (fork pt np cur kalloc copyuvm).1.length = pt.length := by
  rcases allocproc_shape pt np kalloc with h0 | ⟨l₁, a, l₂, h1, ha, h2 | h2⟩
  · unfold fork; rw [h0]; exact ⟨h, rfl⟩
  · unfold fork; rw [h2.2]
    subst h1
    refine ⟨?_, by simp⟩
    unfold TableInv at h ⊢
    simp only [List.map_append, List.map_cons] at h ⊢
    exact SigInv_alloc_any np _ _ (sig a) _ (by simp [sig, ha]) rfl rfl rfl h
  · unfold fork; rw [h2.2]
    subst h1
    simp only []
    by_cases hc : copyuvm = 0
    · rw [if_pos hc, store_append]
      refine ⟨?_, by simp⟩
      unfold TableInv at h ⊢
      simp only [List.map_append, List.map_cons] at h ⊢
      exact SigInv_alloc_any np _ _ (sig a) _ (by simp [sig, ha]) rfl rfl rfl h
    · rw [if_neg hc, store_append]
      refine ⟨?_, by simp⟩
      unfold TableInv at h ⊢
      simp only [List.map_append, List.map_cons] at h ⊢
      exact SigInv_alloc_any np _ _ (sig a) _ (by simp [sig, ha]) rfl rfl rfl h

theorem userinit_inv (pt : List proc) (np : Int) (kalloc : Nat) (e : BootEnv)
    (pt1 : List proc) (np1 : Int) (ip : Ptr) (h : TableInv np pt)
    (hu : userinit pt np kalloc e = some (pt1, np1, ip)) :
    TableInv np1 pt1 ∧ pt1.length = pt.length := by
  unfold userinit at hu
  rcases allocproc_shape pt np kalloc with h0 | ⟨l₁, a, l₂, h1, ha, h2 | h2⟩
  · rw [h0] at hu; exact absurd hu (by simp)
  · rw [h2.2] at hu; exact absurd hu (by simp)
  · rw [h2.2] at hu
    simp only [] at hu
    by_cases hc : e.pgdir = 0
    · rw [if_pos hc] at hu; exact absurd hu (by simp)
    · rw [if_neg hc, store_append] at hu
      simp only [Option.some.injEq, Prod.mk.injEq] at hu
      obtain ⟨hu1, hu2, -⟩ := hu
      subst hu1; subst hu2; subst h1
      refine ⟨?_, by simp⟩
      unfold TableInv at h ⊢
      simp only [List.map_append, List.map_cons] at h ⊢
      exact SigInv_alloc_any np _ _ (sig a) _ (by simp [sig, ha]) rfl rfl rfl h

theorem sig_slotAt_of_map_eq (pt pt1 : List proc) (h : pt1.map sig = pt.map sig) (i : Nat) :
    sig (slotAt pt1 i) = sig (slotAt pt i) := by
  have h1 : ∀ l : List proc, sig (slotAt l i) = ((l.map sig)[i]?).getD (sig procZero) := by
    intro l
    simp only [slotAt, List.getD_eq_getElem?_getD, List.getElem?_map]
    cases l[i]? <;> rfl
  rw [h1 pt1, h1 pt, h]

theorem running_lt (pt : List proc) (cur : Nat)
    (h : (slotAt pt cur).state ≠ procstate.UNUSED) : cur < pt.length := by
  by_contra hc
  apply h
  simp [slotAt, List.getElem?_eq_none (Nat.le_of_not_lt hc), procZero]

theorem wakeup1_sig (pt : List proc) (chan : Ptr) : (wakeup1 pt chan).map sig = pt.map sig := by
  unfold wakeup1
  rw [List.map_map]
  apply List.map_congr_left
  intro p _
  simp only [Function.comp]
  split_ifs with h
  · simp [sig, h.1]
  · rfl

theorem store_sig (pt : List proc) (i : Nat) (f : proc → proc)
    (h : sig (f (slotAt pt i)) = sig (slotAt pt i)) :
    (store pt i f).map sig = pt.map sig :=
  map_store_eq sig pt i f h

theorem reparent_sig (cur : Nat) (initproc : Ptr) (todo : List proc) (k : Nat)
    (pt : List proc) : (reparent cur initproc todo k pt).map sig = pt.map sig := by
  induction todo generalizing k pt with
  | nil => rfl
  | cons x xs ih =>
    unfold reparent
    simp only []
    split_ifs
    · rw [ih, wakeup1_sig, store_sig _ _ _ rfl]
    · rw [ih, store_sig _ _ _ rfl]
    · rw [ih]

theorem sig_live_set_state (p : proc) (st : procstate) (hp : p.state ≠ procstate.UNUSED)
    (hst : st ≠ procstate.UNUSED) (q : proc) (hq1 : q.state = st) (hq2 : q.pid = p.pid)
    (hq3 : q.whichqueue = p.whichqueue) (hq4 : q.numTickets = p.numTickets) :
    sig q = sig p := by
  simp [sig, hq1, hq2, hq3, hq4, hp, hst]

theorem live_store_state_sig (pt3 pt : List proc) (cur : Nat) (st : procstate)
    (h3 : pt3.map sig = pt.map sig) (hr : (slotAt pt cur).state ≠ procstate.UNUSED)
    (hst : st ≠ procstate.UNUSED) :
    (store pt3 cur (fun p => { p with state := st })).map sig = pt.map sig := by
  have h4 := sig_slotAt_of_map_eq _ _ h3 cur
  have h5 : (slotAt pt3 cur).state ≠ procstate.UNUSED := by
    intro hc
    have h6 : (sig (slotAt pt cur)).free = true := by
      rw [← h4]
      simp [sig, hc]
    simp only [sig, decide_eq_true_eq] at h6
    exact hr h6
  rw [store_sig, h3]
  exact sig_live_set_state _ st h5 hst _ rfl rfl rfl rfl

theorem exit_sig (pt : List proc) (cur : Nat) (initproc : Ptr) (pt1 : List proc)
    (hr : (slotAt pt cur).state ≠ procstate.UNUSED)
    (h : exit pt cur initproc = some pt1) : pt1.map sig = pt.map sig := by
  unfold exit at h
  split_ifs at h
  simp only [Option.some.injEq] at h
  subst h
  exact live_store_state_sig _ pt cur procstate.ZOMBIE
    (by rw [reparent_sig, wakeup1_sig, store_sig _ _ _ rfl]) hr (by decide)

theorem yield_sig (pt : List proc) (cur : Nat)
    (hr : (slotAt pt cur).state ≠ procstate.UNUSED) :
    (yield pt cur).map sig = pt.map sig :=
  live_store_state_sig pt pt cur procstate.RUNNABLE rfl hr (by decide)

theorem sleep_sig (pt : List proc) (cur : Nat) (chan : Ptr)
    (hr : (slotAt pt cur).state ≠ procstate.UNUSED) :
    (sleep pt cur chan).map sig = pt.map sig := by
  unfold sleep
  rw [store_sig]
  exact sig_live_set_state _ procstate.SLEEPING hr (by decide) _ rfl rfl rfl rfl

theorem sleepTidy_sig (pt : List proc) (cur : Nat) :
    (sleepTidy pt cur).map sig = pt.map sig :=
  store_sig _ _ _ rfl

theorem kill_sig (pt : List proc) (pid : Int) : (kill pt pid).1.map sig = pt.map sig := by
  unfold kill
  split
  · apply store_sig
    simp only [sig, killMark]
    split_ifs with h
    · simp [h]
    · rfl
  · rfl

theorem schedulerReturn_sig (pt : List proc) (q p : Nat) (fromHigh : Bool)
    (hp : pt.length ≤ p) : (schedulerReturn pt q p fromHigh).map sig = pt.map sig := by
  unfold schedulerReturn
  simp only []
  split
  · rw [store_outside _ _ _ (by simpa [store_length] using hp)]
    exact store_sig _ _ _ rfl
  · exact store_sig _ _ _ rfl

theorem wait_inv (pt : List proc) (np : Int) (cur : Nat) (h : TableInv np pt)
    (hr : (slotAt pt cur).state ≠ procstate.UNUSED) :
    TableInv np (wait pt cur).1 ∧ (wait pt cur).1.length = pt.length := by
  unfold wait
  cases hf : pt.findIdx? (fun p =>
      decide (p.parent = Ptr.slot cur) && decide (p.state = procstate.ZOMBIE)) with
  | some i =>
    simp only []
    rw [List.findIdx?_eq_some_iff_getElem] at hf
    obtain ⟨hi, -, -⟩ := hf
    obtain ⟨l₁, a, l₂, h1, -, -, h4⟩ := store_split pt i hi
    rw [h4]
    subst h1
    refine ⟨?_, by simp⟩
    unfold TableInv at h ⊢
    simp only [List.map_append, List.map_cons] at h ⊢
    exact SigInv_free np _ _ (sig a) _ (by simp [sig, reclaim])
      (by have := h.1; simp [sig, reclaim]; omega) h
  | none =>
    simp only []
    split_ifs
    · exact ⟨h, rfl⟩
    · have hs := sleep_sig pt cur (Ptr.slot cur) hr
      refine ⟨?_, by simpa using congrArg List.length hs⟩
      unfold TableInv
      rw [hs]
      exact h

theorem snapshotLoop_allHigh (rest : List proc) (s : Snapshot)
    (h : ∀ x ∈ rest, x.state = procstate.RUNNABLE → x.whichqueue = 1) :
    snapshotLoop rest s =
      { i := s.i + (fresh s.p rest).length, p := s.p + rest.length,
        high := writeAll s.high s.i ((fresh s.p rest).map Prod.fst), low := s.low,
        hightickets := s.hightickets + ((fresh s.p rest).map Prod.snd).sum,
        lowtickets := s.lowtickets,
        emptyHigh := if fresh s.p rest = [] then s.emptyHigh else 1,
        emptyLow := s.emptyLow } := by
  induction rest generalizing s with
  | nil => simp [snapshotLoop, fresh, writeAll]
  | cons x xs ih =>
    have hxs : ∀ y ∈ xs, y.state = procstate.RUNNABLE → y.whichqueue = 1 :=
      fun y hy => h y (List.mem_cons_of_mem _ hy)
    rw [snapshotLoop, ih _ hxs]
    by_cases hr : x.state = procstate.RUNNABLE
    · have hw := h x (List.mem_cons_self _ _) hr
      simp only [snapshotStep, hr, hw, fresh, ne_eq, not_true_eq_false, if_false, if_true,
        List.length_cons, List.map_cons, List.sum_cons, writeAll]
      simp only [Snapshot.mk.injEq]
      refine ⟨by omega, by omega, trivial, trivial, by ring, trivial, ?_, trivial⟩
      simp
    · simp only [snapshotStep, hr, fresh, ne_eq, not_false_eq_true, if_true, if_false,
        List.length_cons]
      simp only [Snapshot.mk.injEq]
      refine ⟨trivial, by omega, trivial, trivial, trivial, trivial, trivial, trivial⟩

theorem fresh_spec (rest : List proc) (off : Nat) (q : Nat) (t : Int)
    (h : (q, t) ∈ fresh off rest) :
    off ≤ q ∧ ∃ x, rest[q - off]? = some x ∧ x.state = procstate.RUNNABLE ∧
      x.numTickets = t := by
  induction rest generalizing off with
  | nil => simp [fresh] at h
  | cons x xs ih =>
    unfold fresh at h
    split_ifs at h with hr
    · rw [List.mem_cons] at h
      rcases h with h | h
      · simp only [Prod.mk.injEq] at h
        obtain ⟨rfl, rfl⟩ := h
        exact ⟨le_refl _, x, by simp, hr, rfl⟩
      · obtain ⟨h1, y, h2, h3, h4⟩ := ih (off + 1) h
        refine ⟨by omega, y, ?_, h3, h4⟩
        have : q - off = (q - (off + 1)) + 1 := by omega
        rw [this]
        simpa using h2
    · obtain ⟨h1, y, h2, h3, h4⟩ := ih (off + 1) h
      refine ⟨by omega, y, ?_, h3, h4⟩
      have : q - off = (q - (off + 1)) + 1 := by omega
      rw [this]
      simpa using h2

theorem fresh_length_le (rest : List proc) (off : Nat) :
    (fresh off rest).length ≤ rest.length := by
  induction rest generalizing off with
  | nil => simp [fresh]
  | cons x xs ih =>
    unfold fresh
    split_ifs
    · simpa using ih (off + 1)
    · have := ih (off + 1)
      simp only [List.length_cons]
      omega

theorem writeAll_length (q : List (Option Nat)) (i : Nat) (l : List Nat) :
    (writeAll q i l).length = q.length := by
  induction l generalizing q i with
  | nil => rfl
  | cons x xs ih => rw [writeAll, ih, List.length_set]

theorem writeAll_before (q : List (Option Nat)) (i : Nat) (l : List Nat) (j : Nat)
    (hj : j < i) : (writeAll q i l)[j]? = q[j]? := by
  induction l generalizing q i with
  | nil => rfl
  | cons x xs ih =>
    rw [writeAll, ih _ _ (by omega), List.getElem?_set_ne (by omega)]

theorem writeAll_at (q : List (Option Nat)) (i : Nat) (l : List Nat) (k : Nat)
    (hk : k < l.length) (hq : i + l.length ≤ q.length) :
    (writeAll q i l)[i + k]? = some (some (l.getD k 0)) := by
  induction l generalizing q i k with
  | nil => simp at hk
  | cons x xs ih =>
    rw [writeAll]
    simp only [List.length_cons] at hk hq
    cases k with
    | zero =>
      rw [writeAll_before _ _ _ _ (by omega)]
      simp [List.getElem?_set_self (show i < q.length by omega)]
    | succ k =>
      have := ih (q.set i (some x)) (i + 1) k (by omega) (by rw [List.length_set]; omega)
      rw [show i + (k + 1) = i + 1 + k by omega, this]
      rfl

theorem walkLoop_bound (pt : List proc) (q : List (Option Nat)) (r : Int)
    (rest : List Int) (fuel j : Nat) (pick : Int)
    (ht : ∀ k, k < rest.length → ticketsAt pt q (j + 1 + k) = some (rest.getD k 0))
    (hr : r < pick + rest.sum) (hf : rest.length ≤ fuel) :
    ∃ j', walkLoop pt q r fuel j pick = Walk.stop j' ∧ j ≤ j' ∧ j' ≤ j + rest.length := by
  induction rest generalizing fuel j pick with
  | nil =>
    have hn : ¬ pick < r := by simp at hr; omega
    refine ⟨j, ?_, le_refl _, by simp⟩
    cases fuel <;> simp [walkLoop, hn]
  | cons t ts ih =>
    by_cases hp : pick < r
    · cases fuel with
      | zero => simp at hf
      | succ f =>
        have h0 := ht 0 (by simp)
        simp only [Nat.add_zero, List.getD_cons_zero] at h0
        have hts : ∀ k, k < ts.length →
            ticketsAt pt q (j + 1 + 1 + k) = some (ts.getD k 0) := by
          intro k hk
          have := ht (k + 1) (by simpa using hk)
          rw [List.getD_cons_succ] at this
          rw [← this]
          congr 1
          omega
        obtain ⟨j', h1, h2, h3⟩ := ih f (j + 1) (pick + t) hts
          (by simp only [List.sum_cons] at hr; omega) (by simpa using hf)
        refine ⟨j', ?_, by omega, by simp only [List.length_cons]; omega⟩
        rw [walkLoop, if_pos hp, h0]
        exact h1
    · refine ⟨j, ?_, le_refl _, by omega⟩
      cases fuel <;> simp [walkLoop, hp]

theorem length_le_sum (ts : List Int) (h : ∀ t ∈ ts, 1 ≤ t) : (ts.length : Int) ≤ ts.sum := by
  induction ts with
  | nil => simp
  | cons t ts ih =>
    have h1 := h t (List.mem_cons_self _ _)
    have h2 := ih (fun x hx => h x (List.mem_cons_of_mem _ hx))
    simp only [List.length_cons, List.sum_cons, Nat.cast_add, Nat.cast_one]
    omega

theorem fresh_slot (pt : List proc) (k : Nat) (hk : k < (fresh 0 pt).length) :
    ((fresh 0 pt).map Prod.fst).getD k 0 < pt.length ∧
    (slotAt pt (((fresh 0 pt).map Prod.fst).getD k 0)).state = procstate.RUNNABLE ∧
    (pt[((fresh 0 pt).map Prod.fst).getD k 0]?).map (fun x => x.numTickets) =
      some (((fresh 0 pt).map Prod.snd).getD k 0) := by
  have hmem : (fresh 0 pt)[k] ∈ fresh 0 pt := List.getElem_mem hk
  obtain ⟨-, x, h2, h3, h4⟩ := fresh_spec pt 0 (fresh 0 pt)[k].1 (fresh 0 pt)[k].2 hmem
  have e1 : ((fresh 0 pt).map Prod.fst).getD k 0 = (fresh 0 pt)[k].1 := by
    simp [List.getD_eq_getElem?_getD, List.getElem?_map, List.getElem?_eq_getElem hk]
  have e2 : ((fresh 0 pt).map Prod.snd).getD k 0 = (fresh 0 pt)[k].2 := by
    simp [List.getD_eq_getElem?_getD, List.getElem?_map, List.getElem?_eq_getElem hk]
  rw [e1, e2]
  simp only [Nat.sub_zero] at h2
  refine ⟨?_, ?_, ?_⟩
  · by_contra hc
    rw [List.getElem?_eq_none (Nat.le_of_not_lt hc)] at h2
    exact absurd h2 (by simp)
  · simp [slotAt, h2, h3]
  · simp [h2, h4]

theorem snapshot_allHigh (pt : List proc) (high low : List (Option Nat))
    (h : ∀ x ∈ pt, x.state = procstate.RUNNABLE → x.whichqueue = 1) :
    snapshot pt high low =
      { i := (fresh 0 pt).length, p := pt.length,
        high := writeAll high 0 ((fresh 0 pt).map Prod.fst), low := low,
        hightickets := ((fresh 0 pt).map Prod.snd).sum, lowtickets := 0,
        emptyHigh := if fresh 0 pt = [] then 0 else 1, emptyLow := 0 } := by
  unfold snapshot
  rw [snapshotLoop_allHigh _ _ h]
  simp

theorem schedulerPick_allHigh (pt : List proc) (high low : List (Option Nat)) (a : Int)
    (hq : ∀ x ∈ pt, x.state = procstate.RUNNABLE → x.whichqueue = 1 ∧ 1 ≤ x.numTickets)
    (hh : high.length = pt.length) :
    schedulerPick pt high low a = Pick.idle ∨
    ∃ q a1, q < pt.length ∧ (slotAt pt q).state = procstate.RUNNABLE ∧
      schedulerPick pt high low a = Pick.run
        { ptable := store pt q runHigh, proc := q, fromHigh := true, uvm := q,
          p := pt.length, rand := a1,
          high := writeAll high 0 ((fresh 0 pt).map Prod.fst), low := low } := by
  have hs := snapshot_allHigh pt high low (fun x hx hr => (hq x hx hr).1)
  unfold schedulerPick
  rw [hs]
  simp only []
  by_cases hF : fresh 0 pt = []
  · left
    simp [hF]
  · right
    have hlen : 0 < (fresh 0 pt).length := List.length_pos.mpr hF
    have hle : (fresh 0 pt).length ≤ pt.length := fresh_length_le pt 0
    -- tickets of the fresh entries
    have hpos : ∀ t ∈ (fresh 0 pt).map Prod.snd, (1 : Int) ≤ t := by
      intro t ht
      rw [List.mem_map] at ht
      obtain ⟨⟨q, t'⟩, hm, rfl⟩ := ht
      obtain ⟨-, x, h2, h3, h4⟩ := fresh_spec pt 0 q t' hm
      have hx : x ∈ pt := List.getElem?_mem h2
      rw [← h4]
      exact (hq x hx h3).2
    have hsum := length_le_sum _ hpos
    rw [List.length_map] at hsum
    have hS : (0 : Int) < ((fresh 0 pt).map Prod.snd).sum := by
      have : (0 : Int) < ((fresh 0 pt).length : Int) := by exact_mod_cast hlen
      omega
    have hne : ((fresh 0 pt).map Prod.snd).sum ≠ 0 := by omega
    -- reads through the HIGH queue
    have hread : ∀ k, k < (fresh 0 pt).length →
        (writeAll high 0 ((fresh 0 pt).map Prod.fst))[k]? =
          some (some (((fresh 0 pt).map Prod.fst).getD k 0)) := by
      intro k hk
      have := writeAll_at high 0 ((fresh 0 pt).map Prod.fst) k (by simpa using hk)
        (by simp only [List.length_map]; omega)
      simpa using this
    have htk : ∀ k, k < (fresh 0 pt).length →
        ticketsAt pt (writeAll high 0 ((fresh 0 pt).map Prod.fst)) k =
          some (((fresh 0 pt).map Prod.snd).getD k 0) := by
      intro k hk
      unfold ticketsAt
      rw [hread k hk]
      exact (fresh_slot pt k hk).2.2
    -- the draw
    simp only [hF, if_false, rand1, hne]
    have hr := Int.tmod_lt_of_pos (Int.tmod (wrap32 (a * 125)) 2796203) hS
    generalize Int.tmod (Int.tmod (wrap32 (a * 125)) 2796203)
      ((fresh 0 pt).map Prod.snd).sum = r at hr ⊢
    -- the walk
    obtain ⟨e, es, hes⟩ := List.exists_cons_of_ne_nil
      (show (fresh 0 pt).map Prod.snd ≠ [] by simpa using hF)
    have h0 := htk 0 hlen
    rw [hes, List.getD_cons_zero] at h0
    have hlen2 : es.length + 1 = (fresh 0 pt).length := by
      have := congrArg List.length hes
      simpa using this.symm
    obtain ⟨j, hj1, -, hj3⟩ := walkLoop_bound pt
      (writeAll high 0 ((fresh 0 pt).map Prod.fst)) r es
      (writeAll high 0 ((fresh 0 pt).map Prod.fst)).length 0 e
      (by
        intro k hk
        have := htk (k + 1) (by omega)
        rw [hes, List.getD_cons_succ] at this
        rw [← this]
        congr 1
        omega)
      (by rw [hes, List.sum_cons] at hr; exact hr)
      (by rw [writeAll_length]; omega)
    have hjlt : j < (fresh 0 pt).length := by omega
    obtain ⟨hq1, hq2, -⟩ := fresh_slot pt j hjlt
    refine ⟨((fresh 0 pt).map Prod.fst).getD j 0, Int.tmod (wrap32 (a * 125)) 2796203,
      hq1, hq2, ?_⟩
    simp only [pickHigh, lotteryWalk, h0, hj1, hread j hjlt, if_true, runHigh]
    rfl

/-! ## Filling a boot table -/

theorem prologueLoop_length (rest : List proc) (p i : Nat) (high : List (Option Nat)) :
    (prologueLoop rest p i high).length = high.length := by
  induction rest generalizing p i high with
  | nil => rfl
  | cons x xs ih =>
    unfold prologueLoop
    split_ifs
    · exact ih _ _ _
    · rw [ih, List.length_set]

theorem boot_inv (n : Nat) : KernelInv (boot n) := by
  refine ⟨?_, by simp [boot, clearedQueue, emptyTable], by simp [boot, clearedQueue, emptyTable]⟩
  unfold TableInv SigInv
  have hmem : ∀ x ∈ (boot n).ptable.map sig, x = sig procZero := by
    intro x hx
    simp only [boot, emptyTable, List.map_replicate] at hx
    exact List.eq_of_mem_replicate hx
  refine ⟨le_refl _, ?_, ?_, ?_⟩
  · intro x hx
    rw [hmem x hx]
    simp [boot, sig, procZero]
  · intro x hx hf
    rw [hmem x hx] at hf
    exact absurd hf (by decide)
  · have : livePidsOf ((boot n).ptable.map sig) = [] := by
      unfold livePidsOf
      rw [List.map_eq_nil_iff, List.filter_eq_nil_iff]
      intro x hx
      rw [hmem x hx]
      decide
    rw [this]
    exact List.nodup_nil

theorem TableInv_of_sig (np : Int) (pt pt1 : List proc) (h : TableInv np pt)
    (hs : pt1.map sig = pt.map sig) : TableInv np pt1 ∧ pt1.length = pt.length := by
  refine ⟨?_, by simpa using congrArg List.length hs⟩
  unfold TableInv
  rw [hs]
  exact h

theorem TableInv_runnable (np : Int) (pt : List proc) (h : TableInv np pt) :
    ∀ x ∈ pt, x.state = procstate.RUNNABLE → x.whichqueue = 1 ∧ 1 ≤ x.numTickets := by
  intro x hx hr
  have := h.2.2.1 (sig x) (List.mem_map_of_mem sig hx) (by simp [sig, hr])
  exact this.2

theorem isRunning_live (k : Kernel) (cur : Nat) (h : isRunning k cur = true) :
    (slotAt k.ptable cur).state ≠ procstate.UNUSED := by
  unfold isRunning at h
  simp only [decide_eq_true_eq] at h
  rw [h]
  decide

theorem allocproc_pid (pt : List proc) (np : Int) (kalloc i : Nat)
    (h : (allocproc pt np kalloc).2.2 = some i) :
    (slotAt (allocproc pt np kalloc).1 i).pid = np := by
  have hk : kalloc ≠ 0 := by
    intro hk
    unfold allocproc at h
    split at h
    · exact absurd h (by simp)
    · simp [hk] at h
  obtain ⟨hi, -, -, heq⟩ := allocproc_some pt np kalloc hk i h
  rw [heq, slotAt_store_self _ _ _ hi]
  rfl

/-! ## Ticket generator -/

theorem randState_zero : randState 0 = 100001 := by
  unfold randState
  norm_num

theorem randState_pos (j : Nat) : 1 ≤ randState j ∧ randState j ≤ 2796202 := by
  unfold randState
  have hlt : (100001 * 125 ^ j : Int) % 2796203 < 2796203 :=
    Int.emod_lt_of_pos _ (by norm_num)
  have hnd : ¬ ((2796203 : Int) ∣ 100001 * 125 ^ j) := by
    intro hd
    have hd2 : (2796203 : Nat) ∣ 100001 * 125 ^ j := by
      have : ((2796203 : Nat) : Int) ∣ ((100001 * 125 ^ j : Nat) : Int) := by
        push_cast
        exact hd
      exact Int.natCast_dvd_natCast.mp this
    have hc : Nat.Coprime 2796203 (100001 * 125 ^ j) :=
      Nat.Coprime.mul_right (by norm_num) (Nat.Coprime.pow_right j (by norm_num))
    have := Nat.Coprime.eq_one_of_dvd hc hd2
    omega
  rcases Int.emod_pos_of_not_dvd hnd with h | h
  · omega
  · omega

theorem randState_succ (j : Nat) : (randState j * 125) % 2796203 = randState (j + 1) := by
  unfold randState
  rw [pow_succ, ← mul_assoc, Int.mul_emod (100001 * 125 ^ j) 125 2796203,
    Int.mul_emod ((100001 * 125 ^ j) % 2796203) 125 2796203, Int.emod_emod]

theorem wrap32_id (x : Int) (h0 : 0 ≤ x) (h1 : x < 2147483648) : wrap32 x = x := by
  unfold wrap32
  omega

theorem rand1_at (j : Nat) (b : Int) (hb : 1 ≤ b) :
    randState j * 125 < 2147483648 ∧
    wrap32 (randState j * 125) = randState j * 125 ∧
    rand1 (randState j) b = some (randState (j + 1), randState (j + 1) % b) ∧
    0 ≤ randState (j + 1) % b ∧ randState (j + 1) % b < b := by
  obtain ⟨h1, h2⟩ := randState_pos j
  obtain ⟨h3, h4⟩ := randState_pos (j + 1)
  have hw : wrap32 (randState j * 125) = randState j * 125 :=
    wrap32_id _ (by omega) (by omega)
  refine ⟨by omega, hw, ?_, Int.emod_nonneg _ (by omega), Int.emod_lt_of_pos _ (by omega)⟩
  unfold rand1
  simp only []
  rw [hw, Int.tmod_eq_emod (by omega) (by norm_num), randState_succ,
    Int.tmod_eq_emod (by omega) (by omega), if_neg (by omega)]

theorem rand1Calls_from (bs : List Int) (hb : ∀ b ∈ bs, 1 ≤ b) (j : Nat) :
    rand1Calls (randState j) bs =
      some ((List.range bs.length).map (fun k => randState (j + k + 1) % bs.getD k 1),
        randState (j + bs.length)) := by
  induction bs generalizing j with
  | nil => simp [rand1Calls]
  | cons b bs ih =>
    have h1 := (rand1_at j b (hb b (List.mem_cons_self _ _))).2.2.1
    have h2 := ih (fun x hx => hb x (List.mem_cons_of_mem _ hx)) (j + 1)
    rw [rand1Calls, h1]
    simp only []
    rw [h2]
    simp only [List.length_cons, List.range_succ_eq_map, List.map_cons, List.map_map,
      List.getD_cons_zero, Nat.add_zero]
    congr 2
    · congr 1
      apply List.map_congr_left
      intro k _
      simp only [Function.comp, List.getD_cons_succ]
      congr 2
      omega
    · congr 1
      omega

/-! ## Fork -/

theorem allocproc_first (pt : List proc) (np : Int) (kalloc i : Nat)
    (hf : pt.findIdx? (fun p => decide (p.state = procstate.UNUSED)) = some i) :
    i < pt.length ∧ (slotAt pt i).state = procstate.UNUSED ∧
    allocproc pt np kalloc =
      (if kalloc = 0 then
        (store pt i (fun p =>
          { allocInit np p with kstack := 0, state := procstate.UNUSED }), np + 1, none)
       else (store pt i (fun p => { allocInit np p with kstack := kalloc }), np + 1,
          some i)) := by
  have hf2 := hf
  rw [List.findIdx?_eq_some_iff_getElem] at hf2
  obtain ⟨hi, hp, -⟩ := hf2
  refine ⟨hi, by simpa [slotAt, List.getElem?_eq_getElem hi] using hp, ?_⟩
  unfold allocproc
  rw [hf]
  simp only []
  split_ifs <;> simp [store, List.modify_modify_eq, Function.comp_def]

theorem snapshotStep_sums (s : Snapshot) (x : proc)
    (hx : x.state = procstate.RUNNABLE → 1 ≤ x.numTickets) (h : SumsOk s) :
    SumsOk (snapshotStep s x) := by
  obtain ⟨h1, h2, h3, h4, h5, h6⟩ := h
  unfold snapshotStep
  split_ifs with hr hw hw0
  · exact ⟨h1, h2, h3, h4, h5, h6⟩
  · have := hx (by simpa using hr)
    exact ⟨Or.inr rfl, h2, by simp only []; omega, h4, fun _ => by simp only []; omega, h6⟩
  · have := hx (by simpa using hr)
    exact ⟨h1, Or.inr rfl, h3, by simp only []; omega, h5, fun _ => by simp only []; omega⟩
  · exact ⟨h1, h2, h3, h4, h5, h6⟩

theorem snapshotLoop_sums (rest : List proc) (s : Snapshot)
    (hx : ∀ x ∈ rest, x.state = procstate.RUNNABLE → 1 ≤ x.numTickets) (h : SumsOk s) :
    SumsOk (snapshotLoop rest s) := by
  induction rest generalizing s with
  | nil => exact h
  | cons x xs ih =>
    rw [snapshotLoop]
    exact ih _ (fun y hy => hx y (List.mem_cons_of_mem _ hy))
      (snapshotStep_sums s x (hx x (List.mem_cons_self _ _)) h)

theorem snapshot_sums (pt : List proc) (high low : List (Option Nat))
    (hx : ∀ x ∈ pt, x.state = procstate.RUNNABLE → 1 ≤ x.numTickets) :
    SumsOk (snapshot pt high low) := by
  unfold snapshot
  apply snapshotLoop_sums _ _ hx
  exact ⟨Or.inl rfl, Or.inl rfl, le_refl _, le_refl _, by simp, by simp⟩

/-! ## The LOW path -/

theorem walkLoop_reads (pt : List proc) (q : List (Option Nat)) (r : Int)
    (fuel j : Nat) (pick : Int) (j1 : Nat)
    (h : walkLoop pt q r fuel j pick = Walk.stop j1)
    (hj : (ticketsAt pt q j).isSome = true) : (ticketsAt pt q j1).isSome = true := by
  induction fuel generalizing j pick with
  | zero =>
    unfold walkLoop at h
    split_ifs at h
    simp only [Walk.stop.injEq] at h
    rw [← h]; exact hj
  | succ f ih =>
    unfold walkLoop at h
    split_ifs at h
    · split at h
      · exact absurd h (by simp)
      · rename_i t ht
        exact ih (j + 1) (pick + t) h (by rw [ht]; rfl)
    · simp only [Walk.stop.injEq] at h
      rw [← h]; exact hj

theorem lotteryWalk_slot (pt : List proc) (q : List (Option Nat)) (r : Int) (j x : Nat)
    (h : lotteryWalk pt q r = Walk.stop j) (hq : q[j]? = some (some x)) :
    x < pt.length := by
  unfold lotteryWalk at h
  split at h
  · exact absurd h (by simp)
  · rename_i t ht
    have := walkLoop_reads pt q r q.length 0 t j h (by rw [ht]; rfl)
    unfold ticketsAt at this
    rw [hq] at this
    simp only [Option.isSome_map'] at this
    by_contra hc
    rw [List.getElem?_eq_none (Nat.le_of_not_lt hc)] at this
    exact absurd this (by simp)

/-! ## The walk: least index -/

theorem walkLoop_least (pt : List proc) (q : List (Option Nat)) (r : Int)
    (rest : List Int) (fuel j : Nat) (pick : Int)
    (ht : ∀ k, k < rest.length → ticketsAt pt q (j + 1 + k) = some (rest.getD k 0))
    (hr : r < pick + rest.sum) (hf : rest.length ≤ fuel) :
    ∃ d, d ≤ rest.length ∧ walkLoop pt q r fuel j pick = Walk.stop (j + d) ∧
      r ≤ pick + (rest.take d).sum ∧ ∀ e, e < d → pick + (rest.take e).sum < r := by
  induction rest generalizing fuel j pick with
  | nil =>
    have hn : ¬ pick < r := by simp at hr; omega
    refine ⟨0, le_refl _, ?_, by simp; omega, by intro e he; omega⟩
    cases fuel <;> simp [walkLoop, hn]
  | cons t ts ih =>
    by_cases hp : pick < r
    · cases fuel with
      | zero => simp at hf
      | succ f =>
        have h0 := ht 0 (by simp)
        simp only [Nat.add_zero, List.getD_cons_zero] at h0
        have hts : ∀ k, k < ts.length →
            ticketsAt pt q (j + 1 + 1 + k) = some (ts.getD k 0) := by
          intro k hk
          have := ht (k + 1) (by simpa using hk)
          rw [List.getD_cons_succ] at this
          rw [← this]
          congr 1
          omega
        obtain ⟨d, h1, h2, h3, h4⟩ := ih f (j + 1) (pick + t) hts
          (by simp only [List.sum_cons] at hr; omega) (by simpa using hf)
        refine ⟨d + 1, by simpa using h1, ?_, ?_, ?_⟩
        · rw [walkLoop, if_pos hp, h0]
          simp only []
          rw [h2]
          congr 1
          omega
        · simp only [List.take_succ_cons, List.sum_cons]
          omega
        · intro e he
          cases e with
          | zero => simpa using hp
          | succ e =>
            have := h4 e (by omega)
            simp only [List.take_succ_cons, List.sum_cons]
            omega
    · refine ⟨0, Nat.zero_le _, ?_, by simp; omega, by intro e he; omega⟩
      cases fuel <;> simp [walkLoop, hp]

/-! ## A ZOMBIE stays a ZOMBIE -/

theorem ZombieKept_refl (pt : List proc) : ZombieKept pt pt := fun _ h => ⟨h, rfl⟩

theorem ZombieKept_trans (a b c : List proc) (h1 : ZombieKept a b) (h2 : ZombieKept b c) :
    ZombieKept a c := by
  intro z hz
  obtain ⟨h3, h4⟩ := h1 z hz
  obtain ⟨h5, h6⟩ := h2 z h3
  exact ⟨h5, by rw [h6, h4]⟩

theorem store_zk (pt : List proc) (i : Nat) (f : proc → proc)
    (h : (slotAt pt i).state = procstate.ZOMBIE →
      (f (slotAt pt i)).state = procstate.ZOMBIE ∧ (f (slotAt pt i)).pid = (slotAt pt i).pid) :
    ZombieKept pt (store pt i f) := by
  intro z hz
  by_cases hzi : i = z
  · subst hzi
    by_cases hi : i < pt.length
    · rw [slotAt_store_self _ _ _ hi]
      exact h hz
    · rw [store_outside _ _ _ (Nat.le_of_not_lt hi)]
      exact ⟨hz, rfl⟩
  · rw [slotAt_store_ne _ _ _ _ hzi]
    exact ⟨hz, rfl⟩

theorem store_zk_other (pt : List proc) (i : Nat) (f : proc → proc)
    (h : (slotAt pt i).state ≠ procstate.ZOMBIE) : ZombieKept pt (store pt i f) :=
  store_zk pt i f (fun hz => absurd hz h)

theorem slotAt_map (pt : List proc) (f : proc → proc) (hf : f procZero = procZero)
    (z : Nat) : slotAt (pt.map f) z = f (slotAt pt z) := by
  simp only [slotAt, List.getD_eq_getElem?_getD, List.getElem?_map]
  cases pt[z]? with
  | none => simp [hf]
  | some x => rfl

theorem slotAt_wakeup1 (pt : List proc) (chan : Ptr) (z : Nat) :
    slotAt (wakeup1 pt chan) z =
      if (slotAt pt z).state = procstate.SLEEPING ∧ (slotAt pt z).chan = chan then
        { slotAt pt z with state := procstate.RUNNABLE } else slotAt pt z := by
  unfold wakeup1
  rw [slotAt_map]
  simp [procZero]

theorem wakeup1_zk (pt : List proc) (chan : Ptr) : ZombieKept pt (wakeup1 pt chan) := by
  intro z hz
  rw [slotAt_wakeup1, if_neg (by rw [hz]; simp)]
  exact ⟨hz, rfl⟩

theorem reparent_zk (cur : Nat) (initproc : Ptr) (todo : List proc) (k : Nat)
    (pt : List proc) : ZombieKept pt (reparent cur initproc todo k pt) := by
  induction todo generalizing k pt with
  | nil => exact ZombieKept_refl pt
  | cons x xs ih =>
    unfold reparent
    simp only []
    split_ifs
    · exact ZombieKept_trans _ _ _
        (ZombieKept_trans _ _ _ (store_zk _ _ _ (fun hz => ⟨hz, rfl⟩)) (wakeup1_zk _ _))
        (ih _ _)
    · exact ZombieKept_trans _ _ _ (store_zk _ _ _ (fun hz => ⟨hz, rfl⟩)) (ih _ _)
    · exact ih _ _

theorem allocproc_zk (pt : List proc) (np : Int) (kalloc : Nat) :
    ZombieKept pt (allocproc pt np kalloc).1 := by
  cases hf : pt.findIdx? (fun p => decide (p.state = procstate.UNUSED)) with
  | none =>
    unfold allocproc
    rw [hf]
    exact ZombieKept_refl pt
  | some i =>
    obtain ⟨-, hs, ha⟩ := allocproc_first pt np kalloc i hf
    rw [ha]
    split_ifs <;> exact store_zk_other _ _ _ (by rw [hs]; decide)

theorem allocproc_slot_state (pt : List proc) (np : Int) (kalloc i : Nat)
    (h : (allocproc pt np kalloc).2.2 = some i) :
    (slotAt (allocproc pt np kalloc).1 i).state = procstate.EMBRYO := by
  have hk : kalloc ≠ 0 := by
    intro hk
    unfold allocproc at h
    split at h
    · exact absurd h (by simp)
    · simp [hk] at h
  obtain ⟨hi, -, -, heq⟩ := allocproc_some pt np kalloc hk i h
  rw [heq, slotAt_store_self _ _ _ hi]
  rfl

theorem fork_zk (pt : List proc) (np : Int) (cur kalloc copyuvm : Nat) :
    ZombieKept pt (fork pt np cur kalloc copyuvm).1 := by
  have ha := allocproc_zk pt np kalloc
  unfold fork
  split
  · rename_i pt1 np1 he
    rw [he] at ha
    exact ha
  · rename_i pt1 np1 i he
    have hst := allocproc_slot_state pt np kalloc i (by rw [he])
    rw [he] at ha hst
    simp only [] at ha hst
    split_ifs
    · exact ZombieKept_trans _ _ _ ha (store_zk_other _ _ _ (by rw [hst]; decide))
    · exact ZombieKept_trans _ _ _ ha (store_zk_other _ _ _ (by rw [hst]; decide))

theorem userinit_zk (pt : List proc) (np : Int) (kalloc : Nat) (e : BootEnv)
    (pt1 : List proc) (np1 : Int) (ip : Ptr)
    (hu : userinit pt np kalloc e = some (pt1, np1, ip)) : ZombieKept pt pt1 := by
  have ha := allocproc_zk pt np kalloc
  unfold userinit at hu
  split at hu
  · exact absurd hu (by simp)
  · rename_i pt2 np2 i he
    have hst := allocproc_slot_state pt np kalloc i (by rw [he])
    rw [he] at ha hst
    simp only [] at ha hst
    split_ifs at hu
    simp only [Option.some.injEq, Prod.mk.injEq] at hu
    rw [← hu.1]
    exact ZombieKept_trans _ _ _ ha (store_zk_other _ _ _ (by rw [hst]; decide))

theorem exit_zk (pt : List proc) (cur : Nat) (initproc : Ptr) (pt1 : List proc)
    (h : exit pt cur initproc = some pt1) : ZombieKept pt pt1 := by
  unfold exit at h
  split_ifs at h
  simp only [Option.some.injEq] at h
  subst h
  refine ZombieKept_trans _ _ _ ?_ (store_zk _ _ _ (fun _ => ⟨rfl, rfl⟩))
  refine ZombieKept_trans _ _ _ ?_ (reparent_zk _ _ _ _ _)
  refine ZombieKept_trans _ _ _ ?_ (wakeup1_zk _ _)
  exact store_zk _ _ _ (fun hz => ⟨hz, rfl⟩)

theorem kill_zk (pt : List proc) (pid : Int) : ZombieKept pt (kill pt pid).1 := by
  unfold kill
  split
  · apply store_zk
    intro hz
    simp [killMark, hz]
  · exact ZombieKept_refl pt

theorem schedulerReturn_zk (pt : List proc) (q p : Nat) (fromHigh : Bool) :
    ZombieKept pt (schedulerReturn pt q p fromHigh) := by
  unfold schedulerReturn
  simp only []
  split
  · exact ZombieKept_trans _ _ _ (store_zk _ _ _ (fun hz => ⟨hz, rfl⟩))
      (store_zk _ _ _ (fun hz => ⟨hz, rfl⟩))
  · exact store_zk _ _ _ (fun hz => ⟨hz, rfl⟩)

theorem snapshotStep_entries (pt : List proc) (s : Snapshot) (x : proc)
    (hx : slotAt pt s.p = x) (hh : EntriesRunnable pt s.high)
    (hl : EntriesRunnable pt s.low) :
    EntriesRunnable pt (snapshotStep s x).high ∧
    EntriesRunnable pt (snapshotStep s x).low := by
  unfold snapshotStep
  split_ifs with hr hw hw0
  · exact ⟨hh, hl⟩
  · refine ⟨?_, hl⟩
    intro j y hj
    simp only [] at hj
    have hy : s.p = y ∨ s.high[j]? = some (some y) := by
      rw [List.getElem?_set] at hj
      split_ifs at hj <;> simp_all
    rcases hy with hy | hy
    · rw [← hy, hx]
      simpa using hr
    · exact hh j y hy
  · refine ⟨hh, ?_⟩
    intro j y hj
    simp only [] at hj
    have hy : s.p = y ∨ s.low[j]? = some (some y) := by
      rw [List.getElem?_set] at hj
      split_ifs at hj <;> simp_all
    rcases hy with hy | hy
    · rw [← hy, hx]
      simpa using hr
    · exact hl j y hy
  · exact ⟨hh, hl⟩

theorem slotAt_append_length (done rest : List proc) (x : proc) :
    slotAt (done ++ x :: rest) done.length = x := by
  induction done with
  | nil => rfl
  | cons y ys ih => simpa [slotAt] using ih

theorem snapshotStep_p (s : Snapshot) (x : proc) : (snapshotStep s x).p = s.p + 1 := by
  unfold snapshotStep
  split_ifs <;> rfl

theorem snapshotLoop_entries (rest done : List proc) (s : Snapshot)
    (hp : s.p = done.length) (hh : EntriesRunnable (done ++ rest) s.high)
    (hl : EntriesRunnable (done ++ rest) s.low) :
    EntriesRunnable (done ++ rest) (snapshotLoop rest s).high ∧
    EntriesRunnable (done ++ rest) (snapshotLoop rest s).low := by
  induction rest generalizing done s with
  | nil => exact ⟨hh, hl⟩
  | cons x xs ih =>
    rw [snapshotLoop]
    have hx : slotAt (done ++ x :: xs) s.p = x := by
      rw [hp]
      exact slotAt_append_length done xs x
    obtain ⟨h1, h2⟩ := snapshotStep_entries (done ++ x :: xs) s x hx hh hl
    have e : done ++ x :: xs = (done ++ [x]) ++ xs := by simp
    rw [e] at h1 h2 ⊢
    exact ih (done ++ [x]) (snapshotStep s x)
      (by rw [snapshotStep_p, hp]; simp) h1 h2

theorem snapshot_entries (pt : List proc) (high low : List (Option Nat))
    (hh : EntriesRunnable pt high) (hl : EntriesRunnable pt low) :
    EntriesRunnable pt (snapshot pt high low).high ∧
    EntriesRunnable pt (snapshot pt high low).low := by
  have := snapshotLoop_entries pt []
    { i := 0, p := 0, high := high, low := low, hightickets := 0, lowtickets := 0,
      emptyHigh := 0, emptyLow := 0 } rfl (by simpa using hh) (by simpa using hl)
  simpa [snapshot] using this

theorem cleared_entries (pt : List proc) (n : Nat) : EntriesRunnable pt (clearedQueue n) := by
  intro j x hj
  unfold clearedQueue at hj
  by_cases h : j < n
  · rw [List.getElem?_eq_getElem (by simpa using h)] at hj
    simp at hj
  · rw [List.getElem?_eq_none (by simpa using h)] at hj
    exact absurd hj (by simp)

theorem schedulerPick_runnable (pt : List proc) (high low : List (Option Nat)) (a : Int)
    (d : Dispatch) (hh : EntriesRunnable pt high) (hl : EntriesRunnable pt low)
    (hd : schedulerPick pt high low a = Pick.run d) :
    (slotAt pt d.proc).state = procstate.RUNNABLE ∧
    d.ptable = store pt d.proc (if d.fromHigh = true then runHigh else runLow) := by
  obtain ⟨eh, el⟩ := snapshot_entries pt high low hh hl
  unfold schedulerPick at hd
  simp only [] at hd
  split_ifs at hd
  · split at hd
    · exact absurd hd (by simp)
    · unfold pickHigh at hd
      split at hd
      · rename_i j hw
        split at hd
        · rename_i x hx
          injection hd with hd
          rw [← hd]
          exact ⟨eh j x hx, by simp⟩
        · exact absurd hd (by simp)
      · exact absurd hd (by simp)
  · split at hd
    · exact absurd hd (by simp)
    · unfold pickLow at hd
      split at hd
      · rename_i j hw
        split at hd
        · rename_i x hx
          injection hd with hd
          rw [← hd]
          exact ⟨el j x hx, by simp⟩
        · exact absurd hd (by simp)
      · exact absurd hd (by simp)

theorem dispatch_zk (k : Kernel) (d : Dispatch)
    (hq : (EntriesRunnable k.ptable k.high ∧ EntriesRunnable k.ptable k.low) ∨ KernelInv k)
    (hd : schedulerPick k.ptable k.high k.low k.rand = Pick.run d) :
    ZombieKept k.ptable d.ptable := by
  rcases hq with ⟨hh, hl⟩ | ⟨ht, hh, -⟩
  · obtain ⟨h1, h2⟩ := schedulerPick_runnable _ _ _ _ d hh hl hd
    rw [h2]
    exact store_zk_other _ _ _ (by rw [h1]; decide)
  · rcases schedulerPick_allHigh k.ptable k.high k.low k.rand
      (TableInv_runnable _ _ ht) hh with h0 | ⟨q, a1, -, hq2, h0⟩
    · rw [h0] at hd
      exact absurd hd (by simp)
    · rw [h0] at hd
      injection hd with hd
      rw [← hd]
      exact store_zk_other _ _ _ (by rw [hq2]; decide)

theorem running_not_zombie (k : Kernel) (cur : Nat) (h : isRunning k cur = true) :
    (slotAt k.ptable cur).state ≠ procstate.ZOMBIE := by
  unfold isRunning at h
  simp only [decide_eq_true_eq] at h
  rw [h]
  decide

/-! ## The reparenting loop of exit -/

theorem reparent_cons (cur : Nat) (ip : Ptr) (x : proc) (xs : List proc) (k : Nat)
    (pt : List proc) :
    reparent cur ip (x :: xs) k pt = reparent cur ip xs (k + 1) (reparentAt cur ip k pt) := by
  unfold reparentAt
  rw [reparent]
  simp only []
  split_ifs <;> rfl

theorem slotAt_outside (pt : List proc) (i : Nat) (h : pt.length ≤ i) :
    slotAt pt i = procZero := by
  simp [slotAt, List.getElem?_eq_none h]

theorem slotAt_store (pt : List proc) (i j : Nat) (f : proc → proc) (hi : i < pt.length) :
    slotAt (store pt i f) j = if i = j then f (slotAt pt j) else slotAt pt j := by
  split_ifs with h
  · subst h
    exact slotAt_store_self pt i f hi
  · exact slotAt_store_ne pt i j f h

/-- What one pass of the loop body does to slot `i`. -/
theorem reparentAt_slot (cur : Nat) (ip : Ptr) (k : Nat) (pt : List proc) (i : Nat) :
    (slotAt (reparentAt cur ip k pt) i).parent =
      (if i = k ∧ (slotAt pt i).parent = Ptr.slot cur then ip else (slotAt pt i).parent) ∧
    (slotAt (reparentAt cur ip k pt) i).chan = (slotAt pt i).chan ∧
    ((slotAt (reparentAt cur ip k pt) i).state = (slotAt pt i).state ∨
      ((slotAt pt i).state = procstate.SLEEPING ∧ (slotAt pt i).chan = ip ∧
        (slotAt (reparentAt cur ip k pt) i).state = procstate.RUNNABLE)) ∧
    ((slotAt pt k).parent = Ptr.slot cur → (slotAt pt k).state = procstate.ZOMBIE →
      (slotAt pt i).state = procstate.SLEEPING → (slotAt pt i).chan = ip →
      (slotAt (reparentAt cur ip k pt) i).state = procstate.RUNNABLE) := by
  by_cases hk : k < pt.length
  · unfold reparentAt
    by_cases hpar : (slotAt pt k).parent = Ptr.slot cur
    · rw [if_pos hpar]
      have hst : (slotAt (store pt k (fun p => { p with parent := ip })) k).state =
          (slotAt pt k).state := by rw [slotAt_store_self _ _ _ hk]
      rw [hst]
      by_cases hz : (slotAt pt k).state = procstate.ZOMBIE
      · rw [if_pos hz, slotAt_wakeup1, slotAt_store _ _ _ _ hk]
        by_cases hik : k = i
        · subst hik
          simp [hpar, hz]
        · have hik2 : ¬ i = k := fun h => hik h.symm
          simp only [if_neg hik, hik2, false_and, if_false]
          by_cases hs : (slotAt pt i).state = procstate.SLEEPING ∧ (slotAt pt i).chan = ip
          · simp [hs]
          · rw [if_neg hs]
            refine ⟨by simp, by simp, by simp, ?_⟩
            intro _ _ h1 h2
            exact absurd ⟨h1, h2⟩ hs
      · rw [if_neg hz, slotAt_store _ _ _ _ hk]
        by_cases hik : k = i
        · subst hik
          simp [hpar, hz]
        · have hik2 : ¬ i = k := fun h => hik h.symm
          simp only [if_neg hik, hik2, false_and, if_false]
          exact ⟨by simp, by simp, by simp, fun _ h => absurd h hz⟩
    · rw [if_neg hpar]
      refine ⟨?_, rfl, Or.inl rfl, fun h => absurd h hpar⟩
      split_ifs with h
      · exact absurd (h.1 ▸ h.2) hpar
      · rfl
  · have hk2 : pt.length ≤ k := Nat.le_of_not_lt hk
    have hp : ¬ (slotAt pt k).parent = Ptr.slot cur := by
      rw [slotAt_outside pt k hk2]
      simp [procZero]
    unfold reparentAt
    rw [if_neg hp]
    refine ⟨?_, rfl, Or.inl rfl, fun h => absurd h hp⟩
    split_ifs with h
    · exact absurd (h.1 ▸ h.2) hp
    · rfl

/-- What the whole reparenting loop over the slots `k .. k + todo.length - 1`
does to slot `i`. -/
theorem reparent_slot (cur : Nat) (ip : Ptr) (todo : List proc) (k : Nat)
    (pt : List proc) (i : Nat) :
    (slotAt (reparent cur ip todo k pt) i).parent =
      (if (k ≤ i ∧ i < k + todo.length) ∧ (slotAt pt i).parent = Ptr.slot cur then ip
       else (slotAt pt i).parent) ∧
    (slotAt (reparent cur ip todo k pt) i).chan = (slotAt pt i).chan ∧
    ((slotAt (reparent cur ip todo k pt) i).state = (slotAt pt i).state ∨
      ((slotAt pt i).state = procstate.SLEEPING ∧ (slotAt pt i).chan = ip ∧
        (slotAt (reparent cur ip todo k pt) i).state = procstate.RUNNABLE)) ∧
    ((∃ j, (k ≤ j ∧ j < k + todo.length) ∧ (slotAt pt j).parent = Ptr.slot cur ∧
        (slotAt pt j).state = procstate.ZOMBIE) →
      (slotAt pt i).state = procstate.SLEEPING → (slotAt pt i).chan = ip →
      (slotAt (reparent cur ip todo k pt) i).state = procstate.RUNNABLE) := by
  induction todo generalizing k pt with
  | nil =>
    simp only [reparent, List.length_nil, Nat.add_zero]
    refine ⟨?_, by simp, by simp, ?_⟩
    · rw [if_neg (by omega)]
    · rintro ⟨j, hj, -⟩
      omega
  | cons x xs ih =>
    rw [reparent_cons]
    obtain ⟨a1, a2, a3, a4⟩ := reparentAt_slot cur ip k pt i
    obtain ⟨b1, b2, b3, b4⟩ := ih (k + 1) (reparentAt cur ip k pt)
    refine ⟨?_, ?_, ?_, ?_⟩
    · rw [b1, a1]
      simp only [List.length_cons]
      by_cases hik : i = k
      · subst hik
        have : ¬ (i + 1 ≤ i ∧ i < i + 1 + xs.length) := by omega
        simp only [this, false_and, if_false, true_and]
        have : i ≤ i ∧ i < i + (xs.length + 1) := by omega
        simp only [this, true_and]
      · simp only [hik, false_and, if_false]
        have : (k + 1 ≤ i ∧ i < k + 1 + xs.length) ↔ (k ≤ i ∧ i < k + (xs.length + 1)) := by
          omega
        simp only [this]
    · rw [b2, a2]
    · rcases a3 with a3 | ⟨a3, a3', a3''⟩
      · rcases b3 with b3 | ⟨b3, b3', b3''⟩
        · left; rw [b3, a3]
        · right
          exact ⟨by rw [← a3]; exact b3, by rw [← a2]; exact b3', b3''⟩
      · right
        refine ⟨a3, a3', ?_⟩
        rcases b3 with b3 | ⟨b3, -, -⟩
        · rw [b3]; exact a3''
        · rw [a3''] at b3
          exact absurd b3 (by decide)
    · rintro ⟨j, hj, hjp, hjz⟩ hs hc
      -- state of slot i after the pass at k
      by_cases hjk : j = k
      · subst hjk
        have hmid := a4 hjp hjz hs hc
        rcases b3 with b3 | ⟨b3, -, -⟩
        · rw [b3]; exact hmid
        · rw [hmid] at b3
          exact absurd b3 (by decide)
      · obtain ⟨c1, -, c3, -⟩ := reparentAt_slot cur ip k pt j
        have hj2 : (slotAt (reparentAt cur ip k pt) j).parent = Ptr.slot cur := by
          rw [c1, if_neg (by intro h; exact hjk h.1)]
          exact hjp
        have hj3 : (slotAt (reparentAt cur ip k pt) j).state = procstate.ZOMBIE := by
          rcases c3 with c3 | ⟨c3, -, -⟩
          · rw [c3]; exact hjz
          · rw [hjz] at c3
            exact absurd c3 (by decide)
        rcases a3 with a3 | ⟨-, -, a3''⟩
        · exact b4 ⟨j, by simp only [List.length_cons] at hj; omega, hj2, hj3⟩
            (by rw [a3]; exact hs) (by rw [a2]; exact hc)
        · rcases b3 with b3 | ⟨b3, -, -⟩
          · rw [b3]; exact a3''
          · rw [a3''] at b3
            exact absurd b3 (by decide)

/-- The scan of `wait`: when slot `o` is a ZOMBIE child of `P`, `wait` reaps the
first ZOMBIE child of `P` in table order, which sits at or before `o`. -/
theorem wait_reaps_first (t : List proc) (P o : Nat)
    (hp : (slotAt t o).parent = Ptr.slot P) (hz : (slotAt t o).state = procstate.ZOMBIE) :
    ∃ j, j ≤ o ∧ j < t.length ∧ (slotAt t j).parent = Ptr.slot P ∧
      (slotAt t j).state = procstate.ZOMBIE ∧
      (∀ i, i < j → ¬ ((slotAt t i).parent = Ptr.slot P ∧
        (slotAt t i).state = procstate.ZOMBIE)) ∧
      wait t P = (store t j reclaim, WaitResult.ret (slotAt t j).pid) := by
  have ho : o < t.length := running_lt t o (by rw [hz]; decide)
  cases hf : t.findIdx? (fun p =>
      decide (p.parent = Ptr.slot P) && decide (p.state = procstate.ZOMBIE)) with
  | none =>
    rw [List.findIdx?_eq_none_iff] at hf
    have := hf (t[o]) (List.getElem_mem ho)
    simp only [slotAt, List.getD_eq_getElem?_getD, List.getElem?_eq_getElem ho,
      Option.getD_some] at hp hz
    simp [hp, hz] at this
  | some j =>
    have hf2 := hf
    rw [List.findIdx?_eq_some_iff_getElem] at hf2
    obtain ⟨hj, hpj, hlt⟩ := hf2
    have hsj : slotAt t j = t[j] := by
      simp [slotAt, List.getElem?_eq_getElem hj]
    simp only [Bool.and_eq_true, decide_eq_true_eq] at hpj
    refine ⟨j, ?_, hj, by rw [hsj]; exact hpj.1, by rw [hsj]; exact hpj.2, ?_, ?_⟩
    · by_contra hc
      have := hlt o (by omega)
      simp only [slotAt, List.getD_eq_getElem?_getD, List.getElem?_eq_getElem ho,
        Option.getD_some] at hp hz
      simp [hp, hz] at this
    · intro i hi hc
      have := hlt i hi
      have hi2 : i < t.length := Nat.lt_trans hi hj
      simp only [slotAt, List.getD_eq_getElem?_getD, List.getElem?_eq_getElem hi2,
        Option.getD_some] at hc
      simp [hc.1, hc.2] at this
    · unfold wait
      rw [hf]

/-- The table `exit` leaves, slot by slot. -/
theorem exit_slots (pt : List proc) (cur : Nat) (ip : Ptr) (hne : Ptr.slot cur ≠ ip)
    (hrun : (slotAt pt cur).state = procstate.RUNNING) :
    ∃ pt1, exit pt cur ip = some pt1 ∧ pt1.length = pt.length ∧
      (slotAt pt1 cur).state = procstate.ZOMBIE ∧
      (∀ i, (slotAt pt1 i).parent =
        if (slotAt pt i).parent = Ptr.slot cur then ip else (slotAt pt i).parent) ∧
      (∀ i, i ≠ cur → ((slotAt pt1 i).state = (slotAt pt i).state ∨
        ((slotAt pt i).state = procstate.SLEEPING ∧
          (slotAt pt1 i).state = procstate.RUNNABLE))) ∧
      (∀ i, (∃ j, (slotAt pt j).parent = Ptr.slot cur ∧
          (slotAt pt j).state = procstate.ZOMBIE) →
        (slotAt pt i).state = procstate.SLEEPING → (slotAt pt i).chan = ip →
        (slotAt pt1 i).state = procstate.RUNNABLE) := by
  have hcur : cur < pt.length := running_lt pt cur (by rw [hrun]; decide)
  -- the table after the files are closed
  obtain ⟨A, hA⟩ : ∃ A, A = store pt cur (fun p =>
      { p with ofile := p.ofile.map (fun _ => 0), cwd := 0 }) := ⟨_, rfl⟩
  have hAs : ∀ i, (slotAt A i).parent = (slotAt pt i).parent ∧
      (slotAt A i).chan = (slotAt pt i).chan ∧ (slotAt A i).state = (slotAt pt i).state := by
    intro i
    rw [hA, slotAt_store _ _ _ _ hcur]
    split_ifs <;> exact ⟨rfl, rfl, rfl⟩
  have hAl : A.length = pt.length := by rw [hA, store_length]
  -- the table after the parent is woken
  obtain ⟨B, hB⟩ : ∃ B, B = wakeup1 A (slotAt A cur).parent := ⟨_, rfl⟩
  have hBl : B.length = pt.length := by rw [hB]; simp [wakeup1, hAl]
  have hBs : ∀ i, (slotAt B i).parent = (slotAt pt i).parent ∧
      (slotAt B i).chan = (slotAt pt i).chan ∧
      ((slotAt B i).state = (slotAt pt i).state ∨
        ((slotAt pt i).state = procstate.SLEEPING ∧
          (slotAt B i).state = procstate.RUNNABLE)) := by
    intro i
    obtain ⟨a1, a2, a3⟩ := hAs i
    rw [hB, slotAt_wakeup1]
    split_ifs with h
    · exact ⟨a1, a2, Or.inr ⟨by rw [← a3]; exact h.1, rfl⟩⟩
    · exact ⟨a1, a2, Or.inl a3⟩
  -- the table after the reparenting loop
  obtain ⟨C, hC⟩ : ∃ C, C = reparent cur ip B 0 B := ⟨_, rfl⟩
  have hCl : C.length = pt.length := by
    have := congrArg List.length (reparent_sig cur ip B 0 B)
    rw [List.length_map, List.length_map] at this
    rw [hC, this, hBl]
  have hex : exit pt cur ip = some (store C cur (fun p => { p with state := procstate.ZOMBIE })) := by
    unfold exit
    rw [if_neg hne]
    simp only []
    rw [← hA, ← hB, ← hC]
  have hcurC : cur < C.length := by rw [hCl]; exact hcur
  refine ⟨_, hex, by rw [store_length, hCl], by rw [slotAt_store_self _ _ _ hcurC], ?_, ?_, ?_⟩
  · intro i
    obtain ⟨b1, -, -⟩ := hBs i
    obtain ⟨c1, -, -, -⟩ := reparent_slot cur ip B 0 B i
    have hpar : (slotAt (store C cur (fun p => { p with state := procstate.ZOMBIE })) i).parent =
        (slotAt C i).parent := by
      rw [slotAt_store _ _ _ _ hcurC]
      split_ifs <;> rfl
    rw [hpar, hC, c1, b1]
    by_cases hi : i < pt.length
    · have : (0 ≤ i ∧ i < 0 + B.length) := by rw [hBl]; omega
      simp only [this, true_and]
    · have hz : slotAt pt i = procZero := slotAt_outside pt i (Nat.le_of_not_lt hi)
      have : ¬ (slotAt pt i).parent = Ptr.slot cur := by rw [hz]; simp [procZero]
      simp only [this, and_false, if_false]
  · intro i hic
    obtain ⟨-, b2, b3⟩ := hBs i
    obtain ⟨-, -, c3, -⟩ := reparent_slot cur ip B 0 B i
    rw [slotAt_store_ne _ _ _ _ (Ne.symm hic), hC]
    rcases b3 with b3 | ⟨b3, b3'⟩
    · rcases c3 with c3 | ⟨c3, -, c3'⟩
      · left; rw [c3, b3]
      · right; exact ⟨by rw [← b3]; exact c3, c3'⟩
    · right
      refine ⟨b3, ?_⟩
      rcases c3 with c3 | ⟨c3, -, -⟩
      · rw [c3]; exact b3'
      · rw [b3'] at c3
        exact absurd c3 (by decide)
  · rintro i ⟨j, hjp, hjz⟩ hs hc
    have hic : i ≠ cur := by
      intro h
      rw [h, hrun] at hs
      exact absurd hs (by decide)
    obtain ⟨-, b2, b3⟩ := hBs i
    obtain ⟨bj1, -, bj3⟩ := hBs j
    obtain ⟨-, -, c3, c4⟩ := reparent_slot cur ip B 0 B i
    rw [slotAt_store_ne _ _ _ _ (Ne.symm hic), hC]
    have hjl : j < pt.length := running_lt pt j (by rw [hjz]; decide)
    have hjB : (slotAt B j).state = procstate.ZOMBIE := by
      rcases bj3 with h | ⟨h, -⟩
      · rw [h]; exact hjz
      · rw [hjz] at h
        exact absurd h (by decide)
    rcases b3 with b3 | ⟨-, b3'⟩
    · exact c4 ⟨j, by rw [hBl]; omega, by rw [bj1]; exact hjp, hjB⟩
        (by rw [b3]; exact hs) (by rw [b2]; exact hc)
    · rcases c3 with c3 | ⟨c3, -, -⟩
      · rw [c3]; exact b3'
      · rw [b3'] at c3
        exact absurd c3 (by decide)

/-! ## Steps on the signatures, the invariant along a run, retired pids -/

theorem wrap32_idem (x : Int) : wrap32 (wrap32 x) = wrap32 x := by
  unfold wrap32
  omega

theorem wrap32_succ (x : Int) (h0 : -2147483648 ≤ x + 1) (h1 : x < 2147483647) :
    wrap32 (x + 1) = x + 1 := by
  unfold wrap32
  omega

theorem wrap32_succ_ne (x : Int) : wrap32 (x + 1) ≠ x := by
  unfold wrap32
  omega

theorem allocCalls_cons (op : Op) (ops : List Op) :
    allocCalls (op :: ops) = allocCalls [op] + allocCalls ops ∧ allocCalls [op] ≤ 1 := by
  cases op <;> simp [allocCalls] <;> omega

/-- A step on the signatures keeps the tier part of the invariant. -/
theorem SigStep_tier (np np1 : Int) (l l1 : List SlotSig)
    (h : ∀ x ∈ l, x.free = false → x.whichqueue = 1 ∧ 1 ≤ x.numTickets)
    (hs : SigStep np l np1 l1) :
    ∀ x ∈ l1, x.free = false → x.whichqueue = 1 ∧ 1 ≤ x.numTickets := by
  rcases hs with ⟨-, e2⟩ | ⟨l₁, a, b, l₂, e1, e2, -, -, hw, ht, -⟩ |
    ⟨l₁, a, b, l₂, e1, e2, hb, -, -⟩
  · subst e2; exact h
  · subst e1; subst e2
    intro x hx hf
    simp only [List.mem_append, List.mem_cons] at hx
    rcases hx with hx | hx | hx
    · exact h x (by simp [hx]) hf
    · subst hx; exact ⟨hw, by omega⟩
    · exact h x (by simp [hx]) hf
  · subst e1; subst e2
    intro x hx hf
    simp only [List.mem_append, List.mem_cons] at hx
    rcases hx with hx | hx | hx
    · exact h x (by simp [hx]) hf
    · subst hx; rw [hb] at hf; exact absurd hf (by simp)
    · exact h x (by simp [hx]) hf

theorem allocproc_sigstep (pt : List proc) (np : Int) (kalloc : Nat)
    (hr : wrap32 np = np) :
    SigStep np (pt.map sig) (wrap32 (allocproc pt np kalloc).2.1)
      ((allocproc pt np kalloc).1.map sig) ∧
    (allocproc pt np kalloc).1.length = pt.length := by
  rcases allocproc_shape pt np kalloc with h0 | ⟨l₁, a, l₂, h1, ha, h2 | h2⟩
  · rw [h0]; exact ⟨Or.inl ⟨hr, rfl⟩, rfl⟩
  · rw [h2.2]
    subst h1
    refine ⟨?_, by simp⟩
    right; left
    exact ⟨l₁.map sig, sig a, _, l₂.map sig, by simp, by simp; rfl, by simp [sig, ha],
      rfl, rfl, rfl, rfl⟩
  · rw [h2.2]
    subst h1
    refine ⟨?_, by simp⟩
    right; left
    exact ⟨l₁.map sig, sig a, _, l₂.map sig, by simp, by simp; rfl, by simp [sig, ha],
      rfl, rfl, rfl, rfl⟩

theorem fork_sigstep (pt : List proc) (np : Int) (cur kalloc copyuvm : Nat)
    (hr : wrap32 np = np) :
    SigStep np (pt.map sig) (wrap32 (fork pt np cur kalloc copyuvm).2.1)
      ((fork pt np cur kalloc copyuvm).1.map sig) ∧
    (fork pt np cur kalloc copyuvm).1.length = pt.length := by
  rcases allocproc_shape pt np kalloc with h0 | ⟨l₁, a, l₂, h1, ha, h2 | h2⟩
  · unfold fork; rw [h0]; exact ⟨Or.inl ⟨hr, rfl⟩, rfl⟩
  · unfold fork; rw [h2.2]
    subst h1
    refine ⟨?_, by simp⟩
    right; left
    exact ⟨l₁.map sig, sig a, _, l₂.map sig, by simp, by simp; rfl, by simp [sig, ha],
      rfl, rfl, rfl, rfl⟩
  · unfold fork; rw [h2.2]
    subst h1
    simp only []
    by_cases hc : copyuvm = 0
    · rw [if_pos hc, store_append]
      refine ⟨?_, by simp⟩
      right; left
      exact ⟨l₁.map sig, sig a, _, l₂.map sig, by simp, by simp; rfl, by simp [sig, ha],
        rfl, rfl, rfl, rfl⟩
    · rw [if_neg hc, store_append]
      refine ⟨?_, by simp⟩
      right; left
      exact ⟨l₁.map sig, sig a, _, l₂.map sig, by simp, by simp; rfl, by simp [sig, ha],
        rfl, rfl, rfl, rfl⟩

theorem userinit_sigstep (pt : List proc) (np : Int) (kalloc : Nat) (e : BootEnv)
    (pt1 : List proc) (np1 : Int) (ip : Ptr)
    (hu : userinit pt np kalloc e = some (pt1, np1, ip)) :
    SigStep np (pt.map sig) (wrap32 np1) (pt1.map sig) ∧ pt1.length = pt.length := by
  unfold userinit at hu
  rcases allocproc_shape pt np kalloc with h0 | ⟨l₁, a, l₂, h1, ha, h2 | h2⟩
  · rw [h0] at hu; exact absurd hu (by simp)
  · rw [h2.2] at hu; exact absurd hu (by simp)
  · rw [h2.2] at hu
    simp only [] at hu
    by_cases hc : e.pgdir = 0
    · rw [if_pos hc] at hu; exact absurd hu (by simp)
    · rw [if_neg hc, store_append] at hu
      simp only [Option.some.injEq, Prod.mk.injEq] at hu
      obtain ⟨hu1, hu2, -⟩ := hu
      subst hu1; subst hu2; subst h1
      refine ⟨?_, by simp⟩
      right; left
      exact ⟨l₁.map sig, sig a, _, l₂.map sig, by simp, by simp; rfl, by simp [sig, ha],
        rfl, rfl, rfl, rfl⟩

theorem wait_sigstep (pt : List proc) (np : Int) (cur : Nat)
    (hr : (slotAt pt cur).state ≠ procstate.UNUSED) :
    SigStep np (pt.map sig) np ((wait pt cur).1.map sig) ∧
    (wait pt cur).1.length = pt.length := by
  unfold wait
  cases hf : pt.findIdx? (fun p =>
      decide (p.parent = Ptr.slot cur) && decide (p.state = procstate.ZOMBIE)) with
  | some i =>
    simp only []
    rw [List.findIdx?_eq_some_iff_getElem] at hf
    obtain ⟨hi, -, -⟩ := hf
    obtain ⟨l₁, a, l₂, h1, -, -, h4⟩ := store_split pt i hi
    rw [h4]
    subst h1
    refine ⟨?_, by simp⟩
    right; right
    exact ⟨l₁.map sig, sig a, _, l₂.map sig, by simp, by simp; rfl, by simp [sig, reclaim],
      rfl, rfl⟩
  | none =>
    simp only []
    split_ifs
    · exact ⟨Or.inl ⟨rfl, rfl⟩, rfl⟩
    · have hs := sleep_sig pt cur (Ptr.slot cur) hr
      exact ⟨Or.inl ⟨rfl, hs⟩, by simpa using congrArg List.length hs⟩

theorem same_sig (k : Kernel) (pt : List proc) (h : pt.map sig = k.ptable.map sig) :
    SigStep k.nextpid (k.ptable.map sig) k.nextpid (pt.map sig) ∧
    pt.length = k.ptable.length :=
  ⟨Or.inl ⟨rfl, h⟩, by simpa using congrArg List.length h⟩

/-- What one operation does to `nextpid`, to the signatures of the table and
to the lengths of the queue arrays, in a state that satisfies `TierInv`. -/
theorem step_sigstep (k k1 : Kernel) (op : Op) (h : TierInv k)
    (hs : step k op = some k1) :
    SigStep k.nextpid (k.ptable.map sig) k1.nextpid (k1.ptable.map sig) ∧
    (allocCalls [op] = 0 → k1.nextpid = k.nextpid) ∧
    k1.high.length = k1.ptable.length ∧ k1.low.length = k1.ptable.length := by
  obtain ⟨ht, hr, hh, hl⟩ := h
  cases op with
  | userinit kalloc e =>
    simp only [step] at hs
    split at hs
    · exact absurd hs (by simp)
    · rename_i pt np ip hu
      simp only [Option.some.injEq] at hs
      subst hs
      obtain ⟨h1, h2⟩ := userinit_sigstep _ _ _ _ _ _ _ hu
      exact ⟨h1, by simp [allocCalls], by simp only []; omega, by simp only []; omega⟩
  | allocproc kalloc =>
    simp only [step, Option.some.injEq] at hs
    subst hs
    obtain ⟨h1, h2⟩ := allocproc_sigstep k.ptable k.nextpid kalloc hr
    exact ⟨h1, by simp [allocCalls], by simp only []; omega, by simp only []; omega⟩
  | fork cur kalloc copyuvm =>
    simp only [step] at hs
    split_ifs at hs
    simp only [Option.some.injEq] at hs
    subst hs
    obtain ⟨h1, h2⟩ := fork_sigstep k.ptable k.nextpid cur kalloc copyuvm hr
    exact ⟨h1, by simp [allocCalls], by simp only []; omega, by simp only []; omega⟩
  | exit cur =>
    simp only [step] at hs
    split_ifs at hs with hr
    split at hs
    · exact absurd hs (by simp)
    · rename_i pt he
      simp only [Option.some.injEq] at hs
      subst hs
      obtain ⟨h1, h2⟩ := same_sig k pt (exit_sig _ _ _ _ (isRunning_live k cur hr) he)
      exact ⟨h1, fun _ => rfl, by simp only []; omega, by simp only []; omega⟩
  | wait cur =>
    simp only [step] at hs
    split_ifs at hs with hr
    simp only [Option.some.injEq] at hs
    subst hs
    obtain ⟨h1, h2⟩ := wait_sigstep k.ptable k.nextpid cur (isRunning_live k cur hr)
    exact ⟨h1, fun _ => rfl, by simp only []; omega, by simp only []; omega⟩
  | kill pid =>
    simp only [step, Option.some.injEq] at hs
    subst hs
    obtain ⟨h1, h2⟩ := same_sig k _ (kill_sig k.ptable pid)
    exact ⟨h1, fun _ => rfl, by simp only []; omega, by simp only []; omega⟩
  | settickets cur num =>
    simp only [step] at hs
    split_ifs at hs with hr
    simp only [Option.some.injEq] at hs
    subst hs
    have : (settickets k.ptable cur num).1 = k.ptable := by
      unfold settickets; split_ifs <;> rfl
    exact ⟨Or.inl ⟨rfl, by rw [this]⟩, fun _ => rfl, by simp only [this]; omega,
      by simp only [this]; omega⟩
  | yield cur =>
    simp only [step] at hs
    split_ifs at hs with hr
    simp only [Option.some.injEq] at hs
    subst hs
    obtain ⟨h1, h2⟩ := same_sig k _ (yield_sig _ _ (isRunning_live k cur hr))
    exact ⟨h1, fun _ => rfl, by simp only []; omega, by simp only []; omega⟩
  | sleep cur chan =>
    simp only [step] at hs
    split_ifs at hs with hr
    simp only [Option.some.injEq] at hs
    subst hs
    obtain ⟨h1, h2⟩ := same_sig k _ (sleep_sig _ _ chan (isRunning_live k cur hr))
    exact ⟨h1, fun _ => rfl, by simp only []; omega, by simp only []; omega⟩
  | sleepTidy cur =>
    simp only [step] at hs
    split_ifs at hs with hr
    simp only [Option.some.injEq] at hs
    subst hs
    obtain ⟨h1, h2⟩ := same_sig k _ (sleepTidy_sig k.ptable cur)
    exact ⟨h1, fun _ => rfl, by simp only []; omega, by simp only []; omega⟩
  | wakeup chan =>
    simp only [step, Option.some.injEq] at hs
    subst hs
    obtain ⟨h1, h2⟩ := same_sig k _ (wakeup1_sig k.ptable chan)
    exact ⟨h1, fun _ => rfl, by simp only [wakeup]; omega, by simp only [wakeup]; omega⟩
  | prologue =>
    simp only [step, Option.some.injEq] at hs
    subst hs
    exact ⟨Or.inl ⟨rfl, rfl⟩, fun _ => rfl,
      by simp [schedulerPrologue, prologueLoop_length, clearedQueue],
      by simp [schedulerPrologue, clearedQueue]⟩
  | dispatch =>
    simp only [step] at hs
    have hrun : ∀ x ∈ k.ptable, x.state = procstate.RUNNABLE →
        x.whichqueue = 1 ∧ 1 ≤ x.numTickets := by
      intro x hx hx2
      exact ht (sig x) (List.mem_map_of_mem sig hx) (by simp [sig, hx2])
    rcases schedulerPick_allHigh k.ptable k.high k.low k.rand hrun hh with
      h0 | ⟨q, a1, hq1, hq2, h0⟩
    · rw [h0] at hs
      simp only [Option.some.injEq] at hs
      subst hs
      exact ⟨Or.inl ⟨rfl, rfl⟩, fun _ => rfl, hh, hl⟩
    · rw [h0] at hs
      simp only [Option.some.injEq] at hs
      subst hs
      have hsig : (store k.ptable q runHigh).map sig = k.ptable.map sig := by
        apply store_sig
        exact sig_live_set_state _ procstate.RUNNING (by rw [hq2]; decide) (by decide)
          _ rfl rfl rfl rfl
      obtain ⟨h1, h2⟩ := same_sig k _ hsig
      exact ⟨h1, fun _ => rfl, by simp only [writeAll_length]; omega, by simp only []; omega⟩
  | resume q fromHigh =>
    simp only [step, Option.some.injEq] at hs
    subst hs
    obtain ⟨h1, h2⟩ := same_sig k _
      (schedulerReturn_sig k.ptable q k.ptable.length fromHigh (le_refl _))
    exact ⟨h1, fun _ => rfl, by simp only [clearedQueue, List.length_replicate]; omega,
      by simp only [clearedQueue, List.length_replicate]; omega⟩

theorem boot_tier (n : Nat) : TierInv (boot n) := by
  obtain ⟨h1, h2, h3⟩ := boot_inv n
  refine ⟨fun x hx hf => (h1.2.2.1 x hx hf).2, by simp only [boot]; decide, h2, h3⟩

theorem step_tier (k k1 : Kernel) (op : Op) (h : TierInv k) (hs : step k op = some k1) :
    TierInv k1 := by
  obtain ⟨s1, -, s3, s4⟩ := step_sigstep k k1 op h hs
  refine ⟨SigStep_tier _ _ _ _ h.1 s1, ?_, s3, s4⟩
  rcases s1 with ⟨e1, -⟩ | ⟨_, _, _, _, -, -, -, -, -, -, e3⟩ | ⟨_, _, _, _, -, -, -, -, e3⟩
  · rw [e1]; exact h.2.1
  · rw [e3]; exact wrap32_idem _
  · rw [e3]; exact h.2.1

/-- The tier part of the invariant holds along every run, however long. -/
theorem run_tier (ops : List Op) (k k1 : Kernel) (h : TierInv k)
    (hr : run k ops = some k1) : TierInv k1 := by
  induction ops generalizing k with
  | nil =>
    simp only [run, Option.some.injEq] at hr
    subst hr
    exact h
  | cons op ops ih =>
    simp only [run] at hr
    split at hr
    · exact absurd hr (by simp)
    · rename_i k2 hs
      exact ih k2 (step_tier k k2 op h hs) hr

theorem pidOrd_wrap32 (N : Int) (h1 : 1 ≤ N) (h2 : N ≤ 4294967296) :
    pidOrd (wrap32 N) = N := by
  unfold pidOrd wrap32
  split_ifs <;> omega

theorem wrap32_wrap_succ (N : Int) : wrap32 (wrap32 N + 1) = wrap32 (N + 1) := by
  unfold wrap32
  omega

theorem pidOrd_pos (p : Int) (hp : wrap32 p = p) (h : pidOrd p < 2147483648) : 1 ≤ p := by
  unfold wrap32 at hp
  unfold pidOrd at h
  split_ifs at h <;> omega

theorem mem_livePidsOf (l : List SlotSig) (v : Int) (h : v ∈ livePidsOf l) :
    ∃ x ∈ l, x.free = false ∧ x.pid = v := by
  unfold livePidsOf at h
  rw [List.mem_map] at h
  obtain ⟨x, hx, rfl⟩ := h
  rw [List.mem_filter] at hx
  exact ⟨x, hx.1, by simpa using hx.2, rfl⟩

theorem livePidsOf_mem (l : List SlotSig) (x : SlotSig) (hx : x ∈ l) (hf : x.free = false) :
    x.pid ∈ livePidsOf l := by
  unfold livePidsOf
  rw [List.mem_map]
  exact ⟨x, List.mem_filter.mpr ⟨hx, by simp [hf]⟩, rfl⟩

/-- Allocation into a free slot, the `N`-th since boot: the slot gets the pid
`wrap32 N`, which no live slot has. -/
theorem PidInv_alloc (N : Int) (l₁ l₂ : List SlotSig) (a b : SlotSig)
    (ha : a.free = true) (hp : b.pid = wrap32 N) (hN : N ≤ 4294967296)
    (h : PidInv N (l₁ ++ a :: l₂)) : PidInv (N + 1) (l₁ ++ b :: l₂) := by
  obtain ⟨h1, -, h3, h4⟩ := h
  have hord : pidOrd b.pid = N := by rw [hp]; exact pidOrd_wrap32 N h1 hN
  have hold : ∀ x, x ∈ l₁ ∨ x ∈ l₂ → x.free = false →
      wrap32 x.pid = x.pid ∧ pidOrd x.pid < N := by
    intro x hx hf
    refine h3 x ?_ hf
    simp only [List.mem_append, List.mem_cons]
    rcases hx with hx | hx
    · exact Or.inl hx
    · exact Or.inr (Or.inr hx)
  have hfresh : ∀ l : List SlotSig, (∀ x ∈ l, x ∈ l₁ ∨ x ∈ l₂) → b.pid ∉ livePidsOf l := by
    intro l hl hm
    obtain ⟨x, hx, hf, he⟩ := mem_livePidsOf l _ hm
    have := (hold x (hl x hx) hf).2
    rw [he, hord] at this
    omega
  refine ⟨by omega, by omega, ?_, ?_⟩
  · intro x hx hf
    simp only [List.mem_append, List.mem_cons] at hx
    rcases hx with hx | hx | hx
    · have := hold x (Or.inl hx) hf
      exact ⟨this.1, by omega⟩
    · subst hx
      exact ⟨by rw [hp]; exact wrap32_idem N, by omega⟩
    · have := hold x (Or.inr hx) hf
      exact ⟨this.1, by omega⟩
  · rw [livePidsOf_append, livePidsOf_cons_free a l₂ ha] at h4
    rw [livePidsOf_append]
    by_cases hb : b.free = true
    · rw [livePidsOf_cons_free b l₂ hb]
      exact h4
    · have hb2 : b.free = false := by simpa using hb
      rw [livePidsOf_cons_live b l₂ hb2]
      rw [List.nodup_append] at h4 ⊢
      obtain ⟨n1, n2, n3⟩ := h4
      refine ⟨n1, ?_, ?_⟩
      · rw [List.nodup_cons]
        exact ⟨hfresh l₂ (fun x hx => Or.inr hx), n2⟩
      · intro v hv1 hv2
        rw [List.mem_cons] at hv2
        rcases hv2 with hv2 | hv2
        · rw [hv2] at hv1
          exact hfresh l₁ (fun x hx => Or.inl hx) hv1
        · exact n3 hv1 hv2

/-- Release of a slot. -/
theorem PidInv_free (N : Int) (l₁ l₂ : List SlotSig) (a b : SlotSig)
    (hb : b.free = true) (h : PidInv N (l₁ ++ a :: l₂)) : PidInv N (l₁ ++ b :: l₂) := by
  obtain ⟨h1, h2, h3, h4⟩ := h
  refine ⟨h1, h2, ?_, ?_⟩
  · intro x hx hf
    simp only [List.mem_append, List.mem_cons] at hx
    rcases hx with hx | hx | hx
    · exact h3 x (by simp [hx]) hf
    · subst hx; rw [hb] at hf; exact absurd hf (by simp)
    · exact h3 x (by simp [hx]) hf
  · rw [livePidsOf_append, livePidsOf_cons_free b l₂ hb]
    rw [livePidsOf_append] at h4
    by_cases ha : a.free = true
    · rw [livePidsOf_cons_free a l₂ ha] at h4; exact h4
    · have ha2 : a.free = false := by simpa using ha
      rw [livePidsOf_cons_live a l₂ ha2] at h4
      rw [List.nodup_append] at h4 ⊢
      obtain ⟨n1, n2, n3⟩ := h4
      refine ⟨n1, (List.nodup_cons.mp n2).2, ?_⟩
      intro v hv1 hv2
      exact n3 hv1 (List.mem_cons_of_mem _ hv2)

/-- A step on the signatures keeps the pid invariant, and keeps a retired pid
retired, as long as fewer than 2^32 allocations have been made. -/
theorem SigStep_pid (N np np1 : Int) (l l1 : List SlotSig) (h : PidInv N l)
    (hnp : np = wrap32 N) (hb : N ≤ 4294967296 ∨ np1 = np) (hs : SigStep np l np1 l1) :
    ∃ N1, PidInv N1 l1 ∧ np1 = wrap32 N1 ∧ N ≤ N1 ∧
      (N1 = N ∨ (N1 = N + 1 ∧ np1 ≠ np)) ∧
      ∀ v, Retired v N l → Retired v N1 l1 := by
  rcases hs with ⟨e1, e2⟩ | ⟨l₁, a, b, l₂, e1, e2, ha, hp, -, -, e3⟩ |
    ⟨l₁, a, b, l₂, e1, e2, hb2, -, e3⟩
  · subst e1; subst e2
    exact ⟨N, h, hnp, le_refl _, Or.inl rfl, fun v hv => hv⟩
  · subst e1; subst e2
    have hne : np1 ≠ np := by rw [e3]; exact wrap32_succ_ne np
    rcases hb with hb | hb
    · refine ⟨N + 1, PidInv_alloc N _ _ a b ha (by rw [hp, hnp]) hb h,
        by rw [e3, hnp]; exact wrap32_wrap_succ N, by omega, Or.inr ⟨rfl, hne⟩, ?_⟩
      rintro v ⟨r1, r2, r3⟩
      refine ⟨r1, by omega, ?_⟩
      intro x hx hf
      simp only [List.mem_append, List.mem_cons] at hx
      rcases hx with hx | hx | hx
      · exact r3 x (by simp [hx]) hf
      · subst hx
        intro he
        have := pidOrd_wrap32 N h.1 hb
        rw [← hnp, ← hp, he] at this
        omega
      · exact r3 x (by simp [hx]) hf
    · exact absurd hb hne
  · subst e1; subst e2; subst e3
    refine ⟨N, PidInv_free N _ _ a b hb2 h, hnp, le_refl _, Or.inl rfl, ?_⟩
    rintro v ⟨r1, r2, r3⟩
    refine ⟨r1, r2, ?_⟩
    intro x hx hf
    simp only [List.mem_append, List.mem_cons] at hx
    rcases hx with hx | hx | hx
    · exact r3 x (by simp [hx]) hf
    · subst hx; rw [hb2] at hf; exact absurd hf (by simp)
    · exact r3 x (by simp [hx]) hf

/-- Once a live slot is released, its pid is retired. -/
theorem Retired_of_release (N : Int) (l₁ l₂ : List SlotSig) (a b : SlotSig)
    (ha : a.free = false) (hb : b.free = true) (h : PidInv N (l₁ ++ a :: l₂)) :
    Retired a.pid N (l₁ ++ b :: l₂) := by
  obtain ⟨-, -, h3, h4⟩ := h
  obtain ⟨a1, a2⟩ := h3 a (by simp) ha
  refine ⟨a1, a2, ?_⟩
  rw [livePidsOf_append, livePidsOf_cons_live a l₂ ha, List.nodup_append] at h4
  obtain ⟨-, n2, n3⟩ := h4
  intro x hx hf
  simp only [List.mem_append, List.mem_cons] at hx
  rcases hx with hx | hx | hx
  · intro he
    exact n3 (livePidsOf_mem l₁ x hx hf) (by rw [he]; exact List.mem_cons_self _ _)
  · subst hx; rw [hb] at hf; exact absurd hf (by simp)
  · intro he
    exact (List.nodup_cons.mp n2).1 (by rw [← he]; exact livePidsOf_mem l₂ x hx hf)

theorem boot_pid (n : Nat) :
    PidInv 1 ((boot n).ptable.map sig) ∧ (boot n).nextpid = wrap32 1 := by
  obtain ⟨⟨-, -, h3, h4⟩, -, -⟩ := boot_inv n
  refine ⟨⟨le_refl _, by omega, ?_, h4⟩, by simp only [boot]; decide⟩
  intro x hx hf
  have := (h3 x hx hf).1
  have hmem : x = sig procZero := by
    simp only [boot, emptyTable, List.map_replicate] at hx
    exact List.eq_of_mem_replicate hx
  rw [hmem] at hf
  exact absurd hf (by decide)

/-- The pid invariant along a run that calls `allocproc` at most 2^32 times in
all: the counter `N` grows by at most one per call, `nextpid` is its 32-bit
value, and a retired pid stays retired. -/
theorem run_pid (ops : List Op) (k k1 : Kernel) (N : Int) (ht : TierInv k)
    (h : PidInv N (k.ptable.map sig)) (hnp : k.nextpid = wrap32 N)
    (hb : N + allocCalls ops ≤ 4294967297) (hr : run k ops = some k1) :
    ∃ N1, PidInv N1 (k1.ptable.map sig) ∧ k1.nextpid = wrap32 N1 ∧ N ≤ N1 ∧
      N1 ≤ N + allocCalls ops ∧
      ∀ v, Retired v N (k.ptable.map sig) → Retired v N1 (k1.ptable.map sig) := by
  induction ops generalizing k N with
  | nil =>
    simp only [run, Option.some.injEq] at hr
    subst hr
    exact ⟨N, h, hnp, le_refl _, by simp [allocCalls], fun v hv => hv⟩
  | cons op ops ih =>
    simp only [run] at hr
    split at hr
    · exact absurd hr (by simp)
    · rename_i k2 hs
      obtain ⟨c1, c2⟩ := allocCalls_cons op ops
      rw [c1] at hb ⊢
      obtain ⟨s1, s2, -, -⟩ := step_sigstep k k2 op ht hs
      have hor : N ≤ 4294967296 ∨ k2.nextpid = k.nextpid := by
        by_cases h0 : allocCalls [op] = 0
        · exact Or.inr (s2 h0)
        · left; omega
      obtain ⟨N2, i1, i2, i3, i4, i5⟩ := SigStep_pid N _ _ _ _ h hnp hor s1
      have hN2 : N2 ≤ N + allocCalls [op] := by
        rcases i4 with i4 | ⟨i4, i4b⟩
        · omega
        · by_cases h0 : allocCalls [op] = 0
          · exact absurd (s2 h0) i4b
          · omega
      obtain ⟨N1, j1, j2, j3, j4, j5⟩ :=
        ih k2 N2 (step_tier k k2 op ht hs) i1 i2 (by omega) hr
      exact ⟨N1, j1, j2, by omega, by push_cast; omega, fun v hv => j5 v (i5 v hv)⟩

/-- The scan of `wait` never returns a retired pid. -/
theorem wait_ne_retired (v N : Int) (pt : List proc) (Q : Nat) (h1 : 1 ≤ v)
    (h : Retired v N (pt.map sig)) : (wait pt Q).2 ≠ WaitResult.ret v := by
  unfold wait
  cases hf : pt.findIdx? (fun p =>
      decide (p.parent = Ptr.slot Q) && decide (p.state = procstate.ZOMBIE)) with
  | some i =>
    simp only []
    rw [List.findIdx?_eq_some_iff_getElem] at hf
    obtain ⟨hi, hp, -⟩ := hf
    simp only [Bool.and_eq_true, decide_eq_true_eq] at hp
    have hs : slotAt pt i = pt[i] := by simp [slotAt, List.getElem?_eq_getElem hi]
    intro he
    injection he with he
    rw [hs] at he
    exact h.2.2 (sig pt[i]) (List.mem_map_of_mem sig (List.getElem_mem hi))
      (by simp [sig, hp.2]) he
  | none =>
    simp only []
    split_ifs
    · intro he
      injection he with he
      omega
    · intro he
      exact absurd he (by simp)

/-! ## The pid counter wraps -/

theorem run_append (k : Kernel) (a b : List Op) :
    run k (a ++ b) = (run k a).bind (fun k1 => run k1 b) := by
  induction a generalizing k with
  | nil => rfl
  | cons op ops ih =>
    simp only [List.cons_append, run]
    cases step k op with
    | none => rfl
    | some k1 => exact ih k1

theorem allocproc_append_failed (L rest : List proc) (a : proc) (np : Int)
    (hL : ∀ p ∈ L, p.state ≠ procstate.UNUSED) (ha : a.state = procstate.UNUSED) :
    allocproc (L ++ a :: rest) np 0 = (L ++ failedSlot np a :: rest, np + 1, none) := by
  have hn : L.findIdx? (fun p => decide (p.state = procstate.UNUSED)) = none := by
    rw [List.findIdx?_eq_none_iff]
    intro x hx
    simpa using hL x hx
  have hf : (L ++ a :: rest).findIdx? (fun p => decide (p.state = procstate.UNUSED)) =
      some L.length := by
    rw [List.findIdx?_append, hn, List.findIdx?_cons]
    simp [ha]
  unfold allocproc
  rw [hf]
  simp only [if_true]
  rw [store_append, store_append]
  rfl

theorem step_failed_alloc (k : Kernel) (L rest : List proc) (a : proc)
    (hk : k.ptable = L ++ a :: rest) (hL : ∀ p ∈ L, p.state ≠ procstate.UNUSED)
    (ha : a.state = procstate.UNUSED) :
    step k (Op.allocproc 0) =
      some { k with ptable := L ++ failedSlot k.nextpid a :: rest,
                    nextpid := wrap32 (k.nextpid + 1) } := by
  simp only [step, hk, allocproc_append_failed L rest a _ hL ha]

theorem run_cons (k k1 : Kernel) (op : Op) (ops : List Op) (h : step k op = some k1) :
    run k (op :: ops) = run k1 ops := by
  simp only [run, h]

/-- Calls of `allocproc` whose `kalloc` fails only advance `nextpid` (as a
32-bit `int`) and leave the pid they used in the first FREE slot. -/
theorem run_failed_allocs (m : Nat) (k : Kernel) (L rest : List proc) (a : proc)
    (hk : k.ptable = L ++ a :: rest) (hL : ∀ p ∈ L, p.state ≠ procstate.UNUSED)
    (ha : a.state = procstate.UNUSED) (hr : wrap32 k.nextpid = k.nextpid) :
    run k (List.replicate (m + 1) (Op.allocproc 0)) =
      some { k with ptable := L ++ failedSlot (wrap32 (k.nextpid + m)) a :: rest,
                    nextpid := wrap32 (k.nextpid + m + 1) } := by
  induction m generalizing k a with
  | zero =>
    rw [List.replicate_succ, run_cons k _ _ _ (step_failed_alloc k L rest a hk hL ha)]
    simp [run, hr]
  | succ m ih =>
    rw [List.replicate_succ, run_cons k _ _ _ (step_failed_alloc k L rest a hk hL ha)]
    rw [ih _ (failedSlot k.nextpid a) rfl rfl (wrap32_idem _)]
    have e1 : wrap32 (wrap32 (k.nextpid + 1) + (m : Int)) =
        wrap32 (k.nextpid + ((m + 1 : Nat) : Int)) := by
      unfold wrap32; push_cast; omega
    have e2 : wrap32 (wrap32 (k.nextpid + 1) + (m : Int) + 1) =
        wrap32 (k.nextpid + ((m + 1 : Nat) : Int) + 1) := by
      unfold wrap32; push_cast; omega
    simp only [e1, e2]
    rfl

theorem run_pidWrapOps (m : Nat) :
    run (boot 2) (pidWrapOps (m + 1)) =
      run { initOnly with
            ptable := initOnly.ptable.take 1 ++
              failedSlot (wrap32 (initOnly.nextpid + m)) procZero :: [],
            nextpid := wrap32 (initOnly.nextpid + m + 1) } [Op.allocproc 8] := by
  unfold pidWrapOps
  rw [run_cons (boot 2) initOnly _ _ (by decide), run_append,
    run_failed_allocs m initOnly (initOnly.ptable.take 1) [] procZero (by decide)
      (by decide) rfl (by decide)]
  rfl

theorem allocCalls_append (a b : List Op) :
    allocCalls (a ++ b) = allocCalls a + allocCalls b := by
  induction a with
  | nil => simp [allocCalls]
  | cons op ops ih =>
    rw [List.cons_append, (allocCalls_cons op (ops ++ b)).1, (allocCalls_cons op ops).1, ih]
    omega

theorem allocCalls_replicate (m : Nat) (kalloc : Nat) :
    allocCalls (List.replicate m (Op.allocproc kalloc)) = m := by
  induction m with
  | zero => rfl
  | succ m ih =>
    rw [List.replicate_succ, (allocCalls_cons _ _).1, ih]
    simp [allocCalls]
    omega

/-! ## What kill and the other operations keep -/

/-- Every operation but `wait` by the parent keeps a ZOMBIE: for every state
and every operation, a slot that is ZOMBIE before is ZOMBIE with the same
pid after, unless the operation is `wait` by the process that is the slot's
parent, which sets it to FREE.  For the first half of a scheduler round the
queue arrays must hold no stale entry, or the state satisfy `KernelInv`
(then every live slot is in HIGH and the refill loop leaves no hole). -/
theorem step_zombie_kept (k k1 : Kernel) (op : Op) (z : Nat)
    (hs : step k op = some k1)
    (hz : (slotAt k.ptable z).state = procstate.ZOMBIE)
    (hq : op = Op.dispatch →
      (EntriesRunnable k.ptable k.high ∧ EntriesRunnable k.ptable k.low) ∨ KernelInv k) :
    ((slotAt k1.ptable z).state = procstate.ZOMBIE ∧
      (slotAt k1.ptable z).pid = (slotAt k.ptable z).pid) ∨
    (∃ cur, op = Op.wait cur ∧ (slotAt k.ptable cur).state = procstate.RUNNING ∧
      (slotAt k.ptable z).parent = Ptr.slot cur ∧
      (slotAt k1.ptable z).state = procstate.UNUSED) := by
  cases op with
  | userinit kalloc e =>
    simp only [step] at hs
    split at hs
    · exact absurd hs (by simp)
    · rename_i pt np ip hu
      simp only [Option.some.injEq] at hs
      subst hs
      exact Or.inl (userinit_zk _ _ _ _ _ _ _ hu z hz)
  | allocproc kalloc =>
    simp only [step, Option.some.injEq] at hs
    subst hs
    exact Or.inl (allocproc_zk k.ptable k.nextpid kalloc z hz)
  | fork cur kalloc copyuvm =>
    simp only [step] at hs
    split_ifs at hs
    simp only [Option.some.injEq] at hs
    subst hs
    exact Or.inl (fork_zk k.ptable k.nextpid cur kalloc copyuvm z hz)
  | exit cur =>
    simp only [step] at hs
    split_ifs at hs with hr
    split at hs
    · exact absurd hs (by simp)
    · rename_i pt he
      simp only [Option.some.injEq] at hs
      subst hs
      exact Or.inl (exit_zk _ _ _ _ he z hz)
  | wait cur =>
    simp only [step] at hs
    split_ifs at hs with hr
    simp only [Option.some.injEq] at hs
    subst hs
    simp only []
    have hrun : (slotAt k.ptable cur).state = procstate.RUNNING := by
      simpa [isRunning] using hr
    unfold wait
    cases hf : k.ptable.findIdx? (fun p =>
        decide (p.parent = Ptr.slot cur) && decide (p.state = procstate.ZOMBIE)) with
    | some i =>
      simp only []
      rw [List.findIdx?_eq_some_iff_getElem] at hf
      obtain ⟨hi, hp, -⟩ := hf
      by_cases hiz : i = z
      · subst hiz
        right
        refine ⟨cur, rfl, hrun, ?_, ?_⟩
        · simp only [Bool.and_eq_true, decide_eq_true_eq] at hp
          simpa [slotAt, List.getElem?_eq_getElem hi] using hp.1
        · rw [slotAt_store_self _ _ _ hi]
          rfl
      · left
        rw [slotAt_store_ne _ _ _ _ hiz]
        exact ⟨hz, rfl⟩
    | none =>
      simp only []
      left
      split_ifs
      · exact ⟨hz, rfl⟩
      · exact store_zk_other _ _ _ (running_not_zombie k cur hr) z hz
  | kill pid =>
    simp only [step, Option.some.injEq] at hs
    subst hs
    exact Or.inl (kill_zk k.ptable pid z hz)
  | settickets cur num =>
    simp only [step] at hs
    split_ifs at hs with hr
    simp only [Option.some.injEq] at hs
    subst hs
    have : (settickets k.ptable cur num).1 = k.ptable := by
      unfold settickets; split_ifs <;> rfl
    rw [this]
    exact Or.inl ⟨hz, rfl⟩
  | yield cur =>
    simp only [step] at hs
    split_ifs at hs with hr
    simp only [Option.some.injEq] at hs
    subst hs
    exact Or.inl (store_zk_other _ _ _ (running_not_zombie k cur hr) z hz)
  | sleep cur chan =>
    simp only [step] at hs
    split_ifs at hs with hr
    simp only [Option.some.injEq] at hs
    subst hs
    exact Or.inl (store_zk_other _ _ _ (running_not_zombie k cur hr) z hz)
  | sleepTidy cur =>
    simp only [step] at hs
    split_ifs at hs with hr
    simp only [Option.some.injEq] at hs
    subst hs
    exact Or.inl (store_zk _ _ _ (fun h => ⟨h, rfl⟩) z hz)
  | wakeup chan =>
    simp only [step, Option.some.injEq] at hs
    subst hs
    exact Or.inl (wakeup1_zk k.ptable chan z hz)
  | prologue =>
    simp only [step, Option.some.injEq] at hs
    subst hs
    exact Or.inl ⟨hz, rfl⟩
  | dispatch =>
    simp only [step] at hs
    split at hs
    · simp only [Option.some.injEq] at hs
      subst hs
      exact Or.inl ⟨hz, rfl⟩
    · exact absurd hs (by simp)
    · rename_i d hd
      simp only [Option.some.injEq] at hs
      subst hs
      exact Or.inl (dispatch_zk k d (hq rfl) hd z hz)
  | resume q fromHigh =>
    simp only [step, Option.some.injEq] at hs
    subst hs
    exact Or.inl (schedulerReturn_zk k.ptable q k.ptable.length fromHigh z hz)

/-- When the pids of the live processes are distinct and no FREE slot carries
the pid of the live process in slot `q`, `kill` of that pid returns 0, sets
`killed` in slot `q`, makes it RUNNABLE if it was SLEEPING and keeps its
state otherwise, and leaves every other slot as it was. -/
theorem kill_live_slot (pt : List proc) (q : Nat) (hq : q < pt.length)
    (hlive : (slotAt pt q).state ≠ procstate.UNUSED)
    (hdistinct : (livePids pt).Nodup)
    (hfree : ∀ p ∈ pt, p.state = procstate.UNUSED → p.pid ≠ (slotAt pt q).pid) :
    (kill pt (slotAt pt q).pid).2 = 0 ∧
    (kill pt (slotAt pt q).pid).1.length = pt.length ∧
    slotAt (kill pt (slotAt pt q).pid).1 q =
      { slotAt pt q with
        killed := 1,
        state := if (slotAt pt q).state = procstate.SLEEPING then procstate.RUNNABLE
                 else (slotAt pt q).state } ∧
    ∀ i, i ≠ q → slotAt (kill pt (slotAt pt q).pid).1 i = slotAt pt i := by
  have hfirst : ∀ j, j < q → (slotAt pt j).pid ≠ (slotAt pt q).pid := by
    intro j hj
    have hj2 : j < pt.length := Nat.lt_trans hj hq
    by_cases hs : (slotAt pt j).state = procstate.UNUSED
    · refine hfree (slotAt pt j) ?_ hs
      simp [slotAt, List.getElem?_eq_getElem hj2]
    · exact livePids_nodup_lt pt hdistinct j q hj hq hs hlive
  rw [kill_first pt q hq hfirst]
  refine ⟨rfl, store_length _ _ _, ?_, ?_⟩
  · rw [slotAt_store_self _ _ _ hq]
    rfl
  · intro i hi
    exact slotAt_store_ne _ _ _ _ (Ne.symm hi)

/-! ## The claims -/

/-- C1 (lottery proportionality): the walk is not proportional to the
ticket weights.  With two RUNNABLE HIGH processes of weights 1 and 3 the
ticket sum is 4; in slot order (1, 3) each entry is selected for 2 of the 4
draw values, and in slot order (3, 1) the first entry is selected for all 4
and the 1-weighted entry for none. -/
theorem C1_lottery_not_proportional :
    (snapshot tickets13 (clearedQueue 2) (clearedQueue 2)).high = [some 0, some 1] ∧
    (snapshot tickets13 (clearedQueue 2) (clearedQueue 2)).hightickets = 4 ∧
    drawsSelecting tickets13 [some 0, some 1] 4 0 = 2 ∧
    drawsSelecting tickets13 [some 0, some 1] 4 1 = 2 ∧
    (snapshot tickets31 (clearedQueue 2) (clearedQueue 2)).high = [some 0, some 1] ∧
    (snapshot tickets31 (clearedQueue 2) (clearedQueue 2)).hightickets = 4 ∧
    drawsSelecting tickets31 [some 0, some 1] 4 0 = 4 ∧
    drawsSelecting tickets31 [some 0, some 1] 4 1 = 0 := by
  decide

/-- C2 (dispatch from a well-formed snapshot): with slot 0 RUNNABLE in LOW
and slot 1 RUNNABLE in HIGH the two queues share the write index, so the
HIGH queue is `[NULL, slot 1]`; the HIGH tier is chosen and the walk reads
`high[0]->numTickets` through NULL, for every state of the generator. -/
theorem C2_mixed_tiers_fault (a : Int) :
    (snapshot mixedTiers (clearedQueue 2) (clearedQueue 2)).high = [none, some 1] ∧
    (snapshot mixedTiers (clearedQueue 2) (clearedQueue 2)).low = [some 0, none] ∧
    schedulerPick mixedTiers (clearedQueue 2) (clearedQueue 2) a = Pick.fault := by
  have hs : snapshot mixedTiers (clearedQueue 2) (clearedQueue 2) =
      { i := 2, p := 2, high := [none, some 1], low := [some 0, none],
        hightickets := 1, lowtickets := 1, emptyHigh := 1, emptyLow := 1 } := by
    decide
  refine ⟨by rw [hs], by rw [hs], ?_⟩
  unfold schedulerPick
  rw [hs]
  simp [rand1, pickHigh, lotteryWalk, ticketsAt]

/-- C3 (tier feedback): in every round that dispatches a process, whatever
table `back` the process leaves when control returns (also with the
process RUNNABLE after a yield), the second half of the round changes the
tier (`whichqueue`) of no slot: the demotion is stored through the loop
pointer `p`, which is one past the table, not through `proc`. -/
theorem C3_no_demotion (pt : List proc) (high low : List (Option Nat)) (a : Int)
    (d : Dispatch) (back : List proc)
    (hd : schedulerPick pt high low a = Pick.run d)
    (hlen : back.length = pt.length) :
    (schedulerReturn back d.proc d.p d.fromHigh).map (fun x => x.whichqueue) =
      back.map (fun x => x.whichqueue) := by
  rw [schedulerPick_p pt high low a d hd, ← hlen]
  unfold schedulerReturn
  simp only []
  split
  · rw [store_outside _ _ _ (by simp [store_length])]
    exact map_store_eq _ _ _ _ rfl
  · exact map_store_eq _ _ _ _ rfl

/-- C3, at the one-process table: the process is dispatched from HIGH,
yields (RUNNABLE on return) and is still in HIGH (`whichqueue = 1`) when
the round ends. -/
theorem C3_no_demotion_witness :
    schedulerPick oneHigh (clearedQueue 1) (clearedQueue 1) 100001 =
      Pick.run oneHighDispatched ∧
    (slotAt (yield oneHighDispatched.ptable 0) 0).state = procstate.RUNNABLE ∧
    (schedulerReturn (yield oneHighDispatched.ptable 0) oneHighDispatched.proc
      oneHighDispatched.p oneHighDispatched.fromHigh).map (fun x => x.whichqueue) = [1] :=
  ⟨by decide, by decide,
    (C3_no_demotion oneHigh (clearedQueue 1) (clearedQueue 1) 100001 oneHighDispatched
      (yield oneHighDispatched.ptable 0) (by decide) (by decide)).trans (by decide)⟩

/-- C4 (ticket round trip): `settickets(3)` by a process of weight 1 returns
0 and leaves the table as it was: the weight is still 1, and the snapshot
of the next round in which the caller is RUNNABLE counts 1 ticket for it. -/
theorem C4_settickets_keeps_weight :
    settickets oneRunning 0 3 = (oneRunning, 0) ∧
    (slotAt (settickets oneRunning 0 3).1 0).numTickets = 1 ∧
    (snapshot (yield (settickets oneRunning 0 3).1 0) (clearedQueue 1)
      (clearedQueue 1)).hightickets = 1 := by
  decide

/-- C5 (invalid ticket request): `settickets(n)` returns -1 exactly when
`n < 1`, and then returns the process table unchanged. -/
theorem C5_settickets_invalid (pt : List proc) (cur : Nat) (n : Int) :
    ((settickets pt cur n).2 = -1 ↔ n < 1) ∧
    (n < 1 → settickets pt cur n = (pt, -1)) := by
  unfold settickets
  by_cases h : n < 1 <;> simp [h]

/-- C5 at `n = 0`. -/
theorem C5_settickets_invalid_witness :
    settickets oneRunning 0 0 = (oneRunning, -1) :=
  (C5_settickets_invalid oneRunning 0 0).2 (by decide)

/-- C6 (kill on an unknown pid): `kill` matches FREE slots.  On the boot
table `kill(0)` returns 0 and sets `killed` in slot 0; after an `allocproc`
whose stack allocation failed, slot 0 is FREE with pid 1 and `kill(1)`
returns 0 and sets its `killed`; the process allocated into that slot
afterwards starts with `killed = 1`. -/
theorem C6_kill_hits_free_slot :
    (kill (emptyTable 2) 0).2 = 0 ∧
    (slotAt (kill (emptyTable 2) 0).1 0).killed = 1 ∧
    (allocproc (emptyTable 2) 1 0).2.2 = none ∧
    (slotAt (allocproc (emptyTable 2) 1 0).1 0).state = procstate.UNUSED ∧
    (slotAt (allocproc (emptyTable 2) 1 0).1 0).pid = 1 ∧
    (kill (allocproc (emptyTable 2) 1 0).1 1).2 = 0 ∧
    (slotAt (kill (allocproc (emptyTable 2) 1 0).1 1).1 0).killed = 1 ∧
    (slotAt (allocproc (kill (emptyTable 2) 0).1 1 7).1 0).state = procstate.EMBRYO ∧
    (slotAt (allocproc (kill (emptyTable 2) 0).1 1 7).1 0).killed = 1 := by
  decide

/-- C7 (kill of a live process) fails at `stalePidTable`: the live pids are
distinct and slot 1 is a SLEEPING process with pid 5, but `kill(5)` stops at
the FREE slot 0, which still carries pid 5 (`kill` compares `pid` only, not
`state`): it returns 0, slot 1 is neither marked nor woken, and the FREE
slot 0 gets `killed = 1`. -/
theorem C7_kill_misses_live_process :
    (livePids stalePidTable).Nodup ∧
    (slotAt stalePidTable 1).state = procstate.SLEEPING ∧
    (slotAt stalePidTable 1).pid = 5 ∧
    (kill stalePidTable 5).2 = 0 ∧
    (slotAt (kill stalePidTable 5).1 1).killed = 0 ∧
    (slotAt (kill stalePidTable 5).1 1).state = procstate.SLEEPING ∧
    (slotAt (kill stalePidTable 5).1 0).killed = 1 ∧
    (slotAt (kill stalePidTable 5).1 0) ≠ slotAt stalePidTable 0 := by
  decide

/-- C8 as stated fails once the 32-bit counter `nextpid` has overflowed.  From
boot with two slots, after `userinit` (pid 1) and 2147483646 calls of
`allocproc` whose `kalloc` fails, `nextpid` is -2147483648 and the next
allocation, the 2^31-th call, gives a live slot that pid: the live pids are
1 and -2147483648, not all positive.  After 4294967295 such calls `nextpid`
is 1 again and the next allocation hands out pid 1 while the first process
still has it: the live pids are 1 and 1. -/
theorem C8_pid_counter_wraps :
    allocCalls (pidWrapOps 2147483646) = 2147483648 ∧
    (run (boot 2) (pidWrapOps 2147483646)).map (fun k => livePids k.ptable) =
      some [1, -2147483648] ∧
    allocCalls (pidWrapOps 4294967295) = 4294967297 ∧
    (run (boot 2) (pidWrapOps 4294967295)).map (fun k => livePids k.ptable) =
      some [1, 1] := by
  have hc : ∀ m, allocCalls (pidWrapOps m) = m + 2 := by
    intro m
    unfold pidWrapOps
    rw [(allocCalls_cons _ _).1, allocCalls_append, allocCalls_replicate]
    simp [allocCalls]
    omega
  refine ⟨hc _, ?_, hc _, ?_⟩
  · rw [show pidWrapOps 2147483646 = pidWrapOps (2147483645 + 1) from rfl,
      run_pidWrapOps 2147483645]
    decide
  · rw [show pidWrapOps 4294967295 = pidWrapOps (4294967294 + 1) from rfl,
      run_pidWrapOps 4294967294]
    decide

/-- C8 (pid uniqueness), amended: after every sequence of operations from boot
(allocation through `allocproc`, `fork` and `userinit`, reclamation through
`wait`, and every other operation of the core) that the kernel survives and
that calls `allocproc` at most 2147483647 times (2^31 - 1: no pid beyond the
largest `int` has been handed out), the pids of the non-FREE slots are
pairwise distinct and positive, and the pid an allocation hands out differs
from the pid of every non-FREE slot. -/
theorem C8_pid_unique (n : Nat) (ops : List Op) (k : Kernel)
    (h : run (boot n) ops = some k) (hb : allocCalls ops ≤ 2147483647) :
    (livePids k.ptable).Nodup ∧
    (∀ p ∈ k.ptable, p.state ≠ procstate.UNUSED → 1 ≤ p.pid) ∧
    (∀ kalloc i, (allocproc k.ptable k.nextpid kalloc).2.2 = some i →
      ∀ p ∈ k.ptable, p.state ≠ procstate.UNUSED →
        p.pid ≠ (slotAt (allocproc k.ptable k.nextpid kalloc).1 i).pid) := by
  obtain ⟨N, ⟨n1, n2, n3, n4⟩, hnp, -, hN, -⟩ :=
    run_pid ops (boot n) k 1 (boot_tier n) (boot_pid n).1 (boot_pid n).2 (by omega) h
  refine ⟨?_, ?_, ?_⟩
  · rw [livePids_eq_sig]
    exact n4
  · intro p hp hl
    obtain ⟨a1, a2⟩ := n3 (sig p) (List.mem_map_of_mem sig hp) (by simp [sig, hl])
    exact pidOrd_pos p.pid a1 (by simp only [sig] at a2; omega)
  · intro kalloc i hi p hp hl he
    rw [allocproc_pid _ _ _ _ hi, hnp] at he
    obtain ⟨-, a2⟩ := n3 (sig p) (List.mem_map_of_mem sig hp) (by simp [sig, hl])
    simp only [sig] at a2
    rw [he, pidOrd_wrap32 N n1 (by omega)] at a2
    omega

/-- C8 on the four-slot scenario (five allocations): after a reclaim and a new
fork the live pids are 1, 2, 5, 4. -/
theorem C8_pid_unique_witness :
    run (boot 4) reuseOps = some (kernelAfter reuseOps) ∧
    allocCalls reuseOps = 5 ∧
    livePids (kernelAfter reuseOps).ptable = [1, 2, 5, 4] ∧
    (livePids (kernelAfter reuseOps).ptable).Nodup :=
  ⟨by decide, by decide, by decide,
    (C8_pid_unique 4 reuseOps (kernelAfter reuseOps) (by decide) (by decide)).1⟩

/-- C10 (wait without children): when no slot has the caller as its
parent, the first pass of `wait` returns -1 (it does not reach `sleep`)
and the process table is unchanged. -/
theorem C10_wait_no_children (pt : List proc) (cur : Nat)
    (h : ∀ p ∈ pt, p.parent ≠ Ptr.slot cur) :
    wait pt cur = (pt, WaitResult.ret (-1)) := by
  have h1 : pt.findIdx? (fun p =>
      decide (p.parent = Ptr.slot cur) && decide (p.state = procstate.ZOMBIE)) = none := by
    rw [List.findIdx?_eq_none_iff]
    intro x hx
    simp [h x hx]
  have h2 : pt.any (fun p => decide (p.parent = Ptr.slot cur)) = false := by
    rw [List.any_eq_false]
    intro x hx
    simpa using h x hx
  unfold wait
  rw [h1]
  simp [h2]

/-- C10 at `sleeperTable`, caller in slot 2. -/
theorem C10_wait_no_children_witness :
    wait sleeperTable 2 = (sleeperTable, WaitResult.ret (-1)) :=
  C10_wait_no_children sleeperTable 2 (by decide)

/-- C11, the last part as stated, fails once `nextpid` has gone round.  From
boot with two slots the first process (slot 0, RUNNING) has one ZOMBIE
child, in slot 1 with pid 2, and its `wait` returns 2 and frees the slot.
After 4294967295 calls of `allocproc` whose `kalloc` fails `nextpid` is 2
again; the first process forks, the child (slot 1) gets pid 2, is dispatched
and exits, and `wait` by the first process returns 2 a second time
(2^32 + 2 calls of `allocproc` since boot). -/
theorem C11_pid_returned_again :
    run (boot 2) reapOps = some reapKernel ∧
    allocCalls reapOps + allocCalls (reissueOps 4294967295) = 4294967298 ∧
    (slotAt reapKernel.ptable 0).state = procstate.RUNNING ∧
    reapKernel.ptable.map (fun p =>
      decide (p.parent = Ptr.slot 0 ∧ p.state = procstate.ZOMBIE)) = [false, true] ∧
    (slotAt reapKernel.ptable 1).pid = 2 ∧
    wait reapKernel.ptable 0 = (store reapKernel.ptable 1 reclaim, WaitResult.ret 2) ∧
    (run { reapKernel with ptable := store reapKernel.ptable 1 reclaim }
        (reissueOps 4294967295)).map
      (fun k => ((slotAt k.ptable 0).state, (slotAt k.ptable 1).parent,
        (slotAt k.ptable 1).state, (wait k.ptable 0).2)) =
      some (procstate.RUNNING, Ptr.slot 0, procstate.ZOMBIE, WaitResult.ret 2) := by
  have hm : ∀ m, allocCalls (reissueOps m) = m + 1 := by
    intro m
    unfold reissueOps
    rw [allocCalls_append, allocCalls_replicate]
    rfl
  have hc : allocCalls reapOps + allocCalls (reissueOps 4294967295) = 4294967298 := by
    rw [hm]
    rfl
  refine ⟨by decide, hc, by decide, by decide, by decide, by decide, ?_⟩
  unfold reissueOps
  rw [run_append, show (4294967295 : Nat) = 4294967294 + 1 from rfl,
    run_failed_allocs 4294967294 _ (reapKernel.ptable.take 1) []
      (slotAt (store reapKernel.ptable 1 reclaim) 1) (by decide) (by decide) (by decide)
      (by decide)]
  decide

/-- C11 (an exited child is reaped exactly once), amended: in every state
reached from boot, if the RUNNING process `P` has exactly one ZOMBIE child,
in slot `c`, then `wait` by `P` returns the pid of `c` and leaves slot `c`
FREE with pid 0, no parent, an empty name, the kill flag clear and no kernel
stack, every other slot as it was; and after any further operations of the
core the kernel survives, no `wait` (by `P` or by any other slot) returns
that pid, as long as `nextpid` has not come round: `allocproc` was called at
most 2^31 - 1 times before that `wait` (the pids are positive) and is called
at most 2^32 times since boot in all. -/
theorem C11_reaped_once (n : Nat) (ops : List Op) (k : Kernel) (P c : Nat)
    (hk : run (boot n) ops = some k)
    (hP : (slotAt k.ptable P).state = procstate.RUNNING)
    (hc : (slotAt k.ptable c).parent = Ptr.slot P)
    (hz : (slotAt k.ptable c).state = procstate.ZOMBIE)
    (honly : ∀ i, (slotAt k.ptable i).parent = Ptr.slot P →
      (slotAt k.ptable i).state = procstate.ZOMBIE → i = c) :
    wait k.ptable P = (store k.ptable c reclaim, WaitResult.ret (slotAt k.ptable c).pid) ∧
    step k (Op.wait P) = some { k with ptable := store k.ptable c reclaim } ∧
    slotAt (store k.ptable c reclaim) c =
      { slotAt k.ptable c with kstack := 0, state := procstate.UNUSED, pid := 0,
                               parent := Ptr.null, name := [], killed := 0 } ∧
    (∀ i, i ≠ c → slotAt (store k.ptable c reclaim) i = slotAt k.ptable i) ∧
    ∀ (ops2 : List Op) (k2 : Kernel) (Q : Nat),
      allocCalls ops ≤ 2147483647 →
      allocCalls ops + allocCalls ops2 ≤ 4294967296 →
      run { k with ptable := store k.ptable c reclaim } ops2 = some k2 →
      (wait k2.ptable Q).2 ≠ WaitResult.ret (slotAt k.ptable c).pid := by
  obtain ⟨j, hjc, -, hjp, hjz, -, hw⟩ := wait_reaps_first k.ptable P c hc hz
  have hj : j = c := honly j hjp hjz
  subst hj
  have hcl : j < k.ptable.length := running_lt k.ptable j (by rw [hz]; decide)
  have hstep : step k (Op.wait P) = some { k with ptable := store k.ptable j reclaim } := by
    simp only [step, isRunning, hP, decide_True, if_true, hw]
  refine ⟨hw, hstep, slotAt_store_self _ _ _ hcl, ?_, ?_⟩
  · intro i hi
    exact slotAt_store_ne _ _ _ _ (Ne.symm hi)
  · intro ops2 k2 Q hb1 hb2 hr
    have htier : TierInv k := run_tier ops (boot n) k (boot_tier n) hk
    obtain ⟨N, hpid, hnp, -, hN, -⟩ :=
      run_pid ops (boot n) k 1 (boot_tier n) (boot_pid n).1 (boot_pid n).2 (by omega) hk
    have htier1 : TierInv { k with ptable := store k.ptable j reclaim } :=
      step_tier k _ (Op.wait P) htier hstep
    obtain ⟨l₁, a, l₂, e1, -, e3, e4⟩ := store_split k.ptable j hcl
    have hlive : (sig a).free = false := by
      rw [← e3]; simp [sig, hz]
    have ht : PidInv N (l₁.map sig ++ sig a :: l₂.map sig) := by
      have := hpid
      rw [e1] at this
      simpa using this
    have hret : Retired (slotAt k.ptable j).pid N ((store k.ptable j reclaim).map sig) := by
      rw [e4 reclaim, e3]
      have := Retired_of_release N (l₁.map sig) (l₂.map sig) (sig a)
        (sig (reclaim a)) hlive (by simp [sig, reclaim]) ht
      simpa using this
    have hpid1 : PidInv N ((store k.ptable j reclaim).map sig) := by
      rw [e4 reclaim]
      have := PidInv_free N (l₁.map sig) (l₂.map sig) (sig a) (sig (reclaim a))
        (by simp [sig, reclaim]) ht
      simpa using this
    have h1 : 1 ≤ (slotAt k.ptable j).pid := by
      obtain ⟨a1, a2⟩ := ht.2.2.1 (sig a) (by simp) hlive
      rw [e3]
      exact pidOrd_pos a.pid a1 (by simp only [sig] at a2; omega)
    obtain ⟨N2, -, -, -, -, hkeep⟩ :=
      run_pid ops2 _ k2 N htier1 hpid1 hnp (by omega) hr
    exact wait_ne_retired _ _ _ Q h1 (hkeep _ hret)

/-- C11 on the four-slot scenario: the first process reaps slot 2 (pid 3);
after a further `fork`, which reuses slot 2, its `wait` does not return 3. -/
theorem C11_reaped_once_witness :
    wait (kernelAfter zombieOps).ptable 0 =
      (store (kernelAfter zombieOps).ptable 2 reclaim, WaitResult.ret 3) ∧
    (slotAt (store (kernelAfter zombieOps).ptable 2 reclaim) 2).state = procstate.UNUSED ∧
    (slotAt (store (kernelAfter zombieOps).ptable 2 reclaim) 2).pid = 0 ∧
    allocCalls zombieOps + allocCalls [Op.fork 0 14 15] = 5 ∧
    (wait (kernelAfter reuseOps).ptable 0).2 ≠ WaitResult.ret 3 := by
  obtain ⟨h1, -, h3, -, h5⟩ := C11_reaped_once 4 zombieOps (kernelAfter zombieOps) 0 2
    (by decide) (by decide) (by decide) (by decide)
    (by
      intro i hp hz
      have hi := running_lt _ i (by rw [hz]; decide)
      have hl : (kernelAfter zombieOps).ptable.length = 4 := by decide
      rw [hl] at hi
      interval_cases i <;> revert hp hz <;> decide)
  refine ⟨h1, by rw [h3], by rw [h3], by decide, ?_⟩
  exact h5 [Op.fork 0 14 15] (kernelAfter reuseOps) 0 (by decide) (by decide) (by decide)

/-- C12, the last part as stated, does not hold.  From boot: the first process
(slot 0, pid 1) forks A (slot 1, pid 2), A forks B (slot 2, pid 3), B exits,
the first process sleeps in `wait`, then A exits.  B is the only ZOMBIE
child handed over and the first process is woken, but its `wait` (taken on
the table `exit` leaves, or after it was dispatched again) returns 2, the pid
of A itself, whose slot comes first in table order: not the orphan's pid 3. -/
theorem C12_wait_returns_exiting_process :
    (slotAt orphanKernel.ptable 1).state = procstate.RUNNING ∧
    orphanKernel.initproc = Ptr.slot 0 ∧
    (slotAt orphanKernel.ptable 0).state = procstate.SLEEPING ∧
    (slotAt orphanKernel.ptable 0).chan = Ptr.slot 0 ∧
    (slotAt orphanKernel.ptable 2).parent = Ptr.slot 1 ∧
    (slotAt orphanKernel.ptable 2).state = procstate.ZOMBIE ∧
    (slotAt orphanKernel.ptable 2).pid = 3 ∧
    (orphanKernel.ptable.map (fun p => decide (p.parent = Ptr.slot 1 ∧
      p.state = procstate.ZOMBIE))) = [false, false, true, false] ∧
    (exit orphanKernel.ptable 1 orphanKernel.initproc).map
      (fun pt1 => ((slotAt pt1 0).state, (wait pt1 0).2)) =
      some (procstate.RUNNABLE, WaitResult.ret 2) ∧
    (run orphanKernel [Op.exit 1, Op.dispatch, Op.sleepTidy 0]).map
      (fun k => ((slotAt k.ptable 0).state, (wait k.ptable 0).2)) =
      some (procstate.RUNNING, WaitResult.ret 2) := by
  decide

/-- C12 (orphan reparenting), amended: for every table and every RUNNING
process `cur` other than the first process `ini`, `exit` leaves `cur`
ZOMBIE, every slot whose parent was `cur` has parent `ini`, every other slot
keeps its parent; and if a child `o` of `cur` was ZOMBIE while `ini` was
SLEEPING on its own slot address, then `ini` is RUNNABLE, `o` is a ZOMBIE
child of `ini` with its pid unchanged, and `wait` by `ini` (on any table that
differs from the one `exit` left only in the slot of `ini`, which is not
ZOMBIE) returns the pid of the first ZOMBIE child of `ini` in table order, at
position `j ≤ o`: the orphan when no ZOMBIE child of `ini` precedes it. -/
theorem C12_exit_reparents (pt : List proc) (cur ini : Nat) (hne : cur ≠ ini)
    (hrun : (slotAt pt cur).state = procstate.RUNNING) :
    ∃ pt1, exit pt cur (Ptr.slot ini) = some pt1 ∧
      (slotAt pt1 cur).state = procstate.ZOMBIE ∧
      (∀ i, (slotAt pt i).parent = Ptr.slot cur → (slotAt pt1 i).parent = Ptr.slot ini) ∧
      (∀ i, (slotAt pt i).parent ≠ Ptr.slot cur →
        (slotAt pt1 i).parent = (slotAt pt i).parent) ∧
      (∀ o, (slotAt pt o).parent = Ptr.slot cur → (slotAt pt o).state = procstate.ZOMBIE →
        (slotAt pt ini).state = procstate.SLEEPING → (slotAt pt ini).chan = Ptr.slot ini →
        (slotAt pt1 ini).state = procstate.RUNNABLE ∧
        (slotAt pt1 o).parent = Ptr.slot ini ∧
        (slotAt pt1 o).state = procstate.ZOMBIE ∧
        (slotAt pt1 o).pid = (slotAt pt o).pid ∧
        ∀ t2, (∀ i, i ≠ ini → slotAt t2 i = slotAt pt1 i) →
          (slotAt t2 ini).state ≠ procstate.ZOMBIE →
          ∃ j, j ≤ o ∧ (slotAt pt1 j).parent = Ptr.slot ini ∧
            (slotAt pt1 j).state = procstate.ZOMBIE ∧
            (∀ i, i < j → ¬ ((slotAt pt1 i).parent = Ptr.slot ini ∧
              (slotAt pt1 i).state = procstate.ZOMBIE)) ∧
            (wait t2 ini).2 = WaitResult.ret (slotAt pt1 j).pid) := by
  have hne2 : Ptr.slot cur ≠ Ptr.slot ini := by
    intro h
    exact hne (by injection h)
  obtain ⟨pt1, hex, -, hz, hpar, -, hwake⟩ := exit_slots pt cur (Ptr.slot ini) hne2 hrun
  refine ⟨pt1, hex, hz, ?_, ?_, ?_⟩
  · intro i hi
    rw [hpar i, if_pos hi]
  · intro i hi
    rw [hpar i, if_neg hi]
  · intro o hop hoz his hic
    have hoi : o ≠ ini := by
      intro h
      rw [h, his] at hoz
      exact absurd hoz (by decide)
    have hini : (slotAt pt1 ini).state = procstate.RUNNABLE := hwake ini ⟨o, hop, hoz⟩ his hic
    have hop1 : (slotAt pt1 o).parent = Ptr.slot ini := by rw [hpar o, if_pos hop]
    obtain ⟨hoz1, hopid⟩ := exit_zk pt cur (Ptr.slot ini) pt1 hex o hoz
    refine ⟨hini, hop1, hoz1, hopid, ?_⟩
    intro t2 hsame hnz
    obtain ⟨j, hjo, -, hjp, hjz, hfirst, hw⟩ := wait_reaps_first t2 ini o
      (by rw [hsame o hoi]; exact hop1) (by rw [hsame o hoi]; exact hoz1)
    have hji : j ≠ ini := by
      intro h
      rw [h] at hjz
      exact hnz hjz
    rw [hsame j hji] at hjp hjz
    refine ⟨j, hjo, hjp, hjz, ?_, ?_⟩
    · intro i hi hc
      by_cases hii : i = ini
      · rw [hii, hini] at hc
        exact absurd hc.2 (by decide)
      · exact hfirst i hi (by rw [hsame i hii]; exact hc)
    · rw [hw, hsame j hji]

/-- C12 on the scenario `orphanOps`: A (slot 1) exits while its child B
(slot 2) is ZOMBIE and the first process sleeps in `wait`. -/
theorem C12_exit_reparents_witness :
    ∃ pt1, exit orphanKernel.ptable 1 (Ptr.slot 0) = some pt1 ∧
      (slotAt pt1 1).state = procstate.ZOMBIE ∧
      (slotAt pt1 2).parent = Ptr.slot 0 ∧
      (slotAt pt1 0).state = procstate.RUNNABLE ∧
      (slotAt pt1 2).pid = 3 ∧
      ∃ j, j ≤ 2 ∧ (slotAt pt1 j).parent = Ptr.slot 0 ∧
        (slotAt pt1 j).state = procstate.ZOMBIE ∧
        (wait pt1 0).2 = WaitResult.ret (slotAt pt1 j).pid := by
  obtain ⟨pt1, h1, h2, h3, -, h5⟩ :=
    C12_exit_reparents orphanKernel.ptable 1 0 (by decide) (by decide)
  obtain ⟨a, b, -, d, e⟩ := h5 2 (by decide) (by decide) (by decide) (by decide)
  obtain ⟨j, j1, j2, j3, -, j5⟩ := e pt1 (fun _ _ => rfl) (by rw [a]; decide)
  exact ⟨pt1, h1, h2, b, a, by rw [d]; decide, j, j1, j2, j3, j5⟩

/-- C13 (ticket generator): for every sequence of bounds that are all at
least 1, the calls `rand1(b0)`, `rand1(b1)`, ... from the seed all return, the
`k`-th one the value `(100001 * 125^(k+1) mod 2796203) mod bk`, which lies
in `[0, bk)`; the state after `k` calls is `100001 * 125^k mod 2796203`
whatever the bounds were, it lies in `[1, 2796202]`, and its product with
125 is below 2^31, so the 32-bit wrap leaves it as it is. -/
theorem C13_rand1_sequence (bs : List Int) (hb : ∀ b ∈ bs, 1 ≤ b) :
    rand1Calls 100001 bs =
      some ((List.range bs.length).map
          (fun k => ((100001 * 125 ^ (k + 1)) % 2796203) % bs.getD k 1),
        (100001 * 125 ^ bs.length) % 2796203) ∧
    (∀ k, k < bs.length →
      0 ≤ ((100001 * 125 ^ (k + 1)) % 2796203) % bs.getD k 1 ∧
      ((100001 * 125 ^ (k + 1)) % 2796203) % bs.getD k 1 < bs.getD k 1) ∧
    (∀ k : Nat,
      1 ≤ (100001 * 125 ^ k : Int) % 2796203 ∧
      (100001 * 125 ^ k : Int) % 2796203 ≤ 2796202 ∧
      ((100001 * 125 ^ k : Int) % 2796203) * 125 < 2147483648 ∧
      wrap32 (((100001 * 125 ^ k) % 2796203) * 125) =
        ((100001 * 125 ^ k) % 2796203) * 125) := by
  refine ⟨?_, ?_, ?_⟩
  · have h := rand1Calls_from bs hb 0
    rw [randState_zero] at h
    rw [h]
    simp [randState]
  · intro k hk
    have hbk : 1 ≤ bs.getD k 1 := by
      rw [List.getD_eq_getElem?_getD, List.getElem?_eq_getElem hk]
      exact hb _ (List.getElem_mem hk)
    exact ⟨Int.emod_nonneg _ (by omega), Int.emod_lt_of_pos _ (by omega)⟩
  · intro k
    obtain ⟨h1, h2⟩ := randState_pos k
    obtain ⟨h3, h4, -⟩ := rand1_at k 1 (le_refl _)
    unfold randState at h1 h2 h3 h4
    exact ⟨h1, h2, h3, h4⟩

/-- C13 for the bounds 4, 1, 7: the values returned are 1, 0, 3. -/
theorem C13_rand1_sequence_witness :
    rand1Calls 100001 [4, 1, 7] = some ([1, 0, 3], 2469778) := by
  have h := (C13_rand1_sequence [4, 1, 7] (by decide)).1
  rw [h]
  decide

/-- C15 (failed fork): when `fork` fails after taking the FREE slot `i`
(no kernel stack, or no address-space copy), it returns -1, slot `i` is
FREE again without a kernel stack and no other slot changed, but slot `i`
keeps the pid `nextpid` it was given and `nextpid` has grown: the table is
not as it was before the call. -/
theorem C15_failed_fork_keeps_pid (pt : List proc) (np : Int) (cur kalloc copyuvm i : Nat)
    (hf : pt.findIdx? (fun p => decide (p.state = procstate.UNUSED)) = some i)
    (hfail : kalloc = 0 ∨ copyuvm = 0) :
    (fork pt np cur kalloc copyuvm).2.2 = -1 ∧
    (fork pt np cur kalloc copyuvm).2.1 = np + 1 ∧
    (slotAt (fork pt np cur kalloc copyuvm).1 i).state = procstate.UNUSED ∧
    (slotAt (fork pt np cur kalloc copyuvm).1 i).kstack = 0 ∧
    (slotAt (fork pt np cur kalloc copyuvm).1 i).pid = np ∧
    ∀ j, j ≠ i → slotAt (fork pt np cur kalloc copyuvm).1 j = slotAt pt j := by
  obtain ⟨hi, hs, ha⟩ := allocproc_first pt np kalloc i hf
  by_cases hk : kalloc = 0
  · rw [if_pos hk] at ha
    unfold fork
    rw [ha]
    simp only []
    refine ⟨trivial, trivial, ?_, ?_, ?_, ?_⟩
    · rw [slotAt_store_self _ _ _ hi]
    · rw [slotAt_store_self _ _ _ hi]
    · rw [slotAt_store_self _ _ _ hi]; rfl
    · intro j hj
      exact slotAt_store_ne _ _ _ _ (Ne.symm hj)
  · rw [if_neg hk] at ha
    have hc : copyuvm = 0 := by
      rcases hfail with h | h
      · exact absurd h hk
      · exact h
    unfold fork
    rw [ha]
    simp only [if_pos hc]
    have hi2 : i < (store pt i (fun p => { allocInit np p with kstack := kalloc })).length := by
      rw [store_length]; exact hi
    refine ⟨trivial, trivial, ?_, ?_, ?_, ?_⟩
    · rw [slotAt_store_self _ _ _ hi2]
    · rw [slotAt_store_self _ _ _ hi2]
    · rw [slotAt_store_self _ _ _ hi2, slotAt_store_self _ _ _ hi]; rfl
    · intro j hj
      rw [slotAt_store_ne _ _ _ _ (Ne.symm hj), slotAt_store_ne _ _ _ _ (Ne.symm hj)]

/-- C15 for a fork by the first process after boot whose address-space copy
fails: slot 1 held pid 0 before and holds pid 2 after, and `kill(2)` then
finds that FREE slot. -/
theorem C15_failed_fork_keeps_pid_witness :
    (slotAt initRunning.ptable 0).state = procstate.RUNNING ∧
    (slotAt initRunning.ptable 1).pid = 0 ∧
    initRunning.nextpid = 2 ∧
    (fork initRunning.ptable initRunning.nextpid 0 8 0).2.2 = -1 ∧
    (slotAt (fork initRunning.ptable initRunning.nextpid 0 8 0).1 1).state =
      procstate.UNUSED ∧
    (slotAt (fork initRunning.ptable initRunning.nextpid 0 8 0).1 1).pid = 2 ∧
    (fork initRunning.ptable initRunning.nextpid 0 8 0).1 ≠ initRunning.ptable ∧
    (kill (fork initRunning.ptable initRunning.nextpid 0 8 0).1 2).2 = 0 :=
  ⟨by decide, by decide, by decide,
    (C15_failed_fork_keeps_pid initRunning.ptable initRunning.nextpid 0 8 0 1
      (by decide) (Or.inr rfl)).1,
    by decide, by decide, by decide, by decide⟩

/-- C16 (ticket positivity): in every state reached from boot by the
operations of the core, every non-FREE slot has at least one ticket; in
the snapshot of a round a tier that is not empty has a ticket sum of at
least 1, so the `rand1` call of either tier returns (its bound is not 0),
and the round does not fault. -/
theorem C16_ticket_positivity (n : Nat) (ops : List Op) (k : Kernel)
    (h : run (boot n) ops = some k) :
    (∀ p ∈ k.ptable, p.state ≠ procstate.UNUSED → 1 ≤ p.numTickets) ∧
    ((snapshot k.ptable k.high k.low).emptyHigh = 1 →
      1 ≤ (snapshot k.ptable k.high k.low).hightickets ∧
      (rand1 k.rand (snapshot k.ptable k.high k.low).hightickets).isSome = true) ∧
    ((snapshot k.ptable k.high k.low).emptyLow = 1 →
      1 ≤ (snapshot k.ptable k.high k.low).lowtickets ∧
      (rand1 k.rand (snapshot k.ptable k.high k.low).lowtickets).isSome = true) ∧
    schedulerPick k.ptable k.high k.low k.rand ≠ Pick.fault := by
  obtain ⟨ht, -, hh, -⟩ := run_tier ops (boot n) k (boot_tier n) h
  have hlive : ∀ p ∈ k.ptable, p.state ≠ procstate.UNUSED →
      p.whichqueue = 1 ∧ 1 ≤ p.numTickets := by
    intro p hp hl
    exact ht (sig p) (List.mem_map_of_mem sig hp) (by simp [sig, hl])
  have hrun : ∀ x ∈ k.ptable, x.state = procstate.RUNNABLE → 1 ≤ x.numTickets := by
    intro x hx hr
    exact (hlive x hx (by rw [hr]; decide)).2
  obtain ⟨-, -, -, -, h5, h6⟩ := snapshot_sums k.ptable k.high k.low hrun
  refine ⟨fun p hp hl => (hlive p hp hl).2, ?_, ?_, ?_⟩
  · intro he
    have := h5 he
    refine ⟨this, ?_⟩
    unfold rand1
    simp only []
    rw [if_neg (by omega)]
    rfl
  · intro he
    have := h6 he
    refine ⟨this, ?_⟩
    unfold rand1
    simp only []
    rw [if_neg (by omega)]
    rfl
  · rcases schedulerPick_allHigh k.ptable k.high k.low k.rand
      (fun x hx hr => hlive x hx (by rw [hr]; decide)) hh with h0 | ⟨q, a1, -, -, h0⟩
    · rw [h0]; simp
    · rw [h0]; simp

/-- C16 after filling a table of four slots: the HIGH sum is 3. -/
theorem C16_ticket_positivity_witness :
    run (boot 4) fillOps = some (kernelAfter fillOps) ∧
    (snapshot (kernelAfter fillOps).ptable (kernelAfter fillOps).high
      (kernelAfter fillOps).low).hightickets = 3 ∧
    ∀ p ∈ (kernelAfter fillOps).ptable, p.state ≠ procstate.UNUSED → 1 ≤ p.numTickets :=
  ⟨by decide, by decide, (C16_ticket_positivity 4 fillOps (kernelAfter fillOps) (by decide)).1⟩

/-- C19 (address space of the dispatched process): in every round that
dispatches from the LOW tier the selected slot `proc` is a slot of the
table and is the one marked RUNNING with its LOW counter incremented, but
the argument of `switchuvm` is the loop pointer `p`, one past the table,
not the selected slot (the HIGH path passes `proc`). -/
theorem C19_low_path_activates_wrong_slot (pt : List proc)
    (high low : List (Option Nat)) (a : Int) (d : Dispatch)
    (hd : schedulerPick pt high low a = Pick.run d) (hl : d.fromHigh = false) :
    d.proc < pt.length ∧ d.uvm = pt.length ∧ d.uvm ≠ d.proc ∧
    d.ptable = store pt d.proc runLow := by
  have hp := schedulerPick_p pt high low a d hd
  unfold schedulerPick at hd
  simp only [] at hd
  split_ifs at hd
  · split at hd
    · exact absurd hd (by simp)
    · unfold pickHigh at hd
      split at hd
      · split at hd
        · injection hd with hd
          rw [← hd] at hl
          exact absurd hl (by simp)
        · exact absurd hd (by simp)
      · exact absurd hd (by simp)
  · split at hd
    · exact absurd hd (by simp)
    · unfold pickLow at hd
      split at hd
      · rename_i j hw
        split at hd
        · rename_i x hx
          injection hd with hd
          have hx2 := lotteryWalk_slot pt _ _ j x hw hx
          rw [← hd] at hp ⊢
          simp only [] at hp ⊢
          exact ⟨hx2, hp, by omega, trivial⟩
        · exact absurd hd (by simp)
      · exact absurd hd (by simp)

/-- C19 on the table with one RUNNABLE process in LOW: slot 0 is selected,
`switchuvm` gets index 1. -/
theorem C19_low_path_activates_wrong_slot_witness :
    schedulerPick oneLow (clearedQueue 1) (clearedQueue 1) 100001 =
      Pick.run oneLowDispatched ∧
    oneLowDispatched.proc = 0 ∧ oneLowDispatched.uvm = 1 ∧
    oneLowDispatched.uvm ≠ oneLowDispatched.proc :=
  ⟨by decide, by decide,
    (C19_low_path_activates_wrong_slot oneLow (clearedQueue 1) (clearedQueue 1) 100001
      oneLowDispatched (by decide) (by decide)).2.1,
    (C19_low_path_activates_wrong_slot oneLow (clearedQueue 1) (clearedQueue 1) 100001
      oneLowDispatched (by decide) (by decide)).2.2.1⟩

/-- C20 (the walk stays in its list): when the first `n >= 1` positions of a
queue hold processes with ticket counts `ts` and the draw `r` is below
their sum, the loop started at `j = 0` with the first count stops within
`n - 1` iterations at a position `j < n`; the walk of the scheduler stops
at the same `j`; the prefix sum up to `j` is at least `r` and every
shorter prefix sum is below `r`.  (Neither `0 <= r` nor positive counts
are needed.) -/
theorem C20_walk_in_list (pt : List proc) (q : List (Option Nat)) (ts : List Int)
    (r : Int) (hn : 1 ≤ ts.length)
    (hts : ∀ k, k < ts.length → ticketsAt pt q k = some (ts.getD k 0))
    (hr : r < ts.sum) :
    ∃ j, j < ts.length ∧
      walkLoop pt q r (ts.length - 1) 0 (ts.getD 0 0) = Walk.stop j ∧
      lotteryWalk pt q r = Walk.stop j ∧
      r ≤ (ts.take (j + 1)).sum ∧
      ∀ i, i < j → (ts.take (i + 1)).sum < r := by
  cases ts with
  | nil => simp at hn
  | cons t rest =>
    have h0 := hts 0 (by simp)
    simp only [List.getD_cons_zero] at h0
    have hrest : ∀ k, k < rest.length →
        ticketsAt pt q (0 + 1 + k) = some (rest.getD k 0) := by
      intro k hk
      have := hts (k + 1) (by simpa using hk)
      rw [List.getD_cons_succ] at this
      rw [← this]
      congr 1
      omega
    have hlen : rest.length ≤ q.length := by
      by_contra hc
      have hlast := hts rest.length (by simp)
      unfold ticketsAt at hlast
      rw [List.getElem?_eq_none (by omega)] at hlast
      exact absurd hlast (by simp)
    have hsum : r < t + rest.sum := by simpa using hr
    obtain ⟨d, h1, h2, h3, h4⟩ := walkLoop_least pt q r rest rest.length 0 t hrest hsum
      (le_refl _)
    obtain ⟨d', h1', h2', h3', h4'⟩ := walkLoop_least pt q r rest q.length 0 t hrest hsum hlen
    have hdd : d' = d := by
      rcases Nat.lt_trichotomy d' d with hlt | heq | hgt
      · have := h4 d' hlt
        omega
      · exact heq
      · have := h4' d hgt
        omega
    subst hdd
    refine ⟨d', by simp only [List.length_cons]; omega, ?_, ?_, ?_, ?_⟩
    · simpa using h2
    · unfold lotteryWalk
      rw [h0]
      simpa using h2'
    · simpa [List.take_succ_cons] using h3
    · intro i hi
      simpa [List.take_succ_cons] using h4 i hi

/-- C20 for the weights 1, 3 and the draw 3. -/
theorem C20_walk_in_list_witness :
    ∃ j, j < 2 ∧
      walkLoop tickets13 [some 0, some 1] 3 (2 - 1) 0 1 = Walk.stop j ∧
      lotteryWalk tickets13 [some 0, some 1] 3 = Walk.stop j ∧
      (3 : Int) ≤ (([1, 3] : List Int).take (j + 1)).sum ∧
      ∀ i, i < j → (([1, 3] : List Int).take (i + 1)).sum < 3 :=
  C20_walk_in_list tickets13 [some 0, some 1] [1, 3] 3 (by decide) (by decide) (by decide)

end P2b
